import Mathlib

/-!
# Verification of the WebDNN WebGPU memory allocator

Shallow embedding of `src/graph_builder/backend/webgpu/allocator.py`.

Modelling conventions:
* A `Variable` is identified by its `name` (a `Nat`, standing for the
  synthetic `v{i}` names produced by the orchestrator) together with its
  element count `size` and its constant flag.  Variable aliases
  (`VariableAlias`) are assumed already resolved to their originals, as the
  orchestrator's collection pass guarantees (spec section 9).
* The Python `MemoryLayout.__dict__` (an insertion-ordered dict keyed by
  `variable.name`) is a `List (Variable × Nat)` of (variable, offset)
  entries; assignment replaces the entry in place, otherwise appends.
* `retain_count` (a Python dict keyed by the variable object, initialised
  to `0` for every graph variable) is a total function `Variable → Int`;
  decrements can drive it negative exactly as in the source.
* Python exceptions (`list.remove` on a missing element, `KeyError`,
  `IndexError` on `list(op.inputs.values())[0]`) are modelled by `Option`:
  `none` means the pass raises instead of completing.
* `len(var.input_to)` (the fan-out) lives in the external graph collaborator
  (`graph_builder.graph.variable`), which is not part of the shown source.
  Modelled from the spec: fan-out is the number of consuming operator-input
  edges of the value in the whole graph (spec sections 3, 6).
* The unbounded `while flag_changed` coalescing loop is given explicit fuel
  `free_list.length + 2`; this bound is reached only by runs the proofs
  below never rely on, and exhaustion is mapped to `none`.
-/

namespace WebdnnAlloc

/-- A graph value: stable name, element count, and the constant flag.
Mirrors the `Variable`/`ConstantVariable` interface consumed read-only by
`allocator.py` (aliases are assumed resolved). -/
structure GVar where
  name : Nat
  size : Nat
  isConst : Bool
deriving DecidableEq

/-- An operator: its named-input list, named-output list (in iteration order
of `op.inputs.values()` / `op.outputs.values()`), and whether it is a
`Flatten` (the in-place pass-through test `isinstance(op, Flatten)`). -/
structure GOp where
  flatten : Bool
  inputs : List GVar
  outputs : List GVar
deriving DecidableEq

/-- A graph: its input values and its operators, already in the stable
topological order that `util.listup_operator_in_order` yields. -/
structure Graph where
  inputs : List GVar
  ops : List GOp
deriving DecidableEq

/-- Modelled from the spec: `len(var.input_to)`, the fan-out of a value,
is the number of consuming operator-input edges it has in the whole graph
(`graph_builder.graph.variable` is outside the shown source). -/
def fanout (g : Graph) (v : GVar) : Nat :=
  (g.ops.flatMap GOp.inputs).count v

/-- One allocation entry of a `MemoryLayout`: the variable and its offset
(`Allocation.size` is derived from the variable). -/
abbrev Entry := GVar × Nat

/-- `MemoryLayout.__dict__`: entries in insertion order, keyed by name. -/
abbrev Layout := List Entry

/-- Dict lookup by name (`MemoryLayout.__getitem__` via `var.name`). -/
def layoutFind? (L : Layout) (n : Nat) : Option Entry :=
  L.find? (fun e => e.1.name = n)

/-- `MemoryLayout.__contains__`: membership by name. -/
def layoutContains (L : Layout) (v : GVar) : Bool :=
  (layoutFind? L v.name).isSome

/-- `MemoryLayout.size`: recomputed on demand as the running maximum of
`allocation.offset + allocation.size` over all entries, starting from 0. -/
def layoutSize (L : Layout) : Nat :=
  L.foldl (fun acc e => max (e.2 + e.1.size) acc) 0

/-- `MemoryLayout.append(var, offset)` with an explicit offset: dict
assignment `self.__dict__[var.name] = Allocation(var, offset)` — replace the
entry with this name in place, otherwise append at the end. -/
def layoutInsert : Layout → GVar → Nat → Layout
  | [], v, off => [(v, off)]
  | e :: es, v, off =>
    if e.1.name = v.name then (v, off) :: es else e :: layoutInsert es v off

/-- `MemoryLayout.append(var)` with the default offset `-1`: the offset is
the current `self.size`. -/
def layoutAppend (L : Layout) (v : GVar) : Layout :=
  layoutInsert L v (layoutSize L)

/-- A free block `(offset, size)` of the variable arena free list. -/
abbrev Block := Nat × Nat

/-- `list.remove(x)`: drop the first occurrence, `none` models the
`ValueError` raised when the element is absent. -/
def removeFirst? : List Block → Block → Option (List Block)
  | [], _ => none
  | c :: cs, b => if c = b then some cs else (removeFirst? cs b).map (c :: ·)

/-- Total companion of `removeFirst?` (identity when the block is absent);
used only to state theorems. -/
def eraseFirst : List Block → Block → List Block
  | [], _ => []
  | c :: cs, b => if c = b then cs else c :: eraseFirst cs b

/-- Stable insertion by size, matching Python's stable `sorted` with
`key=lambda x: x[1]`. -/
def insertBySize (b : Block) : List Block → List Block
  | [] => [b]
  | c :: cs => if b.2 ≤ c.2 then b :: c :: cs else c :: insertBySize b cs

/-- Stable sort by block size (`sorted(spaces, key=lambda x: x[1])`). -/
def sortBySize : List Block → List Block
  | [] => []
  | b :: bs => insertBySize b (sortBySize bs)

/-- One iteration of the `for space2 in list(free_list)` body: both
adjacency tests in sequence, each merging `space1` with `space2`, removing
both from the current free list and appending the merged block. -/
def coalesceStep (sp2 : Block) (fl : List Block) (s1 : Block) (ch : Bool) :
    Option (List Block × Block × Bool) :=
  match (if sp2.1 + sp2.2 = s1.1 then
          match removeFirst? fl s1 with
          | none => none
          | some f1 =>
            match removeFirst? f1 sp2 with
            | none => none
            | some f2 => some (f2 ++ [(sp2.1, sp2.2 + s1.2)], (sp2.1, sp2.2 + s1.2), true)
         else some (fl, s1, ch)) with
  | none => none
  | some (fl1, s1a, ch1) =>
    if sp2.1 = s1a.1 + s1a.2 then
      match removeFirst? fl1 s1a with
      | none => none
      | some f1 =>
        match removeFirst? f1 sp2 with
        | none => none
        | some f2 => some (f2 ++ [(s1a.1, sp2.2 + s1a.2)], (s1a.1, sp2.2 + s1a.2), true)
    else some (fl1, s1a, ch1)

/-- One pass of the scan over the snapshot `list(free_list)`. -/
def coalesceScan : List Block → List Block → Block → Bool →
    Option (List Block × Block × Bool)
  | [], fl, s1, ch => some (fl, s1, ch)
  | sp2 :: rest, fl, s1, ch =>
    match coalesceStep sp2 fl s1 ch with
    | none => none
    | some (fl', s1', ch') => coalesceScan rest fl' s1' ch'

/-- The `while flag_changed` loop, fuelled. -/
def coalesceLoop : Nat → List Block → Block → Option (List Block)
  | 0, _, _ => none
  | fuel + 1, fl, s1 =>
    match coalesceScan fl fl s1 false with
    | none => none
    | some (fl', s1', ch) => if ch then coalesceLoop fuel fl' s1' else some fl'

/-- Release a block into the free list and coalesce
(`free_list.append(space1)` followed by the merge loop). -/
def releaseBlock (fl : List Block) (b : Block) : Option (List Block) :=
  coalesceLoop (fl.length + 2) (fl ++ [b]) b

/-- The mutable state of `Allocator.allocate_variables`. -/
structure AllocSt where
  layout : Layout
  retain : GVar → Int
  freel : List Block
  inplace : List (GVar × GVar)

/-- `inplace_allocation_dict` assignment (dict keyed by the output value). -/
def ipInsert : List (GVar × GVar) → GVar → GVar → List (GVar × GVar)
  | [], v, vin => [(v, vin)]
  | p :: ps, v, vin => if p.1 = v then (v, vin) :: ps else p :: ipInsert ps v vin

/-- `v2 = inplace_allocation_dict[v2] if v2 in inplace_allocation_dict else v2`
— the single-step resolution used in the input loop. -/
def ipResolve (ip : List (GVar × GVar)) (v : GVar) : GVar :=
  match ip.find? (fun p => p.1 = v) with
  | some p => p.2
  | none => v

/-- Processing of one operator output (lines 129–172 of the source):
skip constants and already-laid-out values; a `Flatten` output reuses its
first input's offset, records the in-place alias and bumps the input's
retain count by the output's fan-out; otherwise best-fit from the free list
(smallest sufficient block via stable sort) or growth at the arena end,
initialising the retain count to the fan-out. -/
def processOutput (g : Graph) (op : GOp) (st : AllocSt) (v : GVar) :
    Option AllocSt :=
  if v.isConst then some st
  else if layoutContains st.layout v then some st
  else if op.flatten then
    match op.inputs with
    | [] => none
    | vin :: _ =>
      match layoutFind? st.layout vin.name with
      | none => none
      | some e =>
        some { st with
          layout := layoutInsert st.layout v e.2
          inplace := ipInsert st.inplace v vin
          retain := fun u =>
            if u = vin then st.retain vin + (fanout g v : Int) else st.retain u }
  else
    let s := v.size
    let spaces := sortBySize (st.freel.filter (fun b => s ≤ b.2))
    let rt : GVar → Int := fun u => if u = v then (fanout g v : Int) else st.retain u
    match spaces with
    | [] =>
      some { st with layout := layoutAppend st.layout v, retain := rt }
    | sp :: _ =>
      match removeFirst? st.freel sp with
      | none => none
      | some f =>
        some { st with
          layout := layoutInsert st.layout v sp.1
          retain := rt
          freel := f ++ (if s < sp.2 then [(sp.1 + s, sp.2 - s)] else []) }

/-- Processing of one operator input (lines 174–209 of the source):
skip constants, resolve one step through the in-place dict, decrement the
retain count, and on reaching exactly zero release the backing allocation's
block into the free list and coalesce. -/
def processInput (st : AllocSt) (v : GVar) : Option AllocSt :=
  if v.isConst then some st
  else
    let v2 := ipResolve st.inplace v
    let r := st.retain v2 - 1
    let st' : AllocSt :=
      { st with retain := fun u => if u = v2 then r else st.retain u }
    if r = 0 then
      match layoutFind? st'.layout v2.name with
      | none => none
      | some e =>
        match releaseBlock st'.freel (e.2, e.1.size) with
        | none => none
        | some f => some { st' with freel := f }
    else some st'

/-- Fold of `processOutput` over an operator's outputs. -/
def processOutputs (g : Graph) (op : GOp) : AllocSt → List GVar → Option AllocSt
  | st, [] => some st
  | st, v :: vs =>
    match processOutput g op st v with
    | none => none
    | some st' => processOutputs g op st' vs

/-- Fold of `processInput` over an operator's inputs. -/
def processInputs : AllocSt → List GVar → Option AllocSt
  | st, [] => some st
  | st, v :: vs =>
    match processInput st v with
    | none => none
    | some st' => processInputs st' vs

/-- One operator of the forward pass: outputs first, then inputs. -/
def processOp (g : Graph) (st : AllocSt) (op : GOp) : Option AllocSt :=
  match processOutputs g op st op.outputs with
  | none => none
  | some st' => processInputs st' op.inputs

/-- The seeding loop over `graph.inputs.values()`: non-constant inputs are
appended at the current end of the arena. -/
def seedInputs : Layout → List GVar → Layout
  | L, [] => L
  | L, v :: vs =>
    if v.isConst then seedInputs L vs else seedInputs (layoutAppend L v) vs

/-- The state right after the seeding loop: every retain count is the `0`
of `{v: 0 for v in variables}`, the free list and in-place dict are empty. -/
def initSt (g : Graph) : AllocSt :=
  { layout := seedInputs [] g.inputs
    retain := fun _ => 0
    freel := []
    inplace := [] }

/-- The operator fold of `Allocator.allocate_variables`. -/
def runOps (g : Graph) : AllocSt → List GOp → Option AllocSt
  | st, [] => some st
  | st, op :: ops =>
    match processOp g st op with
    | none => none
    | some st' => runOps g st' ops

/-- `Allocator.allocate_variables`: seed the graph inputs, then walk the
operators in topological order. -/
def allocateVariables (g : Graph) : Option AllocSt :=
  runOps g (initSt g) g.ops

/-- `Allocator.allocate_constants` (layout part): append each constant at
the current end unless its identity is already present.  The numeric
`np.float32` buffer filled afterwards is outside the scope of the claims. -/
def allocateConstants : Layout → List GVar → Layout
  | L, [] => L
  | L, c :: cs =>
    if layoutContains L c then allocateConstants L cs
    else allocateConstants (layoutAppend L c) cs

/-! ## The orchestrator (`Allocator.allocate`)

`util.listup_variables` and the renaming loop live partly outside the shown
source.  Modelled from the spec (section 4.1): the orchestrator enumerates
every reachable value once, in traversal-visitation order with duplicates
removed, and assigns each value a fresh sequential synthetic name in that
order, mutating the graph in place. -/

/-- All value occurrences of the graph in traversal order. -/
def occList (g : Graph) : List GVar :=
  g.inputs ++ g.ops.flatMap (fun op => op.inputs ++ op.outputs)

/-- Keep-first deduplication (the set of reachable values, in first-visit
order). -/
def dedupVarsAux : List GVar → List GVar → List GVar
  | _, [] => []
  | seen, v :: vs =>
    if v ∈ seen then dedupVarsAux seen vs else v :: dedupVarsAux (v :: seen) vs

/-- Modelled from the spec: `util.listup_variables(graph, remove_alias=True)`
— the distinct reachable values, in deterministic visitation order. -/
def dedupVars (l : List GVar) : List GVar := dedupVarsAux [] l

/-- The value collection used by `Allocator.allocate`. -/
def listupVariables (g : Graph) : List GVar := dedupVars (occList g)

/-- `v.name = f"v{i}"`: a value's new name is its index in the collection. -/
def renameVar (d : List GVar) (v : GVar) : GVar :=
  { v with name := d.findIdx (fun u => u = v) }

/-- The in-place renaming pass of `Allocator.allocate`, as a graph-to-graph
function (the Python mutates the shared value objects). -/
def renameGraph (g : Graph) : Graph :=
  let d := listupVariables g
  { inputs := g.inputs.map (renameVar d)
    ops := g.ops.map (fun op =>
      ⟨op.flatten, op.inputs.map (renameVar d), op.outputs.map (renameVar d)⟩) }

/-- `Allocator.allocate`: rename every reachable value, split off the
constants, pack them, and run the variable allocator.  Returns the variable
allocator's final state and the constant layout. -/
def allocate (g : Graph) : Option AllocSt × Layout :=
  let g2 := renameGraph g
  (allocateVariables g2, allocateConstants [] ((listupVariables g2).filter (·.isConst)))

/-! ## Spec-side definitions (for refinement-style claims) -/

/-- Follows the spec's words (claim C3): among the free blocks whose size is
at least the required size, the one with the smallest sufficient size, ties
broken by whichever the search encounters first. -/
def specBestFit : List Block → Nat → Option Block
  | [], _ => none
  | b :: bs, s =>
    if s ≤ b.2 then
      match specBestFit bs s with
      | none => some b
      | some c => if c.2 < b.2 then some c else some b
    else specBestFit bs s

/-- Follows the spec's words (claim C8): constants are packed back-to-back
in input order, each distinct identity (name) exactly once at its first
occurrence. -/
def packSpecAux : List Nat → Nat → List GVar → Layout
  | _, _, [] => []
  | seen, off, c :: cs =>
    if c.name ∈ seen then packSpecAux seen off cs
    else (c, off) :: packSpecAux (c.name :: seen) (off + c.size) cs

/-- The spec's constant packing, from an empty arena. -/
def packSpec (cs : List GVar) : Layout := packSpecAux [] 0 cs

/-- An arbitrary sequence of `MemoryLayout.append` calls (claim C9); `none`
stands for the default offset `-1`. -/
def applyAppends : Layout → List (GVar × Option Nat) → Layout
  | L, [] => L
  | L, (v, some off) :: rest => applyAppends (layoutInsert L v off) rest
  | L, (v, none) :: rest => applyAppends (layoutAppend L v) rest

/-! ## Vocabulary for the allocator invariants -/

/-- Address `x` lies inside block `b`. -/
def inRange (b : Block) (x : Nat) : Prop := b.1 ≤ x ∧ x < b.1 + b.2

/-- Two blocks are separated: disjoint and not byte-adjacent. -/
def Sep (b c : Block) : Prop := b.1 + b.2 < c.1 ∨ c.1 + c.2 < b.1

/-- Address-level disjointness of two blocks (empty blocks are disjoint
from everything). -/
def ADisj (b c : Block) : Prop := ∀ x, inRange b x → ¬ inRange c x

/-- The byte range of a layout entry. -/
def entryBlock (e : Entry) : Block := (e.2, e.1.size)

/-- The non-constant graph inputs (the values the seeding loop appends). -/
def inputsNC (g : Graph) : List GVar := g.inputs.filter (fun v => !v.isConst)

/-- A value whose storage must not be touched: a graph input (the code
never re-initialises their retain counts, so they are never released), a
fan-out-0 value (never decremented), or a value whose retain count is
nonzero. -/
def live (g : Graph) (st : AllocSt) (v : GVar) : Prop :=
  v ∈ inputsNC g ∨ fanout g v = 0 ∨ st.retain v ≠ 0

/-- The non-constant outputs of all operators. -/
def allOutputsNC (g : Graph) : List GVar :=
  (g.ops.flatMap GOp.outputs).filter (fun v => !v.isConst)

/-- Executable topological-order check: every non-constant operator input
is a graph input or an output of an earlier operator. -/
def topoOkAux : List GVar → List GOp → Bool
  | _, [] => true
  | avail, op :: rest =>
    (op.inputs.all (fun v => v.isConst || avail.any (fun u => u = v)))
      && topoOkAux (avail ++ op.outputs) rest

/-- Topological-order check from the graph inputs. -/
def topoOk (g : Graph) : Bool := topoOkAux g.inputs g.ops

/-- Well-formedness of a graph, as the external graph collaborator
guarantees it (spec section 6): distinct input names, globally distinct
non-constant output names that do not collide with input names, and a
topological operator order. -/
def WF (g : Graph) : Prop :=
  ((inputsNC g).map (fun v => v.name)).Nodup ∧
  ((allOutputsNC g).map (fun v => v.name)).Nodup ∧
  (∀ v ∈ allOutputsNC g, ∀ u ∈ inputsNC g, v.name ≠ u.name) ∧
  topoOk g = true

/-- No operator is a `Flatten` (no in-place pass-through aliasing). -/
def NoFlatten (g : Graph) : Prop := ∀ op ∈ g.ops, op.flatten = false

/-- The non-constant outputs of a list of already-processed operators. -/
def prodOf (done : List GOp) : List GVar :=
  (done.flatMap GOp.outputs).filter (fun v => !v.isConst)

/-- The consumption ledger: how each retain count relates to the fan-out
and the input occurrences consumed so far (`prod` = non-constant outputs
already produced, `cons` = input occurrences already processed). -/
def Ledger (g : Graph) (prod cons : List GVar) (st : AllocSt) : Prop :=
  ∀ v : GVar, v.isConst = false →
    (v ∈ inputsNC g → st.retain v = -(cons.count v : Int)) ∧
    (v ∉ inputsNC g → v ∈ prod →
      st.retain v = (fanout g v : Int) - (cons.count v : Int) ∧
      ∃ o, (v, o) ∈ st.layout) ∧
    (v ∉ inputsNC g → v ∉ prod → st.retain v = 0 ∧ cons.count v = 0)

/-- The input occurrences of a list of already-processed operators. -/
def consOf (done : List GOp) : List GVar := done.flatMap GOp.inputs

/-- The allocator invariant for Flatten-free graphs: unique names, seeded
inputs, every entry accounted for, a separated positive free list disjoint
from all live allocations and inside the arena, pairwise-disjoint live
allocations, an empty in-place dict, and the retain-count ledger. -/
structure StInv (g : Graph) (prod cons : List GVar) (st : AllocSt) : Prop where
  nodup : (st.layout.map (fun e => e.1.name)).Nodup
  inputsIn : ∀ v ∈ inputsNC g, ∃ o, (v, o) ∈ st.layout
  layoutChar : ∀ e ∈ st.layout, (e.1 ∈ inputsNC g ∨ e.1 ∈ prod) ∧ e.1.isConst = false
  sepFree : st.freel.Pairwise Sep
  posFree : ∀ b ∈ st.freel, 0 < b.2
  freeLive : ∀ b ∈ st.freel, ∀ e ∈ st.layout, live g st e.1 → ADisj b (entryBlock e)
  liveDisj : st.layout.Pairwise
    (fun e1 e2 => live g st e1.1 → live g st e2.1 → ADisj (entryBlock e1) (entryBlock e2))
  freeBound : ∀ b ∈ st.freel, ∀ x, inRange b x → x < layoutSize st.layout
  ipNil : st.inplace = []
  ledger : Ledger g prod cons st

/-! ## Result projections (used to state concrete-scenario claims) -/

/-- The offset assigned to the value named `n`, if the pass completes. -/
def varOffset (g : Graph) (n : Nat) : Option Nat :=
  (allocateVariables g).bind fun st => (layoutFind? st.layout n).map (·.2)

/-- The total variable-arena size, if the pass completes. -/
def varTotal (g : Graph) : Option Nat :=
  (allocateVariables g).map fun st => layoutSize st.layout

/-- The final free list, if the pass completes. -/
def varFreel (g : Graph) : Option (List Block) :=
  (allocateVariables g).map (·.freel)

/-- The free list after the first `k` operators. -/
def varFreelAt (g : Graph) (k : Nat) : Option (List Block) :=
  (runOps g (initSt g) (g.ops.take k)).map (·.freel)

/-- The final in-place aliasing dict, if the pass completes. -/
def varInplace (g : Graph) : Option (List (GVar × GVar)) :=
  (allocateVariables g).map (·.inplace)

/-! ## Concrete scenario graphs -/

/-- C1 scenario, input `X` of size 4. -/
def xC1 : GVar := ⟨0, 4, false⟩

/-- C1 scenario, `Y = Op1(X)` of size 4 and fan-out 1. -/
def yC1 : GVar := ⟨1, 4, false⟩

/-- C1 scenario, `Z = Op2(Y)` of size 4 and fan-out 0. -/
def zC1 : GVar := ⟨2, 4, false⟩

/-- The C1 scenario graph: `X → Op1 → Y → Op2 → Z`. -/
def gC1 : Graph := ⟨[xC1], [⟨false, [xC1], [yC1]⟩, ⟨false, [yC1], [zC1]⟩]⟩

/-- C5 scenario, input `X` of size 4. -/
def xC5 : GVar := ⟨0, 4, false⟩

/-- C5 scenario, `Y = Flatten(X)`, fan-out 1. -/
def yC5 : GVar := ⟨1, 4, false⟩

/-- C5 scenario, `Z = ReLU(Y)`, fan-out 0. -/
def zC5 : GVar := ⟨2, 4, false⟩

/-- The C5 scenario graph: `X → Flatten → Y → ReLU → Z`.  It also serves as
a counterexample graph for claim C2: `Z` is best-fit allocated into `X`'s
prematurely released block while only `Y ↦ X` is recorded as an alias. -/
def gC5 : Graph := ⟨[xC5], [⟨true, [xC5], [yC5]⟩, ⟨false, [yC5], [zC5]⟩]⟩

/-- The Flatten operator of the C5 graph. -/
def opFlatC5 : GOp := ⟨true, [xC5], [yC5]⟩

/-- Chain-graph values for the C2 counterexample (all size 4, fan-out 1
except the final output). -/
def iCh : GVar := ⟨0, 4, false⟩

/-- Chain graph: `A = Op1(I)`. -/
def aCh : GVar := ⟨1, 4, false⟩

/-- Chain graph: `B = Op2(A)`. -/
def bCh : GVar := ⟨2, 4, false⟩

/-- Chain graph: `C = Op3(B)`. -/
def cCh : GVar := ⟨3, 4, false⟩

/-- The Flatten-free chain graph `I → Op1 → A → Op2 → B → Op3 → C`: after
`Op2` consumes `A`, `A`'s block `(4,4)` is released, and `Op3`'s output `C`
is best-fit allocated at offset 4, overlapping the dead `A`'s layout entry
without any aliasing relationship. -/
def gChain : Graph :=
  ⟨[iCh], [⟨false, [iCh], [aCh]⟩, ⟨false, [aCh], [bCh]⟩, ⟨false, [bCh], [cCh]⟩]⟩

/-- C7 counterexample, input `I` of size 4. -/
def iC7 : GVar := ⟨0, 4, false⟩

/-- C7 counterexample, `X = Op1(I)`, consumed once by the Flatten. -/
def xC7 : GVar := ⟨1, 4, false⟩

/-- C7 counterexample, `Y = Flatten(X)`, fan-out 0 (dead output). -/
def yC7 : GVar := ⟨2, 4, false⟩

/-- The C7 counterexample graph `I → Op1 → X → Flatten → Y`: the dead
output `Y` shares `X`'s block, and that block is released into the free set
when `X`'s retain count reaches zero. -/
def gC7 : Graph := ⟨[iC7], [⟨false, [iC7], [xC7]⟩, ⟨true, [xC7], [yC7]⟩]⟩

/-- C10 failing input, graph input of size 1. -/
def iC10 : GVar := ⟨0, 1, false⟩

/-- C10 failing input, the zero-size value `V = Op1(I)` with fan-out 1. -/
def vC10 : GVar := ⟨1, 0, false⟩

/-- C10 failing input, `O = Op2(V)` of size 1. -/
def oC10 : GVar := ⟨2, 1, false⟩

/-- The C10 failing graph `I → Op1 → V(size 0) → Op2 → O`: releasing `V`
makes the coalescing loop remove the zero-size block twice and raise. -/
def gC10 : Graph := ⟨[iC10], [⟨false, [iC10], [vC10]⟩, ⟨false, [vC10], [oC10]⟩]⟩

/-- A value of size 2 used to exercise the best-fit step (claim C3). -/
def vC3 : GVar := ⟨5, 2, false⟩

/-- An operator producing `vC3` (claim C3 witness). -/
def opC3 : GOp := ⟨false, [], [vC3]⟩

/-- An allocator state with free blocks `(0,4)`, `(6,2)`, `(8,3)`: the
best fit for size 2 is `(6,2)` (claim C3 witness). -/
def stC3 : AllocSt := ⟨[], fun _ => 0, [(0, 4), (6, 2), (8, 3)], []⟩

/-- The empty graph (used as a dummy context in step-level witnesses). -/
def gEmpty : Graph := ⟨[], []⟩

/-! ## Claim C1: the concrete best-fit reuse scenario -/

/-- C1 counterexample: in the scenario graph (input `X` size 4,
`Op1: X→Y` size 4 fan-out 1, `Op2: Y→Z` size 4 fan-out 0) the allocator
does **not** place `Z` at offset 0 with total size 8.  `retain_count` is
initialised to 0 for every variable and graph inputs never have it set to
their fan-out, so consuming `X` drives it to −1, never 0: `X` is never
released and `Z` grows the arena instead of reusing `(0,4)`. -/
theorem c1_counterexample : ¬ (varOffset gC1 2 = some 0 ∧ varTotal gC1 = some 8) := by
  decide

/-- C1 (amended): in the scenario graph the allocator assigns `X` offset 0
and `Y` offset 4; after `Op1` the free set is still empty (`X`'s retain
count went 0 → −1, so `X` is never released); `Z` is therefore allocated at
the current arena end, offset 8; after `Op2` the free set holds `Y`'s
released block `(4,4)` and the total variable-arena size is 12. -/
theorem c1_concrete_scenario_amended :
    varOffset gC1 0 = some 0 ∧ varOffset gC1 1 = some 4 ∧ varOffset gC1 2 = some 8 ∧
    varTotal gC1 = some 12 ∧ varFreelAt gC1 1 = some [] ∧ varFreel gC1 = some [(4, 4)] := by
  decide

/-! ## Claim C5: the Flatten in-place aliasing scenario -/

/-- C5: in `X → Flatten → Y → ReLU → Z` with `fanout Y = 1`, processing the
Flatten output `Y` from the seeded state allocates no independent block
(the free list stays empty and the arena size stays 4): `Y` is recorded at
`X`'s offset 0, the in-place alias map sends `Y` to `X`, and `X`'s retain
count becomes `0 + fanout Y = 1`, i.e. it is incremented by `Y`'s fan-out.
In the final layout `Y` still has `X`'s offset and the alias pair `(Y, X)`
is still recorded. -/
theorem c5_flatten_aliasing :
    (processOutput gC5 opFlatC5 (initSt gC5) yC5).map
        (fun st => ((layoutFind? st.layout yC5.name).map (·.2), st.freel,
          layoutSize st.layout, st.retain xC5, ipResolve st.inplace yC5)) =
      some (some 0, [], 4, 1, xC5) ∧
    (initSt gC5).retain xC5 = 0 ∧ fanout gC5 yC5 = 1 ∧
    varOffset gC5 yC5.name = some 0 ∧ varOffset gC5 xC5.name = some 0 ∧
    varInplace gC5 = some [(yC5, xC5)] := by
  decide

/-! ## Layout lemmas (claims C8, C9) -/

lemma layoutSize_init_le (L : Layout) :
    ∀ acc : Nat, acc ≤ L.foldl (fun acc e => max (e.2 + e.1.size) acc) acc := by
  induction L with
  | nil => intro acc; exact le_refl _
  | cons e es ih => intro acc; exact le_trans (le_max_right _ _) (ih _)

lemma foldl_max_mem_le (L : Layout) :
    ∀ (acc : Nat) (e : Entry), e ∈ L →
      e.2 + e.1.size ≤ L.foldl (fun acc e => max (e.2 + e.1.size) acc) acc := by
  induction L with
  | nil => intro acc e he; cases he
  | cons a as ih =>
    intro acc e he
    cases he with
    | head => exact le_trans (le_max_left _ _) (layoutSize_init_le as _)
    | tail _ h => exact ih _ _ h

lemma layoutSize_mem_le (L : Layout) (e : Entry) (he : e ∈ L) :
    e.2 + e.1.size ≤ layoutSize L :=
  foldl_max_mem_le L 0 e he

lemma foldl_max_attained (L : Layout) :
    ∀ acc : Nat, L.foldl (fun acc e => max (e.2 + e.1.size) acc) acc = acc ∨
      ∃ e ∈ L, L.foldl (fun acc e => max (e.2 + e.1.size) acc) acc = e.2 + e.1.size := by
  induction L with
  | nil => intro acc; exact Or.inl rfl
  | cons a as ih =>
    intro acc
    rcases ih (max (a.2 + a.1.size) acc) with h | ⟨e, he, h⟩
    · rcases Nat.le_total (a.2 + a.1.size) acc with hle | hle
      · exact Or.inl (by rw [List.foldl_cons, h]; omega)
      · exact Or.inr ⟨a, List.mem_cons_self _ _, by rw [List.foldl_cons, h]; omega⟩
    · exact Or.inr ⟨e, List.mem_cons_of_mem _ he, h⟩

lemma layoutSize_attained (L : Layout) (h : L ≠ []) :
    ∃ e ∈ L, layoutSize L = e.2 + e.1.size := by
  rcases foldl_max_attained L 0 with h0 | he
  · cases L with
    | nil => exact absurd rfl h
    | cons a as =>
      refine ⟨a, List.mem_cons_self _ _, ?_⟩
      have ha := layoutSize_mem_le (a :: as) a (List.mem_cons_self _ _)
      have : layoutSize (a :: as) = 0 := h0
      omega
  · exact he

lemma layoutFind?_insert_self (L : Layout) (v : GVar) (off : Nat) :
    layoutFind? (layoutInsert L v off) v.name = some (v, off) := by
  induction L with
  | nil => simp [layoutInsert, layoutFind?, List.find?]
  | cons e es ih =>
    by_cases h : e.1.name = v.name
    · simp [layoutInsert, h, layoutFind?, List.find?]
    · simpa [layoutInsert, h, layoutFind?, List.find?] using ih

lemma layoutFind?_insert_other (L : Layout) (v : GVar) (off n : Nat) (h : n ≠ v.name) :
    layoutFind? (layoutInsert L v off) n = layoutFind? L n := by
  have hvn : ¬ (v.name = n) := fun hx => h hx.symm
  induction L with
  | nil => simp [layoutInsert, layoutFind?, List.find?, hvn]
  | cons e es ih =>
    by_cases he : e.1.name = v.name
    · have hen : ¬ (e.1.name = n) := by rw [he]; exact hvn
      simp [layoutInsert, he, layoutFind?, List.find?, hvn, hen]
    · have hins : layoutInsert (e :: es) v off = e :: layoutInsert es v off := by
        simp [layoutInsert, he]
      by_cases hn : e.1.name = n
      · rw [hins]; simp [layoutFind?, List.find?, hn]
      · rw [hins]; simpa [layoutFind?, List.find?, hn] using ih

lemma names_insert (L : Layout) (v : GVar) (off : Nat) :
    (layoutInsert L v off).map (fun e => e.1.name) =
      if v.name ∈ L.map (fun e => e.1.name) then L.map (fun e => e.1.name)
      else L.map (fun e => e.1.name) ++ [v.name] := by
  induction L with
  | nil => simp [layoutInsert]
  | cons e es ih =>
    by_cases h : e.1.name = v.name
    · simp [layoutInsert, h]
    · have : ¬ (v.name = e.1.name) := fun hx => h hx.symm
      by_cases hm : v.name ∈ es.map (fun e => e.1.name)
      · simp [layoutInsert, h, this, hm, ih]
      · simp [layoutInsert, h, this, hm, ih]

lemma nodup_names_insert (L : Layout) (v : GVar) (off : Nat)
    (h : (L.map (fun e => e.1.name)).Nodup) :
    ((layoutInsert L v off).map (fun e => e.1.name)).Nodup := by
  rw [names_insert]
  by_cases hm : v.name ∈ L.map (fun e => e.1.name)
  · simpa [hm] using h
  · simp [hm, List.nodup_append, h]

lemma applyAppends_nodup_names :
    ∀ (ops : List (GVar × Option Nat)) (L : Layout),
      (L.map (fun e => e.1.name)).Nodup →
      ((applyAppends L ops).map (fun e => e.1.name)).Nodup := by
  intro ops
  induction ops with
  | nil => intro L h; exact h
  | cons p rest ih =>
    intro L h
    match p with
    | (v, some off) => exact ih _ (nodup_names_insert L v off h)
    | (v, none) => exact ih _ (nodup_names_insert L v _ h)

lemma layoutContains_iff (L : Layout) (v : GVar) :
    layoutContains L v = true ↔ v.name ∈ L.map (fun e => e.1.name) := by
  induction L with
  | nil => simp [layoutContains, layoutFind?, List.find?]
  | cons e es ih =>
    by_cases h : e.1.name = v.name
    · simp [layoutContains, layoutFind?, List.find?, h]
    · have hne : ¬ (v.name = e.1.name) := fun hx => h hx.symm
      simp only [layoutContains, layoutFind?, List.find?] at ih ⊢
      simp [h, hne, ih]

lemma layoutInsert_fresh (L : Layout) (v : GVar) (off : Nat)
    (h : v.name ∉ L.map (fun e => e.1.name)) :
    layoutInsert L v off = L ++ [(v, off)] := by
  induction L with
  | nil => simp [layoutInsert]
  | cons e es ih =>
    simp only [List.map_cons, List.mem_cons] at h
    push_neg at h
    have : ¬ (e.1.name = v.name) := fun hx => h.1 hx.symm
    simp [layoutInsert, this, ih h.2]

lemma layoutSize_append_end (L : Layout) (v : GVar) :
    layoutSize (L ++ [(v, layoutSize L)]) = layoutSize L + v.size := by
  show (L ++ [(v, layoutSize L)]).foldl (fun acc e => max (e.2 + e.1.size) acc) 0 = _
  rw [List.foldl_append]
  show max (layoutSize L + v.size) (layoutSize L) = _
  omega

lemma packSpecAux_congr :
    ∀ (cs : List GVar) (s₁ s₂ : List Nat) (off : Nat),
      (∀ n, n ∈ s₁ ↔ n ∈ s₂) → packSpecAux s₁ off cs = packSpecAux s₂ off cs := by
  intro cs
  induction cs with
  | nil => intros; rfl
  | cons c cs ih =>
    intro s₁ s₂ off h
    simp only [packSpecAux]
    by_cases hc : c.name ∈ s₁
    · rw [if_pos hc, if_pos ((h _).1 hc)]
      exact ih _ _ _ h
    · rw [if_neg hc, if_neg (fun hx => hc ((h _).2 hx))]
      refine congrArg _ (ih _ _ _ ?_)
      intro n
      simp only [List.mem_cons, h n]

lemma allocateConstants_eq_pack :
    ∀ (cs : List GVar) (L : Layout),
      allocateConstants L cs =
        L ++ packSpecAux (L.map (fun e => e.1.name)) (layoutSize L) cs := by
  intro cs
  induction cs with
  | nil => intro L; simp [allocateConstants, packSpecAux]
  | cons c cs ih =>
    intro L
    by_cases hc : layoutContains L c = true
    · have hn : c.name ∈ L.map (fun e => e.1.name) := (layoutContains_iff L c).1 hc
      simp only [allocateConstants, packSpecAux, hc, if_true, if_pos hn]
      exact ih L
    · have hn : c.name ∉ L.map (fun e => e.1.name) := fun hx =>
        hc ((layoutContains_iff L c).2 hx)
      have hb : layoutContains L c = false := by
        cases h : layoutContains L c
        · rfl
        · exact absurd h hc
      have happ : layoutAppend L c = L ++ [(c, layoutSize L)] :=
        layoutInsert_fresh L c (layoutSize L) hn
      simp only [allocateConstants, packSpecAux, hb, Bool.false_eq_true, if_false, if_neg hn]
      rw [ih (layoutAppend L c), happ]
      rw [List.append_assoc, List.singleton_append]
      refine congrArg _ (congrArg _ ?_)
      have hnames : (L ++ [(c, layoutSize L)]).map (fun e => e.1.name) =
          L.map (fun e => e.1.name) ++ [c.name] := by simp
      rw [hnames, layoutSize_append_end]
      exact packSpecAux_congr cs _ _ _ (fun n => by simp [List.mem_cons, or_comm])

lemma packSpecAux_names :
    ∀ (cs : List GVar) (seen : List Nat) (off : Nat),
      ((packSpecAux seen off cs).map (fun e => e.1.name)).Nodup ∧
        ∀ n ∈ (packSpecAux seen off cs).map (fun e => e.1.name), n ∉ seen := by
  intro cs
  induction cs with
  | nil => intro seen off; simp [packSpecAux]
  | cons c cs ih =>
    intro seen off
    by_cases hc : c.name ∈ seen
    · simpa [packSpecAux, hc] using ih seen off
    · obtain ⟨h1, h2⟩ := ih (c.name :: seen) (off + c.size)
      refine ⟨?_, ?_⟩
      · simp only [packSpecAux, if_neg hc, List.map_cons, List.nodup_cons]
        exact ⟨fun hx => (h2 _ hx) (List.mem_cons_self _ _), h1⟩
      · intro n hn
        simp only [packSpecAux, if_neg hc, List.map_cons, List.mem_cons] at hn
        rcases hn with rfl | hn
        · exact hc
        · exact fun hx => (h2 _ hn) (List.mem_cons_of_mem _ hx)

lemma packSpecAux_foldl_size :
    ∀ (cs : List GVar) (seen : List Nat) (off acc : Nat),
      (packSpecAux seen off cs).foldl (fun acc e => max (e.2 + e.1.size) acc) acc =
        if packSpecAux seen off cs = [] then acc
        else max acc (off + ((packSpecAux seen off cs).map (fun e => e.1.size)).sum) := by
  intro cs
  induction cs with
  | nil => intro seen off acc; simp [packSpecAux]
  | cons c cs ih =>
    intro seen off acc
    by_cases hc : c.name ∈ seen
    · simpa [packSpecAux, hc] using ih seen off acc
    · simp only [packSpecAux, if_neg hc]
      rw [List.foldl_cons, ih (c.name :: seen) (off + c.size)]
      by_cases hrest : packSpecAux (c.name :: seen) (off + c.size) cs = []
      · simp [hrest]; omega
      · simp only [hrest, if_false, List.cons_ne_self]
        have : ((c, off) :: packSpecAux (c.name :: seen) (off + c.size) cs) ≠ [] := by
          simp
        simp only [this, if_false, List.map_cons, List.sum_cons]
        omega

/-! ## Claim C9: `MemoryLayout.size` is recomputed on demand -/

/-- C9: the total-size query of a memory layout is derived, not stored:
it is 0 on the empty layout; it bounds `offset+size` of every allocation;
when the layout is nonempty it is attained by some allocation; any layout
built by a sequence of appends keeps at most one allocation per identity
(name); and re-appending an existing identity overwrites that entry while
leaving every other identity's lookup unchanged — so the size query is
computed from the current entries after any append sequence. -/
theorem c9_size_recomputed_on_demand :
    layoutSize ([] : Layout) = 0 ∧
    (∀ L : Layout, ∀ e ∈ L, e.2 + e.1.size ≤ layoutSize L) ∧
    (∀ L : Layout, L ≠ [] → ∃ e ∈ L, layoutSize L = e.2 + e.1.size) ∧
    (∀ ops : List (GVar × Option Nat),
      ((applyAppends [] ops).map (fun e => e.1.name)).Nodup) ∧
    (∀ (L : Layout) (v : GVar) (off : Nat),
      layoutFind? (layoutInsert L v off) v.name = some (v, off)) ∧
    (∀ (L : Layout) (v : GVar) (off n : Nat), n ≠ v.name →
      layoutFind? (layoutInsert L v off) n = layoutFind? L n) := by
  refine ⟨rfl, ?_, ?_, ?_, ?_, ?_⟩
  · intro L e he; exact layoutSize_mem_le L e he
  · intro L h; exact layoutSize_attained L h
  · intro ops; exact applyAppends_nodup_names ops [] (by simp)
  · intro L v off; exact layoutFind?_insert_self L v off
  · intro L v off n h; exact layoutFind?_insert_other L v off n h

/-- C9 witness: the nonempty-attainment clause at a concrete layout. -/
theorem c9_size_witness :
    ∃ e ∈ ([((⟨0, 3, false⟩ : GVar), 2)] : Layout),
      layoutSize ([((⟨0, 3, false⟩ : GVar), 2)] : Layout) = e.2 + e.1.size := by
  have h := c9_size_recomputed_on_demand.2.2.1
    ([((⟨0, 3, false⟩ : GVar), 2)] : Layout) (by decide)
  exact h

/-! ## Claim C8: constant packing and deduplication -/

/-- C8: the constant layout equals the spec's packing — each distinct
identity (name) exactly once, at its first occurrence, back-to-back in
input order with no holes — its identities are pairwise distinct, and its
total size is the sum of the sizes of the distinct constants. -/
theorem c8_constant_packing (cs : List GVar) :
    allocateConstants [] cs = packSpec cs ∧
    ((packSpec cs).map (fun e => e.1.name)).Nodup ∧
    layoutSize (allocateConstants [] cs) = ((packSpec cs).map (fun e => e.1.size)).sum := by
  have h1 : allocateConstants [] cs = packSpec cs := by
    have := allocateConstants_eq_pack cs []
    simpa [packSpec] using this
  refine ⟨h1, (packSpecAux_names cs [] 0).1, ?_⟩
  rw [h1]
  show (packSpec cs).foldl (fun acc e => max (e.2 + e.1.size) acc) 0 = _
  rw [packSpec, packSpecAux_foldl_size cs [] 0 0]
  by_cases h : packSpecAux [] 0 cs = []
  · simp [packSpec, h]
  · simp [packSpec, h]

/-! ## Claim C3: the best-fit allocation step -/

lemma sortFilter_head (fl : List Block) (s : Nat) :
    (sortBySize (fl.filter (fun c => s ≤ c.2))).head? = specBestFit fl s := by
  induction fl with
  | nil => rfl
  | cons b bs ih =>
    by_cases hb : s ≤ b.2
    · rw [List.filter_cons_of_pos (by simpa using hb)]
      rw [show sortBySize (b :: bs.filter (fun c => s ≤ c.2)) =
        insertBySize b (sortBySize (bs.filter (fun c => s ≤ c.2))) from rfl]
      cases hsort : sortBySize (bs.filter (fun c => s ≤ c.2)) with
      | nil =>
        have hspec : specBestFit bs s = none := by rw [← ih, hsort]; rfl
        simp [insertBySize, specBestFit, hb, hspec]
      | cons c rest =>
        have hspec : specBestFit bs s = some c := by rw [← ih, hsort]; rfl
        by_cases hbc : b.2 ≤ c.2
        · have : ¬ (c.2 < b.2) := by omega
          simp [insertBySize, hbc, specBestFit, hb, hspec, this]
        · have : c.2 < b.2 := by omega
          simp [insertBySize, hbc, specBestFit, hb, hspec, this]
    · rw [List.filter_cons_of_neg (by simpa using hb)]
      rw [ih]
      simp [specBestFit, hb]

lemma specBestFit_none_lt (fl : List Block) (s : Nat) (h : specBestFit fl s = none) :
    ∀ c ∈ fl, c.2 < s := by
  induction fl with
  | nil => intro c hc; cases hc
  | cons a as ih =>
    intro c hc
    by_cases ha : s ≤ a.2
    · exfalso
      simp only [specBestFit, if_pos ha] at h
      cases hspec : specBestFit as s with
      | none => rw [hspec] at h; cases h
      | some c₀ => rw [hspec] at h; by_cases hlt : c₀.2 < a.2 <;> simp [hlt] at h
    · cases hc with
      | head => omega
      | tail _ hc =>
        refine ih ?_ c hc
        simpa [specBestFit, ha] using h

lemma specBestFit_sound (fl : List Block) (s : Nat) (b : Block)
    (h : specBestFit fl s = some b) :
    b ∈ fl ∧ s ≤ b.2 ∧ ∀ c ∈ fl, s ≤ c.2 → b.2 ≤ c.2 := by
  induction fl generalizing b with
  | nil => cases h
  | cons a as ih =>
    by_cases ha : s ≤ a.2
    · simp only [specBestFit, if_pos ha] at h
      cases hspec : specBestFit as s with
      | none =>
        rw [hspec] at h
        cases h
        refine ⟨List.mem_cons_self _ _, ha, ?_⟩
        intro c hc hs
        cases hc with
        | head => exact le_refl _
        | tail _ hc => exact absurd hs (by have := specBestFit_none_lt as s hspec c hc; omega)
      | some c₀ =>
        rw [hspec] at h
        have h' : (if c₀.2 < a.2 then some c₀ else some a) = some b := h
        obtain ⟨hc₀m, hc₀s, hc₀min⟩ := ih c₀ hspec
        by_cases hlt : c₀.2 < a.2
        · rw [if_pos hlt] at h'
          cases h'
          refine ⟨List.mem_cons_of_mem _ hc₀m, hc₀s, ?_⟩
          intro c hc hs
          cases hc with
          | head => omega
          | tail _ hc => exact hc₀min c hc hs
        · rw [if_neg hlt] at h'
          cases h'
          refine ⟨List.mem_cons_self _ _, ha, ?_⟩
          intro c hc hs
          cases hc with
          | head => exact le_refl _
          | tail _ hc => exact le_trans (by omega) (hc₀min c hc hs)
    · simp only [specBestFit, if_neg ha] at h
      obtain ⟨hm, hs, hmin⟩ := ih b h
      refine ⟨List.mem_cons_of_mem _ hm, hs, ?_⟩
      intro c hc hcs
      cases hc with
      | head => exact absurd hcs ha
      | tail _ hc => exact hmin c hc hcs

lemma specBestFit_first (fl : List Block) (s : Nat) (b : Block)
    (h : specBestFit fl s = some b) :
    ∃ pre suf, fl = pre ++ b :: suf ∧ ∀ c ∈ pre, s ≤ c.2 → b.2 < c.2 := by
  induction fl generalizing b with
  | nil => cases h
  | cons a as ih =>
    by_cases ha : s ≤ a.2
    · simp only [specBestFit, if_pos ha] at h
      cases hspec : specBestFit as s with
      | none =>
        rw [hspec] at h
        cases h
        exact ⟨[], as, rfl, by intro c hc; cases hc⟩
      | some c₀ =>
        rw [hspec] at h
        have h' : (if c₀.2 < a.2 then some c₀ else some a) = some b := h
        by_cases hlt : c₀.2 < a.2
        · rw [if_pos hlt] at h'
          cases h'
          obtain ⟨pre, suf, heq, hpre⟩ := ih b hspec
          refine ⟨a :: pre, suf, by rw [heq]; rfl, ?_⟩
          intro c hc hs
          cases hc with
          | head => omega
          | tail _ hc => exact hpre c hc hs
        · rw [if_neg hlt] at h'
          cases h'
          exact ⟨[], as, rfl, by intro c hc; cases hc⟩
    · simp only [specBestFit, if_neg ha] at h
      obtain ⟨pre, suf, heq, hpre⟩ := ih b h
      refine ⟨a :: pre, suf, by rw [heq]; rfl, ?_⟩
      intro c hc hs
      cases hc with
      | head => exact absurd hs ha
      | tail _ hc => exact hpre c hc hs

lemma removeFirst?_eq_eraseFirst (fl : List Block) (b : Block) (h : b ∈ fl) :
    removeFirst? fl b = some (eraseFirst fl b) := by
  induction fl with
  | nil => cases h
  | cons c cs ih =>
    by_cases hc : c = b
    · simp [removeFirst?, eraseFirst, hc]
    · cases h with
      | head => exact absurd rfl hc
      | tail _ h => simp [removeFirst?, eraseFirst, hc, ih h]

/-- Evaluation of the general (non-pass-through) allocation branch of
`processOutput`: the step allocates at the block `specBestFit` picks (and
splits off the remainder), or grows the arena when no block suffices. -/
lemma processOutput_eval (g : Graph) (op : GOp) (st : AllocSt) (v : GVar)
    (h1 : v.isConst = false) (h2 : layoutContains st.layout v = false)
    (h3 : op.flatten = false) :
    processOutput g op st v = some (match specBestFit st.freel v.size with
      | some b => { st with
          layout := layoutInsert st.layout v b.1
          retain := fun u => if u = v then (fanout g v : Int) else st.retain u
          freel := eraseFirst st.freel b ++
            (if v.size < b.2 then [(b.1 + v.size, b.2 - v.size)] else []) }
      | none => { st with
          layout := layoutInsert st.layout v (layoutSize st.layout)
          retain := fun u => if u = v then (fanout g v : Int) else st.retain u }) := by
  cases hb : specBestFit st.freel v.size with
  | none =>
    have hhead : (sortBySize (st.freel.filter (fun c => v.size ≤ c.2))).head? = none := by
      rw [sortFilter_head]; exact hb
    simp only [processOutput, h1, h2, h3]
    simp only [Bool.false_eq_true, if_false]
    cases hsort : sortBySize (st.freel.filter (fun c => v.size ≤ c.2)) with
    | nil => rfl
    | cons sp rest => rw [hsort] at hhead; cases hhead
  | some b =>
    obtain ⟨hm, hs, hmin⟩ := specBestFit_sound st.freel v.size b hb
    have hhead : (sortBySize (st.freel.filter (fun c => v.size ≤ c.2))).head? = some b := by
      rw [sortFilter_head]; exact hb
    simp only [processOutput, h1, h2, h3]
    simp only [Bool.false_eq_true, if_false]
    cases hsort : sortBySize (st.freel.filter (fun c => v.size ≤ c.2)) with
    | nil => rw [hsort] at hhead; cases hhead
    | cons sp rest =>
      rw [hsort] at hhead
      have hsp : sp = b := by simpa using hhead
      subst hsp
      show (match removeFirst? st.freel sp with
        | none => none
        | some f => some { st with
            layout := layoutInsert st.layout v sp.1
            retain := fun u => if u = v then (fanout g v : Int) else st.retain u
            freel := f ++ (if v.size < sp.2 then [(sp.1 + v.size, sp.2 - v.size)] else []) }) =
        some { st with
          layout := layoutInsert st.layout v sp.1
          retain := fun u => if u = v then (fanout g v : Int) else st.retain u
          freel := eraseFirst st.freel sp ++
            (if v.size < sp.2 then [(sp.1 + v.size, sp.2 - v.size)] else []) }
      rw [removeFirst?_eq_eraseFirst st.freel sp hm]

/-- C3: the general (non-pass-through) allocation step.  If some free block
is large enough, the step allocates at the offset of the block chosen by
the spec's rule — smallest sufficient size, ties broken by the first such
block encountered (shown by the decomposition clause: every earlier
sufficient block is strictly larger) — removes that block, and re-inserts
the remainder `(offset+size, blocksize-size)` exactly when the block was
strictly larger; otherwise it allocates at the current end of the arena
(`layout.size`) and leaves the free list unchanged. -/
theorem c3_best_fit_step (g : Graph) (op : GOp) (st : AllocSt) (v : GVar)
    (h1 : v.isConst = false) (h2 : layoutContains st.layout v = false)
    (h3 : op.flatten = false) :
    (∀ b, specBestFit st.freel v.size = some b →
      b ∈ st.freel ∧ v.size ≤ b.2 ∧ (∀ c ∈ st.freel, v.size ≤ c.2 → b.2 ≤ c.2) ∧
      (∃ pre suf, st.freel = pre ++ b :: suf ∧ ∀ c ∈ pre, v.size ≤ c.2 → b.2 < c.2) ∧
      processOutput g op st v = some { st with
        layout := layoutInsert st.layout v b.1
        retain := fun u => if u = v then (fanout g v : Int) else st.retain u
        freel := eraseFirst st.freel b ++
          (if v.size < b.2 then [(b.1 + v.size, b.2 - v.size)] else []) }) ∧
    (specBestFit st.freel v.size = none →
      (∀ c ∈ st.freel, c.2 < v.size) ∧
      processOutput g op st v = some { st with
        layout := layoutInsert st.layout v (layoutSize st.layout)
        retain := fun u => if u = v then (fanout g v : Int) else st.retain u }) := by
  constructor
  · intro b hb
    obtain ⟨hm, hs, hmin⟩ := specBestFit_sound st.freel v.size b hb
    obtain ⟨pre, suf, heq, hpre⟩ := specBestFit_first st.freel v.size b hb
    refine ⟨hm, hs, hmin, ⟨pre, suf, heq, hpre⟩, ?_⟩
    rw [processOutput_eval g op st v h1 h2 h3, hb]
  · intro hnone
    refine ⟨specBestFit_none_lt st.freel v.size hnone, ?_⟩
    rw [processOutput_eval g op st v h1 h2 h3, hnone]

/-- C3 witness: on free list `[(0,4),(6,2),(8,3)]` with required size 2 the
step applies with best fit `(6,2)`. -/
theorem c3_best_fit_witness :
    (6, 2) ∈ stC3.freel ∧ vC3.size ≤ 2 ∧
    ∀ c ∈ stC3.freel, vC3.size ≤ c.2 → 2 ≤ c.2 := by
  have h := (c3_best_fit_step gEmpty opC3 stC3 vC3 (by decide) (by decide) (by decide)).1
    (6, 2) (by decide)
  exact ⟨h.1, h.2.1, fun c hc hs => h.2.2.1 c hc hs⟩

/-! ## Coalescing-loop evaluation lemmas -/

lemma coalesceScan_cons (sp : Block) (rest fl : List Block) (s1 : Block) (ch : Bool) :
    coalesceScan (sp :: rest) fl s1 ch =
      match coalesceStep sp fl s1 ch with
      | none => none
      | some (fl', s1', ch') => coalesceScan rest fl' s1' ch' := rfl

lemma coalesceLoop_succ (n : Nat) (fl : List Block) (s1 : Block) :
    coalesceLoop (n + 1) fl s1 =
      match coalesceScan fl fl s1 false with
      | none => none
      | some (fl', s1', ch) => if ch then coalesceLoop n fl' s1' else some fl' := rfl

lemma coalesceStep_nomatch {sp s1 : Block} (fl : List Block) (ch : Bool)
    (h1 : sp.1 + sp.2 ≠ s1.1) (h2 : sp.1 ≠ s1.1 + s1.2) :
    coalesceStep sp fl s1 ch = some (fl, s1, ch) := by
  simp [coalesceStep, h1, h2]

lemma coalesceStep_merge1 {sp s1 : Block} {fl f1 f2 : List Block} (ch : Bool)
    (h1 : sp.1 + sp.2 = s1.1)
    (hr1 : removeFirst? fl s1 = some f1) (hr2 : removeFirst? f1 sp = some f2)
    (h2 : sp.1 ≠ sp.1 + (sp.2 + s1.2)) :
    coalesceStep sp fl s1 ch =
      some (f2 ++ [(sp.1, sp.2 + s1.2)], (sp.1, sp.2 + s1.2), true) := by
  simp [coalesceStep, h1, hr1, hr2, h2]

lemma coalesceStep_merge2 {sp s1 : Block} {fl f1 f2 : List Block} (ch : Bool)
    (h1 : sp.1 + sp.2 ≠ s1.1) (h2 : sp.1 = s1.1 + s1.2)
    (hr1 : removeFirst? fl s1 = some f1) (hr2 : removeFirst? f1 sp = some f2) :
    coalesceStep sp fl s1 ch =
      some (f2 ++ [(s1.1, sp.2 + s1.2)], (s1.1, sp.2 + s1.2), true) := by
  have h1' : ¬ (s1.1 + s1.2 + sp.2 = s1.1) := by rw [h2] at h1; exact h1
  simp [coalesceStep, h2, h1', hr1, hr2]

lemma coalesceStep_fail1 {sp s1 : Block} {fl f1 : List Block} (ch : Bool)
    (h1 : sp.1 + sp.2 = s1.1)
    (hr1 : removeFirst? fl s1 = some f1) (hr2 : removeFirst? f1 sp = none) :
    coalesceStep sp fl s1 ch = none := by
  simp [coalesceStep, h1, hr1, hr2]

lemma coalesceStep_fail2 {sp s1 : Block} {fl f1 : List Block} (ch : Bool)
    (h1 : sp.1 + sp.2 ≠ s1.1) (h2 : sp.1 = s1.1 + s1.2)
    (hr1 : removeFirst? fl s1 = some f1) (hr2 : removeFirst? f1 sp = none) :
    coalesceStep sp fl s1 ch = none := by
  have h1' : ¬ (s1.1 + s1.2 + sp.2 = s1.1) := by rw [h2] at h1; exact h1
  simp [coalesceStep, h2, h1', hr1, hr2]

lemma coalesceScan_nomatch (s1 : Block) (snap : List Block) :
    ∀ (fl : List Block) (ch : Bool),
      (∀ sp ∈ snap, sp.1 + sp.2 ≠ s1.1 ∧ sp.1 ≠ s1.1 + s1.2) →
      coalesceScan snap fl s1 ch = some (fl, s1, ch) := by
  induction snap with
  | nil => intro fl ch _; rfl
  | cons sp rest ih =>
    intro fl ch h
    have hsp := h sp (List.mem_cons_self _ _)
    rw [coalesceScan_cons, coalesceStep_nomatch fl ch hsp.1 hsp.2]
    exact ih fl ch (fun x hx => h x (List.mem_cons_of_mem _ hx))

lemma coalesceScan_split (xs : List Block) :
    ∀ (ys fl : List Block) (s1 : Block) (ch : Bool),
      coalesceScan (xs ++ ys) fl s1 ch =
        match coalesceScan xs fl s1 ch with
        | none => none
        | some (fl', s1', ch') => coalesceScan ys fl' s1' ch' := by
  induction xs with
  | nil => intro ys fl s1 ch; rfl
  | cons sp rest ih =>
    intro ys fl s1 ch
    rw [List.cons_append, coalesceScan_cons, coalesceScan_cons]
    cases hstep : coalesceStep sp fl s1 ch with
    | none => rfl
    | some t =>
      obtain ⟨fl', s1', ch'⟩ := t
      exact ih ys fl' s1' ch'

lemma removeFirst?_not_mem (F : List Block) (b : Block) (h : b ∉ F) :
    removeFirst? F b = none := by
  induction F with
  | nil => rfl
  | cons c cs ih =>
    have hcb : ¬ (c = b) := fun hx => h (hx ▸ List.mem_cons_self _ _)
    simp [removeFirst?, hcb, ih (fun hx => h (List.mem_cons_of_mem _ hx))]

lemma removeFirst?_split (F₁ F₂ : List Block) (b : Block) (h : b ∉ F₁) :
    removeFirst? (F₁ ++ b :: F₂) b = some (F₁ ++ F₂) := by
  induction F₁ with
  | nil => simp [removeFirst?]
  | cons c cs ih =>
    have hcb : ¬ (c = b) := fun hx => h (hx ▸ List.mem_cons_self _ _)
    simp [removeFirst?, hcb, ih (fun hx => h (List.mem_cons_of_mem _ hx))]

/-! ## Claim C4: releasing and coalescing adjacent blocks -/

lemma releaseBlock_empty (a s : Nat) (hs : 0 < s) :
    releaseBlock [] (a, s) = some [(a, s)] := by
  have hnm : ∀ sp ∈ [((a, s) : Block)],
      sp.1 + sp.2 ≠ ((a, s) : Block).1 ∧ sp.1 ≠ ((a, s) : Block).1 + ((a, s) : Block).2 := by
    intro sp hsp
    rw [List.mem_singleton] at hsp
    subst hsp
    constructor <;> simp <;> omega
  show coalesceLoop (1 + 1) [(a, s)] (a, s) = some [(a, s)]
  rw [coalesceLoop_succ 1, coalesceScan_nomatch (a, s) [(a, s)] [(a, s)] false hnm]
  rfl

lemma releaseBlock_merge_right (p q r : Nat) (hq : 0 < q) (hr : 0 < r) :
    releaseBlock [(p, q)] (p + q, r) = some [(p, q + r)] := by
  have hb_ne : ((p + q, r) : Block) ∉ [((p, q) : Block)] := by
    simp only [List.mem_singleton]
    intro hx
    rw [Prod.mk.injEq] at hx
    omega
  have hr1 : removeFirst? [(p, q), (p + q, r)] (p + q, r) = some [(p, q)] := by
    have h := removeFirst?_split [(p, q)] [] (p + q, r) hb_ne
    simpa using h
  have hr2 : removeFirst? [(p, q)] (p, q) = some [] := by simp [removeFirst?]
  have hstep1 : coalesceStep (p, q) [(p, q), (p + q, r)] (p + q, r) false =
      some ([(p, q + r)], (p, q + r), true) :=
    coalesceStep_merge1 false (by simp) hr1 hr2 (by simp; omega)
  have hstep2 : coalesceStep (p + q, r) [(p, q + r)] (p, q + r) true =
      some ([(p, q + r)], (p, q + r), true) :=
    coalesceStep_nomatch _ _ (by simp; omega) (by simp; omega)
  have hscan : coalesceScan [(p, q), (p + q, r)] [(p, q), (p + q, r)] (p + q, r) false =
      some ([(p, q + r)], (p, q + r), true) := by
    rw [coalesceScan_cons, hstep1]
    show coalesceScan [(p + q, r)] [(p, q + r)] (p, q + r) true = _
    rw [coalesceScan_cons, hstep2]
    rfl
  have hscan2 : coalesceScan [(p, q + r)] [(p, q + r)] (p, q + r) false =
      some ([(p, q + r)], (p, q + r), false) := by
    refine coalesceScan_nomatch (p, q + r) [(p, q + r)] [(p, q + r)] false ?_
    intro sp hsp
    rw [List.mem_singleton] at hsp
    subst hsp
    constructor <;> simp <;> omega
  show coalesceLoop (2 + 1) [(p, q), (p + q, r)] (p + q, r) = some [(p, q + r)]
  rw [coalesceLoop_succ 2, hscan]
  show coalesceLoop (1 + 1) [(p, q + r)] (p, q + r) = some [(p, q + r)]
  rw [coalesceLoop_succ 1, hscan2]
  rfl

lemma releaseBlock_merge_left (p q r : Nat) (hq : 0 < q) (hr : 0 < r) :
    releaseBlock [(p + q, r)] (p, q) = some [(p, q + r)] := by
  have hb_ne : ((p, q) : Block) ∉ [((p + q, r) : Block)] := by
    simp only [List.mem_singleton]
    intro hx
    rw [Prod.mk.injEq] at hx
    omega
  have hr1 : removeFirst? [(p + q, r), (p, q)] (p, q) = some [(p + q, r)] := by
    have h := removeFirst?_split [(p + q, r)] [] (p, q) hb_ne
    simpa using h
  have hr2 : removeFirst? [(p + q, r)] (p + q, r) = some [] := by simp [removeFirst?]
  have hstep1 : coalesceStep (p + q, r) [(p + q, r), (p, q)] (p, q) false =
      some ([(p, r + q)], (p, r + q), true) :=
    coalesceStep_merge2 false (by simp; omega) (by simp) hr1 hr2
  have hstep2 : coalesceStep (p, q) [(p, r + q)] (p, r + q) true =
      some ([(p, r + q)], (p, r + q), true) :=
    coalesceStep_nomatch _ _ (by simp; omega) (by simp; omega)
  have hscan : coalesceScan [(p + q, r), (p, q)] [(p + q, r), (p, q)] (p, q) false =
      some ([(p, r + q)], (p, r + q), true) := by
    rw [coalesceScan_cons, hstep1]
    show coalesceScan [(p, q)] [(p, r + q)] (p, r + q) true = _
    rw [coalesceScan_cons, hstep2]
    rfl
  have hscan2 : coalesceScan [(p, r + q)] [(p, r + q)] (p, r + q) false =
      some ([(p, r + q)], (p, r + q), false) := by
    refine coalesceScan_nomatch (p, r + q) [(p, r + q)] [(p, r + q)] false ?_
    intro sp hsp
    rw [List.mem_singleton] at hsp
    subst hsp
    constructor <;> simp <;> omega
  have hgoal : releaseBlock [(p + q, r)] (p, q) = some [(p, r + q)] := by
    show coalesceLoop (2 + 1) [(p + q, r), (p, q)] (p, q) = some [(p, r + q)]
    rw [coalesceLoop_succ 2, hscan]
    show coalesceLoop (1 + 1) [(p, r + q)] (p, r + q) = some [(p, r + q)]
    rw [coalesceLoop_succ 1, hscan2]
    rfl
  rw [hgoal, Nat.add_comm r q]

/-- C4: releasing two byte-adjacent blocks into the free set — in either
order, starting from an empty free set — leaves exactly one merged block
equal to the union of their ranges; coalescing is transitive, because
releasing a block adjacent to any single free block always merges into one
block (so a chain of adjacent releases collapses into one); and a
subsequent general-case allocation whose required size equals the merged
block's size is placed at the merged block's starting offset, emptying the
free list. -/
theorem c4_coalescing (a s1 s2 : Nat) (h1 : 0 < s1) (h2 : 0 < s2) :
    releaseBlock [] (a, s1) = some [(a, s1)] ∧
    releaseBlock [(a, s1)] (a + s1, s2) = some [(a, s1 + s2)] ∧
    releaseBlock [] (a + s1, s2) = some [(a + s1, s2)] ∧
    releaseBlock [(a + s1, s2)] (a, s1) = some [(a, s1 + s2)] ∧
    (∀ p q r : Nat, 0 < q → 0 < r →
      releaseBlock [(p, q)] (p + q, r) = some [(p, q + r)]) ∧
    (∀ (g : Graph) (op : GOp) (st : AllocSt) (v : GVar),
      st.freel = [(a, s1 + s2)] → v.size = s1 + s2 →
      v.isConst = false → layoutContains st.layout v = false → op.flatten = false →
      processOutput g op st v = some { st with
        layout := layoutInsert st.layout v a
        retain := fun u => if u = v then (fanout g v : Int) else st.retain u
        freel := [] }) := by
  refine ⟨releaseBlock_empty a s1 h1, releaseBlock_merge_right a s1 s2 h1 h2,
    releaseBlock_empty (a + s1) s2 h2, releaseBlock_merge_left a s1 s2 h1 h2,
    fun p q r hq hr => releaseBlock_merge_right p q r hq hr, ?_⟩
  intro g op st v hfr hsz hc hl hf
  rw [processOutput_eval g op st v hc hl hf, hfr, hsz]
  have hspec : specBestFit [(a, s1 + s2)] (s1 + s2) = some (a, s1 + s2) := by
    simp [specBestFit]
  rw [hspec]
  simp [eraseFirst]

/-- C4 witness: the two orders for blocks `(0,2)` and `(2,3)`. -/
theorem c4_coalescing_witness :
    releaseBlock [(0, 2)] (2, 3) = some [(0, 5)] ∧
    releaseBlock [(2, 3)] (0, 2) = some [(0, 5)] :=
  ⟨(c4_coalescing 0 2 3 (by decide) (by decide)).2.1,
   (c4_coalescing 0 2 3 (by decide) (by decide)).2.2.2.1⟩

/-! ## Claim C6: determinism of repeated allocation runs -/

lemma mem_dedupVarsAux :
    ∀ (l seen : List GVar) (v : GVar),
      v ∈ dedupVarsAux seen l ↔ v ∈ l ∧ v ∉ seen := by
  intro l
  induction l with
  | nil => intro seen v; simp [dedupVarsAux]
  | cons a as ih =>
    intro seen v
    by_cases ha : a ∈ seen
    · rw [show dedupVarsAux seen (a :: as) = dedupVarsAux seen as by
        simp [dedupVarsAux, ha]]
      rw [ih seen v]
      constructor
      · rintro ⟨h1, h2⟩; exact ⟨List.mem_cons_of_mem _ h1, h2⟩
      · rintro ⟨h1, h2⟩
        cases h1 with
        | head => exact absurd ha h2
        | tail _ h1 => exact ⟨h1, h2⟩
    · rw [show dedupVarsAux seen (a :: as) = a :: dedupVarsAux (a :: seen) as by
        simp [dedupVarsAux, ha]]
      rw [List.mem_cons, ih (a :: seen) v]
      constructor
      · rintro (rfl | ⟨h1, h2⟩)
        · exact ⟨List.mem_cons_self _ _, ha⟩
        · exact ⟨List.mem_cons_of_mem _ h1,
            fun hx => h2 (List.mem_cons_of_mem _ hx)⟩
      · rintro ⟨h1, h2⟩
        by_cases hva : v = a
        · exact Or.inl hva
        · cases h1 with
          | head => exact absurd rfl hva
          | tail _ h1 =>
            exact Or.inr ⟨h1, fun hx => (by
              cases hx with
              | head => exact hva rfl
              | tail _ hx => exact h2 hx)⟩

lemma mem_dedupVars (l : List GVar) (v : GVar) : v ∈ dedupVars l ↔ v ∈ l := by
  rw [dedupVars, mem_dedupVarsAux]
  simp

lemma findIdx_lookup (d : List GVar) (v : GVar) (h : v ∈ d) :
    d[d.findIdx (fun u => u = v)]? = some v := by
  induction d with
  | nil => cases h
  | cons a as ih =>
    by_cases ha : a = v
    · subst ha
      simp [List.findIdx_cons]
    · have hv : v ∈ as := by
        cases h with
        | head => exact absurd rfl ha
        | tail _ h => exact h
      rw [List.findIdx_cons]
      have hpa : (decide (a = v)) = false := by simp [ha]
      rw [hpa]
      simpa using ih hv

lemma renameVar_inj (g : Graph) (x v : GVar)
    (hx : x ∈ occList g) (hv : v ∈ occList g) :
    renameVar (listupVariables g) x = renameVar (listupVariables g) v ↔ x = v := by
  constructor
  · intro h
    have hxd : x ∈ listupVariables g := (mem_dedupVars _ _).2 hx
    have hvd : v ∈ listupVariables g := (mem_dedupVars _ _).2 hv
    have hnames := congrArg GVar.name h
    simp only [renameVar] at hnames
    have h1 := findIdx_lookup (listupVariables g) x hxd
    have h2 := findIdx_lookup (listupVariables g) v hvd
    rw [hnames] at h1
    rw [h1] at h2
    exact Option.some.inj h2
  · intro h; rw [h]

lemma findIdx_map_inj (f : GVar → GVar) (v : GVar) :
    ∀ d : List GVar, (∀ x ∈ d, (f x = f v ↔ x = v)) →
      (d.map f).findIdx (fun u => u = f v) = d.findIdx (fun u => u = v) := by
  intro d
  induction d with
  | nil => intro _; rfl
  | cons a as ih =>
    intro h
    have ha := h a (List.mem_cons_self _ _)
    rw [List.map_cons, List.findIdx_cons, List.findIdx_cons]
    by_cases hav : a = v
    · simp [hav, ha.2 hav]
    · have hfa : ¬ (f a = f v) := fun hx => hav (ha.1 hx)
      have e1 : (decide (f a = f v)) = false := by simp [hfa]
      have e2 : (decide (a = v)) = false := by simp [hav]
      rw [e1, e2, ih (fun x hx => h x (List.mem_cons_of_mem _ hx))]

lemma dedupVarsAux_map (f : GVar → GVar) :
    ∀ (l seen : List GVar),
      (∀ x ∈ l, ∀ y ∈ l ++ seen, (f x = f y ↔ x = y)) →
      dedupVarsAux (seen.map f) (l.map f) = (dedupVarsAux seen l).map f := by
  intro l
  induction l with
  | nil => intro seen _; rfl
  | cons a as ih =>
    intro seen h
    have hmem : f a ∈ seen.map f ↔ a ∈ seen := by
      constructor
      · intro hx
        obtain ⟨y, hy, hfy⟩ := List.mem_map.1 hx
        have := (h a (List.mem_cons_self _ _) y
          (List.mem_append.2 (Or.inr hy))).1 hfy.symm
        rw [this]; exact hy
      · intro hx; exact List.mem_map.2 ⟨a, hx, rfl⟩
    by_cases ha : a ∈ seen
    · rw [show dedupVarsAux seen (a :: as) = dedupVarsAux seen as by
        simp [dedupVarsAux, ha]]
      rw [List.map_cons]
      rw [show dedupVarsAux (seen.map f) (f a :: as.map f) =
        dedupVarsAux (seen.map f) (as.map f) by simp [dedupVarsAux, hmem.2 ha]]
      refine ih seen ?_
      intro x hx y hy
      refine h x (List.mem_cons_of_mem _ hx) y ?_
      rcases List.mem_append.1 hy with hy | hy
      · exact List.mem_append.2 (Or.inl (List.mem_cons_of_mem _ hy))
      · exact List.mem_append.2 (Or.inr hy)
    · rw [show dedupVarsAux seen (a :: as) = a :: dedupVarsAux (a :: seen) as by
        simp [dedupVarsAux, ha]]
      rw [List.map_cons]
      have hnot : f a ∉ seen.map f := fun hx => ha (hmem.1 hx)
      rw [show dedupVarsAux (seen.map f) (f a :: as.map f) =
        f a :: dedupVarsAux (f a :: seen.map f) (as.map f) by
          simp [dedupVarsAux, hnot]]
      rw [List.map_cons]
      refine congrArg _ ?_
      have : (f a :: seen.map f) = (a :: seen).map f := rfl
      rw [this]
      refine ih (a :: seen) ?_
      intro x hx y hy
      refine h x (List.mem_cons_of_mem _ hx) y ?_
      rcases List.mem_append.1 hy with hy | hy
      · exact List.mem_append.2 (Or.inl (List.mem_cons_of_mem _ hy))
      · cases hy with
        | head => exact List.mem_append.2 (Or.inl (List.mem_cons_self _ _))
        | tail _ hy => exact List.mem_append.2 (Or.inr hy)

lemma occList_rename (g : Graph) :
    occList (renameGraph g) = (occList g).map (renameVar (listupVariables g)) := by
  have hops : ∀ (ops : List GOp) (f : GVar → GVar),
      ((ops.map (fun op => (⟨op.flatten, op.inputs.map f, op.outputs.map f⟩ : GOp))).flatMap
        (fun op => op.inputs ++ op.outputs)) =
      (ops.flatMap (fun op => op.inputs ++ op.outputs)).map f := by
    intro ops f
    induction ops with
    | nil => rfl
    | cons op rest ih => simp [ih, List.map_append]
  simp [occList, renameGraph, List.map_append, hops]

lemma listup_rename (g : Graph) :
    listupVariables (renameGraph g) =
      (listupVariables g).map (renameVar (listupVariables g)) := by
  rw [listupVariables, occList_rename]
  have h : dedupVarsAux (([] : List GVar).map (renameVar (listupVariables g)))
      ((occList g).map (renameVar (listupVariables g))) =
      (dedupVarsAux [] (occList g)).map (renameVar (listupVariables g)) := by
    refine dedupVarsAux_map _ _ _ ?_
    intro x hx y hy
    rw [List.append_nil] at hy
    exact renameVar_inj g x y hx hy
  simpa [dedupVars, listupVariables] using h

lemma renameVar_idem (g : Graph) (v : GVar) (hv : v ∈ occList g) :
    renameVar (listupVariables (renameGraph g)) (renameVar (listupVariables g) v) =
      renameVar (listupVariables g) v := by
  rw [listup_rename]
  show (⟨((listupVariables g).map (renameVar (listupVariables g))).findIdx
      (fun u => u = renameVar (listupVariables g) v),
    (renameVar (listupVariables g) v).size,
    (renameVar (listupVariables g) v).isConst⟩ : GVar) = _
  rw [findIdx_map_inj (renameVar (listupVariables g)) v (listupVariables g)
    (fun x hx => renameVar_inj g x v ((mem_dedupVars _ _).1 hx) hv)]
  rfl

lemma renameGraph_idem (g : Graph) : renameGraph (renameGraph g) = renameGraph g := by
  have hinp : ∀ v ∈ g.inputs, v ∈ occList g := by
    intro v hv; exact List.mem_append.2 (Or.inl hv)
  have hop_in : ∀ op ∈ g.ops, ∀ v ∈ op.inputs, v ∈ occList g := by
    intro op hop v hv
    refine List.mem_append.2 (Or.inr ?_)
    exact List.mem_flatMap.2 ⟨op, hop, List.mem_append.2 (Or.inl hv)⟩
  have hop_out : ∀ op ∈ g.ops, ∀ v ∈ op.outputs, v ∈ occList g := by
    intro op hop v hv
    refine List.mem_append.2 (Or.inr ?_)
    exact List.mem_flatMap.2 ⟨op, hop, List.mem_append.2 (Or.inr hv)⟩
  show Graph.mk _ _ = Graph.mk _ _
  refine congrArg₂ Graph.mk ?_ ?_
  · show (g.inputs.map (renameVar (listupVariables g))).map
      (renameVar (listupVariables (renameGraph g))) = _
    rw [List.map_map]
    refine List.map_congr_left ?_
    intro v hv
    exact renameVar_idem g v (hinp v hv)
  · show (g.ops.map _).map _ = g.ops.map _
    rw [List.map_map]
    refine List.map_congr_left ?_
    intro op hop
    show GOp.mk _ _ _ = GOp.mk _ _ _
    refine congrArg₂ (GOp.mk _) ?_ ?_
    · rw [List.map_map]
      refine List.map_congr_left ?_
      intro v hv
      exact renameVar_idem g v (hop_in op hop v hv)
    · rw [List.map_map]
      refine List.map_congr_left ?_
      intro v hv
      exact renameVar_idem g v (hop_out op hop v hv)

/-- C6: `Allocator.allocate` run a second time on the graph as the first
run left it (the renaming pass mutates the value names in place) produces
exactly the same variable-allocator result and the same constant layout —
every value keeps identical offsets across the two runs.  This holds
because the deterministic traversal renames values by visitation position,
so renaming is idempotent, and the allocators are pure functions of the
renamed graph. -/
theorem c6_determinism (g : Graph) : allocate (renameGraph g) = allocate g := by
  show (allocateVariables (renameGraph (renameGraph g)),
      allocateConstants []
        ((listupVariables (renameGraph (renameGraph g))).filter (·.isConst))) =
    (allocateVariables (renameGraph g),
      allocateConstants [] ((listupVariables (renameGraph g)).filter (·.isConst)))
  rw [renameGraph_idem g]

/-! ## Separation facts about the free list -/

lemma sep_comm {b c : Block} (h : Sep b c) : Sep c b := Or.symm h

lemma not_sep_self (b : Block) : ¬ Sep b b := by
  unfold Sep; omega

lemma pairwise_sep_split (F₁ F₂ : List Block) (l : Block)
    (h : (F₁ ++ l :: F₂).Pairwise Sep) :
    (∀ c ∈ F₁, Sep c l) ∧ (∀ c ∈ F₂, Sep l c) ∧ (F₁ ++ F₂).Pairwise Sep ∧
      l ∉ F₁ ∧ l ∉ F₂ := by
  rw [List.pairwise_append] at h
  obtain ⟨h1, h2, h3⟩ := h
  rw [List.pairwise_cons] at h2
  obtain ⟨h4, h5⟩ := h2
  have hF1 : ∀ c ∈ F₁, Sep c l := fun c hc => h3 c hc l (List.mem_cons_self _ _)
  refine ⟨hF1, h4, ?_, ?_, ?_⟩
  · rw [List.pairwise_append]
    exact ⟨h1, h5, fun a ha b hb => h3 a ha b (List.mem_cons_of_mem _ hb)⟩
  · intro hx; exact not_sep_self l (hF1 l hx)
  · intro hx; exact not_sep_self l (h4 l hx)

lemma coalesceScan_nomatch_then (s1 : Block) (pre rest fl : List Block) (ch : Bool)
    (h : ∀ sp ∈ pre, sp.1 + sp.2 ≠ s1.1 ∧ sp.1 ≠ s1.1 + s1.2) :
    coalesceScan (pre ++ rest) fl s1 ch = coalesceScan rest fl s1 ch := by
  rw [coalesceScan_split pre, coalesceScan_nomatch s1 pre fl ch h]

/-! ## Claim C10: zero-size release always raises -/

lemma zero_notmem_pos (F : List Block) (p : Nat) (hpos : ∀ c ∈ F, 0 < c.2) :
    ((p, 0) : Block) ∉ F := by
  intro hx
  have := hpos _ hx
  simp at this

/-- On a separated, positive free list, releasing a zero-size block never
completes: the zero block is byte-adjacent to itself (or is absorbed by a
unique neighbour and the stale snapshot entry then matches the merged
block), and the second `list.remove` raises. -/
lemma releaseBlock_zero (F : List Block) (p : Nat)
    (hsep : F.Pairwise Sep) (hpos : ∀ c ∈ F, 0 < c.2) :
    releaseBlock F (p, 0) = none := by
  have hb_nm : ((p, 0) : Block) ∉ F := zero_notmem_pos F p hpos
  have hremb : removeFirst? (F ++ [(p, 0)]) (p, 0) = some F := by
    have h := removeFirst?_split F [] (p, 0) hb_nm
    simpa using h
  by_cases hl : ∃ l ∈ F, l.1 + l.2 = p
  · -- a block ends at p: it absorbs the zero block, then the stale snapshot
    -- entry matches the merged block and the second remove raises
    obtain ⟨l, hlF, hle⟩ := hl
    obtain ⟨F₁, F₂, hdec⟩ := List.append_of_mem hlF
    subst hdec
    obtain ⟨hsl1, hsl2, hsep', hlF₁, hlF₂⟩ := pairwise_sep_split F₁ F₂ l hsep
    have hlpos : 0 < l.2 := hpos l (by simp)
    -- no other block ends at p, and no block starts at p
    have hnl : ∀ c ∈ F₁ ++ F₂, c.1 + c.2 ≠ p := by
      intro c hc hce
      have hsep_cl : Sep c l ∨ Sep l c := by
        rcases List.mem_append.1 hc with hc | hc
        · exact Or.inl (hsl1 c hc)
        · exact Or.inr (hsl2 c hc)
      unfold Sep at hsep_cl
      omega
    have hnr : ∀ c ∈ F₁ ++ l :: F₂, c.1 ≠ p := by
      intro c hc hcs
      rcases List.mem_append.1 hc with hc | hc
      · have := hsl1 c hc; have hcpos := hpos c (by simp [hc])
        unfold Sep at this; omega
      · cases hc with
        | head => omega
        | tail _ hc =>
          have := hsl2 c hc; have hcpos := hpos c (List.mem_append.2 (Or.inr (List.mem_cons_of_mem _ hc)))
          unfold Sep at this; omega
    have hreml : removeFirst? (F₁ ++ l :: F₂) l = some (F₁ ++ F₂) :=
      removeFirst?_split F₁ F₂ l hlF₁
    have hstepl : coalesceStep l ((F₁ ++ l :: F₂) ++ [(p, 0)]) (p, 0) false =
        some ((F₁ ++ F₂) ++ [(l.1, l.2 + 0)], (l.1, l.2 + 0), true) :=
      coalesceStep_merge1 false hle hremb hreml (by omega)
    have hm₁_nm : ((l.1, l.2 + 0) : Block) ∉ F₁ ++ F₂ := by
      intro hx
      have hx' : l ∈ F₁ ++ F₂ := by
        have : ((l.1, l.2 + 0) : Block) = l := by simp
        rwa [this] at hx
      rcases List.mem_append.1 hx' with hx' | hx'
      · exact hlF₁ hx'
      · exact hlF₂ hx'
    have hremm : removeFirst? ((F₁ ++ F₂) ++ [(l.1, l.2 + 0)]) (l.1, l.2 + 0) =
        some (F₁ ++ F₂) := by
      have h := removeFirst?_split (F₁ ++ F₂) [] (l.1, l.2 + 0) hm₁_nm
      simpa using h
    have hremz : removeFirst? (F₁ ++ F₂) (p, 0) = none := by
      refine removeFirst?_not_mem _ _ ?_
      refine zero_notmem_pos _ _ ?_
      intro c hc
      rcases List.mem_append.1 hc with hc | hc
      · exact hpos c (List.mem_append.2 (Or.inl hc))
      · exact hpos c (List.mem_append.2 (Or.inr (List.mem_cons_of_mem _ hc)))
    have hstepz : coalesceStep (p, 0) ((F₁ ++ F₂) ++ [(l.1, l.2 + 0)])
        (l.1, l.2 + 0) true = none := by
      refine coalesceStep_fail2 true (by simp; omega) (by simp; omega) hremm hremz
    have hscan : coalesceScan ((F₁ ++ l :: F₂) ++ [(p, 0)])
        ((F₁ ++ l :: F₂) ++ [(p, 0)]) (p, 0) false = none := by
      have he : (F₁ ++ l :: F₂) ++ [(p, 0)] = F₁ ++ (l :: (F₂ ++ [(p, 0)])) := by
        simp
      rw [he]
      rw [coalesceScan_nomatch_then (p, 0) F₁ (l :: (F₂ ++ [(p, 0)]))
        (F₁ ++ (l :: (F₂ ++ [(p, 0)]))) false ?hpre]
      case hpre =>
        intro sp hsp
        constructor
        · exact hnl sp (List.mem_append.2 (Or.inl hsp))
        · have h := hnr sp (List.mem_append.2 (Or.inl hsp))
          simpa using h
      rw [coalesceScan_cons]
      rw [show F₁ ++ (l :: (F₂ ++ [(p, 0)])) = (F₁ ++ l :: F₂) ++ [(p, 0)] from he.symm,
        hstepl]
      show coalesceScan (F₂ ++ [(p, 0)]) ((F₁ ++ F₂) ++ [(l.1, l.2 + 0)])
        (l.1, l.2 + 0) true = none
      rw [coalesceScan_nomatch_then (l.1, l.2 + 0) F₂ [(p, 0)]
        ((F₁ ++ F₂) ++ [(l.1, l.2 + 0)]) true ?hmid]
      case hmid =>
        intro sp hsp
        constructor
        · have := hsl2 sp hsp
          unfold Sep at this
          have hsppos := hpos sp (List.mem_append.2 (Or.inr (List.mem_cons_of_mem _ hsp)))
          simp only []
          omega
        · have h := hnr sp (List.mem_append.2 (Or.inr (List.mem_cons_of_mem _ hsp)))
          simp only []
          omega
      rw [coalesceScan_cons, hstepz]
    show coalesceLoop (((F₁ ++ l :: F₂).length + 1) + 1)
      ((F₁ ++ l :: F₂) ++ [(p, 0)]) (p, 0) = none
    rw [coalesceLoop_succ, hscan]
  · by_cases hr : ∃ r ∈ F, r.1 = p
    · -- a block starts at p: the zero block is merged into it, then the
      -- stale snapshot entry matches and the second remove raises
      obtain ⟨r, hrF, hre⟩ := hr
      obtain ⟨F₁, F₂, hdec⟩ := List.append_of_mem hrF
      subst hdec
      obtain ⟨hsr1, hsr2, hsep', hrF₁, hrF₂⟩ := pairwise_sep_split F₁ F₂ r hsep
      have hrpos : 0 < r.2 := hpos r (by simp)
      push_neg at hl
      have hnr' : ∀ c ∈ F₁ ++ F₂, c.1 ≠ p := by
        intro c hc hcs
        have hsep_cr : Sep c r ∨ Sep r c := by
          rcases List.mem_append.1 hc with hc | hc
          · exact Or.inl (hsr1 c hc)
          · exact Or.inr (hsr2 c hc)
        have hcpos : 0 < c.2 := by
          rcases List.mem_append.1 hc with hc | hc
          · exact hpos c (List.mem_append.2 (Or.inl hc))
          · exact hpos c (List.mem_append.2 (Or.inr (List.mem_cons_of_mem _ hc)))
        unfold Sep at hsep_cr
        omega
      have hremr : removeFirst? (F₁ ++ r :: F₂) r = some (F₁ ++ F₂) :=
        removeFirst?_split F₁ F₂ r hrF₁
      have hstepr : coalesceStep r ((F₁ ++ r :: F₂) ++ [(p, 0)]) (p, 0) false =
          some ((F₁ ++ F₂) ++ [(p, r.2 + 0)], (p, r.2 + 0), true) :=
        coalesceStep_merge2 false (by omega) (by simpa using hre) hremb hremr
      have hm₁_nm : ((p, r.2 + 0) : Block) ∉ F₁ ++ F₂ := by
        intro hx
        have hx' : r ∈ F₁ ++ F₂ := by
          have : ((p, r.2 + 0) : Block) = r := by
            rw [Prod.mk.injEq]
            constructor
            · omega
            · omega
          rwa [this] at hx
        rcases List.mem_append.1 hx' with hx' | hx'
        · exact hrF₁ hx'
        · exact hrF₂ hx'
      have hremm : removeFirst? ((F₁ ++ F₂) ++ [(p, r.2 + 0)]) (p, r.2 + 0) =
          some (F₁ ++ F₂) := by
        have h := removeFirst?_split (F₁ ++ F₂) [] (p, r.2 + 0) hm₁_nm
        simpa using h
      have hremz : removeFirst? (F₁ ++ F₂) (p, 0) = none := by
        refine removeFirst?_not_mem _ _ ?_
        refine zero_notmem_pos _ _ ?_
        intro c hc
        rcases List.mem_append.1 hc with hc | hc
        · exact hpos c (List.mem_append.2 (Or.inl hc))
        · exact hpos c (List.mem_append.2 (Or.inr (List.mem_cons_of_mem _ hc)))
      have hstepz : coalesceStep (p, 0) ((F₁ ++ F₂) ++ [(p, r.2 + 0)])
          (p, r.2 + 0) true = none := by
        refine coalesceStep_fail1 true (by simp) hremm hremz
      have hscan : coalesceScan ((F₁ ++ r :: F₂) ++ [(p, 0)])
          ((F₁ ++ r :: F₂) ++ [(p, 0)]) (p, 0) false = none := by
        have he : (F₁ ++ r :: F₂) ++ [(p, 0)] = F₁ ++ (r :: (F₂ ++ [(p, 0)])) := by
          simp
        rw [he]
        rw [coalesceScan_nomatch_then (p, 0) F₁ (r :: (F₂ ++ [(p, 0)]))
          (F₁ ++ (r :: (F₂ ++ [(p, 0)]))) false ?hpre]
        case hpre =>
          intro sp hsp
          constructor
          · exact hl sp (List.mem_append.2 (Or.inl hsp))
          · have h := hnr' sp (List.mem_append.2 (Or.inl hsp))
            simpa using h
        rw [coalesceScan_cons]
        rw [show F₁ ++ (r :: (F₂ ++ [(p, 0)])) = (F₁ ++ r :: F₂) ++ [(p, 0)] from he.symm,
          hstepr]
        show coalesceScan (F₂ ++ [(p, 0)]) ((F₁ ++ F₂) ++ [(p, r.2 + 0)])
          (p, r.2 + 0) true = none
        rw [coalesceScan_nomatch_then (p, r.2 + 0) F₂ [(p, 0)]
          ((F₁ ++ F₂) ++ [(p, r.2 + 0)]) true ?hmid]
        case hmid =>
          intro sp hsp
          have hspm : sp ∈ F₁ ++ r :: F₂ :=
            List.mem_append.2 (Or.inr (List.mem_cons_of_mem _ hsp))
          constructor
          · have h := hl sp hspm
            simp only []
            omega
          · have := hsr2 sp hsp
            unfold Sep at this
            have hsppos := hpos sp hspm
            simp only []
            omega
        rw [coalesceScan_cons, hstepz]
      show coalesceLoop (((F₁ ++ r :: F₂).length + 1) + 1)
        ((F₁ ++ r :: F₂) ++ [(p, 0)]) (p, 0) = none
      rw [coalesceLoop_succ, hscan]
    · -- no neighbour: the zero block matches itself and the second remove
      -- raises immediately
      push_neg at hl
      push_neg at hr
      have hremz : removeFirst? F (p, 0) = none := removeFirst?_not_mem F _ hb_nm
      have hstepz : coalesceStep (p, 0) (F ++ [(p, 0)]) (p, 0) false = none :=
        coalesceStep_fail1 false (by simp) hremb hremz
      have hscan : coalesceScan (F ++ [(p, 0)]) (F ++ [(p, 0)]) (p, 0) false = none := by
        rw [coalesceScan_nomatch_then (p, 0) F [(p, 0)] (F ++ [(p, 0)]) false ?hpre]
        case hpre =>
          intro sp hsp
          exact ⟨hl sp hsp, by simpa using hr sp hsp⟩
        rw [coalesceScan_cons, hstepz]
      show coalesceLoop ((F.length + 1) + 1) (F ++ [(p, 0)]) (p, 0) = none
      rw [coalesceLoop_succ, hscan]

/-- C10: releasing a value of size 0 makes the coalescing loop fail.  On
any separated, positive free set (the shape the allocator maintains), the
release-and-coalesce step of a zero-size block returns an error instead of
completing — the loop only terminates normally when the released block has
positive size; and the concrete graph `I → Op1 → V (size 0, fan-out 1) →
Op2 → O` makes the whole variable-allocation pass raise. -/
theorem c10_zero_size_release (F : List Block) (p : Nat)
    (hsep : F.Pairwise Sep) (hpos : ∀ c ∈ F, 0 < c.2) :
    releaseBlock F (p, 0) = none ∧ (allocateVariables gC10).isSome = false :=
  ⟨releaseBlock_zero F p hsep hpos, by decide⟩

/-- C10 witness: the zero-size release fails on the empty free list. -/
theorem c10_zero_size_witness :
    releaseBlock [] (3, 0) = none ∧ (allocateVariables gC10).isSome = false :=
  c10_zero_size_release [] 3 List.Pairwise.nil (by intro c hc; cases hc)

/-! ## Characterisation of a positive-size release (used by the allocator
invariant for claims C2 and C7) -/

/-- What the release step guarantees: the new free list exists, is
separated and positive, and covers only addresses that were free before or
belong to the released block. -/
def ReleaseOk (F : List Block) (b : Block) : Prop :=
  ∃ F', releaseBlock F b = some F' ∧ F'.Pairwise Sep ∧ (∀ c ∈ F', 0 < c.2) ∧
    ∀ c ∈ F', ∀ x, inRange c x → (∃ d ∈ F, inRange d x) ∨ inRange b x

lemma releaseBlock_char_none (F : List Block) (b : Block)
    (hsep : F.Pairwise Sep) (hpos : ∀ c ∈ F, 0 < c.2) (hb : 0 < b.2)
    (hdisj : ∀ c ∈ F, c.1 + c.2 ≤ b.1 ∨ b.1 + b.2 ≤ c.1)
    (hnl : ∀ c ∈ F, c.1 + c.2 ≠ b.1) (hnr : ∀ c ∈ F, c.1 ≠ b.1 + b.2) :
    ReleaseOk F b := by
  refine ⟨F ++ [b], ?_, ?_, ?_, ?_⟩
  · have hscan : coalesceScan (F ++ [b]) (F ++ [b]) b false = some (F ++ [b], b, false) := by
      rw [coalesceScan_nomatch_then b F [b] (F ++ [b]) false
        (fun sp hsp => ⟨hnl sp hsp, hnr sp hsp⟩)]
      rw [coalesceScan_cons, coalesceStep_nomatch (F ++ [b]) false (by omega) (by omega)]
      rfl
    show coalesceLoop ((F.length + 1) + 1) (F ++ [b]) b = some (F ++ [b])
    rw [coalesceLoop_succ, hscan]
    rfl
  · rw [List.pairwise_append]
    refine ⟨hsep, List.pairwise_singleton _ _, ?_⟩
    intro c hc d hd
    rw [List.mem_singleton] at hd
    subst hd
    have h1 := hdisj c hc
    have h2 := hnl c hc
    have h3 := hnr c hc
    unfold Sep
    omega
  · intro c hc
    rcases List.mem_append.1 hc with hc | hc
    · exact hpos c hc
    · rw [List.mem_singleton] at hc; subst hc; exact hb
  · intro c hc x hx
    rcases List.mem_append.1 hc with hc | hc
    · exact Or.inl ⟨c, hc, hx⟩
    · rw [List.mem_singleton] at hc; subst hc; exact Or.inr hx

lemma releaseBlock_char_left (F₁ F₂ : List Block) (l b : Block)
    (hsep : (F₁ ++ l :: F₂).Pairwise Sep) (hpos : ∀ c ∈ F₁ ++ l :: F₂, 0 < c.2)
    (hb : 0 < b.2)
    (hdisj : ∀ c ∈ F₁ ++ l :: F₂, c.1 + c.2 ≤ b.1 ∨ b.1 + b.2 ≤ c.1)
    (hle : l.1 + l.2 = b.1)
    (hnr : ∀ c ∈ F₁ ++ l :: F₂, c.1 ≠ b.1 + b.2) :
    ReleaseOk (F₁ ++ l :: F₂) b := by
  obtain ⟨hsl1, hsl2, hsep', hlF₁, hlF₂⟩ := pairwise_sep_split F₁ F₂ l hsep
  have hlpos : 0 < l.2 := hpos l (by simp)
  have hlmem : l ∈ F₁ ++ l :: F₂ := by simp
  have hb_nm : b ∉ F₁ ++ l :: F₂ := by
    intro hx
    have := hdisj b hx
    omega
  have hremb : removeFirst? ((F₁ ++ l :: F₂) ++ [b]) b = some (F₁ ++ l :: F₂) := by
    have h := removeFirst?_split (F₁ ++ l :: F₂) [] b hb_nm
    simpa using h
  -- no other block ends at b.1 (it would be adjacent to l)
  have hnl' : ∀ c ∈ F₁ ++ F₂, c.1 + c.2 ≠ l.1 + l.2 := by
    intro c hc hce
    have hsep_cl : Sep c l ∨ Sep l c := by
      rcases List.mem_append.1 hc with hc | hc
      · exact Or.inl (hsl1 c hc)
      · exact Or.inr (hsl2 c hc)
    unfold Sep at hsep_cl
    omega
  have hreml : removeFirst? (F₁ ++ l :: F₂) l = some (F₁ ++ F₂) :=
    removeFirst?_split F₁ F₂ l hlF₁
  have hstepl : coalesceStep l ((F₁ ++ l :: F₂) ++ [b]) b false =
      some ((F₁ ++ F₂) ++ [(l.1, l.2 + b.2)], (l.1, l.2 + b.2), true) :=
    coalesceStep_merge1 false hle hremb hreml (by omega)
  have hns' : ∀ c ∈ F₁ ++ F₂, c.1 ≠ l.1 := by
    intro c hc hcs
    have hsep_cl : Sep c l ∨ Sep l c := by
      rcases List.mem_append.1 hc with hc | hc
      · exact Or.inl (hsl1 c hc)
      · exact Or.inr (hsl2 c hc)
    unfold Sep at hsep_cl
    omega
  have hm₁_nm : ((l.1, l.2 + b.2) : Block) ∉ F₁ ++ F₂ := by
    intro hx
    exact hns' _ hx rfl
  have hremm : removeFirst? ((F₁ ++ F₂) ++ [(l.1, l.2 + b.2)]) (l.1, l.2 + b.2) =
      some (F₁ ++ F₂) := by
    have h := removeFirst?_split (F₁ ++ F₂) [] (l.1, l.2 + b.2) hm₁_nm
    simpa using h
  -- elements of F₁ and F₂ match neither b nor the merged block
  have hnoF : ∀ sp, sp ∈ F₁ ++ F₂ →
      (sp.1 + sp.2 ≠ l.1 ∧ sp.1 ≠ l.1 + (l.2 + b.2)) ∧
      (sp.1 + sp.2 ≠ b.1 ∧ sp.1 ≠ b.1 + b.2) := by
    intro sp hsp
    have hsepl : Sep sp l ∨ Sep l sp := by
      rcases List.mem_append.1 hsp with h | h
      · exact Or.inl (hsl1 sp h)
      · exact Or.inr (hsl2 sp h)
    have hspmem : sp ∈ F₁ ++ l :: F₂ := by
      rcases List.mem_append.1 hsp with h | h
      · exact List.mem_append.2 (Or.inl h)
      · exact List.mem_append.2 (Or.inr (List.mem_cons_of_mem _ h))
    have h1 := hnr sp hspmem
    have h2 := hnl' sp hsp
    have h3 := hpos sp hspmem
    unfold Sep at hsepl
    constructor
    · constructor
      · omega
      · omega
    · constructor
      · omega
      · omega
  have hscan : coalesceScan ((F₁ ++ l :: F₂) ++ [b]) ((F₁ ++ l :: F₂) ++ [b]) b false =
      some ((F₁ ++ F₂) ++ [(l.1, l.2 + b.2)], (l.1, l.2 + b.2), true) := by
    have he : (F₁ ++ l :: F₂) ++ [b] = F₁ ++ (l :: (F₂ ++ [b])) := by simp
    rw [he]
    rw [coalesceScan_nomatch_then b F₁ (l :: (F₂ ++ [b]))
      (F₁ ++ (l :: (F₂ ++ [b]))) false ?hpre]
    case hpre =>
      intro sp hsp
      exact (hnoF sp (List.mem_append.2 (Or.inl hsp))).2
    rw [coalesceScan_cons]
    rw [show F₁ ++ (l :: (F₂ ++ [b])) = (F₁ ++ l :: F₂) ++ [b] from he.symm, hstepl]
    show coalesceScan (F₂ ++ [b]) ((F₁ ++ F₂) ++ [(l.1, l.2 + b.2)])
      (l.1, l.2 + b.2) true = _
    rw [coalesceScan_nomatch_then (l.1, l.2 + b.2) F₂ [b]
      ((F₁ ++ F₂) ++ [(l.1, l.2 + b.2)]) true ?hmid]
    case hmid =>
      intro sp hsp
      exact (hnoF sp (List.mem_append.2 (Or.inr hsp))).1
    rw [coalesceScan_cons,
      coalesceStep_nomatch ((F₁ ++ F₂) ++ [(l.1, l.2 + b.2)]) true
        (by simp only []; omega) (by simp only []; omega)]
    rfl
  have hscan2 : coalesceScan ((F₁ ++ F₂) ++ [(l.1, l.2 + b.2)])
      ((F₁ ++ F₂) ++ [(l.1, l.2 + b.2)]) (l.1, l.2 + b.2) false =
      some ((F₁ ++ F₂) ++ [(l.1, l.2 + b.2)], (l.1, l.2 + b.2), false) := by
    rw [coalesceScan_nomatch_then (l.1, l.2 + b.2) (F₁ ++ F₂) [(l.1, l.2 + b.2)]
      ((F₁ ++ F₂) ++ [(l.1, l.2 + b.2)]) false ?hp2]
    case hp2 =>
      intro sp hsp
      exact (hnoF sp hsp).1
    rw [coalesceScan_cons,
      coalesceStep_nomatch ((F₁ ++ F₂) ++ [(l.1, l.2 + b.2)]) false
        (by simp only []; omega) (by simp only []; omega)]
    rfl
  refine ⟨(F₁ ++ F₂) ++ [(l.1, l.2 + b.2)], ?_, ?_, ?_, ?_⟩
  · show coalesceLoop (((F₁ ++ l :: F₂).length + 1) + 1) ((F₁ ++ l :: F₂) ++ [b]) b =
      some ((F₁ ++ F₂) ++ [(l.1, l.2 + b.2)])
    rw [coalesceLoop_succ, hscan]
    show coalesceLoop ((F₁ ++ l :: F₂).length + 1) ((F₁ ++ F₂) ++ [(l.1, l.2 + b.2)])
      (l.1, l.2 + b.2) = _
    rw [coalesceLoop_succ, hscan2]
    rfl
  · rw [List.pairwise_append]
    refine ⟨hsep', List.pairwise_singleton _ _, ?_⟩
    intro c hc d hd
    rw [List.mem_singleton] at hd
    subst hd
    have hcmem : c ∈ F₁ ++ l :: F₂ := by
      rcases List.mem_append.1 hc with h | h
      · exact List.mem_append.2 (Or.inl h)
      · exact List.mem_append.2 (Or.inr (List.mem_cons_of_mem _ h))
    have hsepl : Sep c l ∨ Sep l c := by
      rcases List.mem_append.1 hc with h | h
      · exact Or.inl (hsl1 c h)
      · exact Or.inr (hsl2 c h)
    have h1 := hdisj c hcmem
    have h2 := hnr c hcmem
    have h3 := hpos c hcmem
    unfold Sep at hsepl ⊢
    simp only [] at h2 ⊢
    omega
  · intro c hc
    rcases List.mem_append.1 hc with hc | hc
    · rcases List.mem_append.1 hc with hc | hc
      · exact hpos c (List.mem_append.2 (Or.inl hc))
      · exact hpos c (List.mem_append.2 (Or.inr (List.mem_cons_of_mem _ hc)))
    · rw [List.mem_singleton] at hc
      subst hc
      simp only []
      omega
  · intro c hc x hx
    rcases List.mem_append.1 hc with hc | hc
    · refine Or.inl ⟨c, ?_, hx⟩
      rcases List.mem_append.1 hc with hc | hc
      · exact List.mem_append.2 (Or.inl hc)
      · exact List.mem_append.2 (Or.inr (List.mem_cons_of_mem _ hc))
    · rw [List.mem_singleton] at hc
      subst hc
      unfold inRange at hx
      simp only [] at hx
      by_cases hxl : x < l.1 + l.2
      · exact Or.inl ⟨l, hlmem, ⟨hx.1, hxl⟩⟩
      · refine Or.inr ⟨by omega, by omega⟩

lemma releaseBlock_char_right (F₁ F₂ : List Block) (r b : Block)
    (hsep : (F₁ ++ r :: F₂).Pairwise Sep) (hpos : ∀ c ∈ F₁ ++ r :: F₂, 0 < c.2)
    (hb : 0 < b.2)
    (hdisj : ∀ c ∈ F₁ ++ r :: F₂, c.1 + c.2 ≤ b.1 ∨ b.1 + b.2 ≤ c.1)
    (hre : r.1 = b.1 + b.2)
    (hnl : ∀ c ∈ F₁ ++ r :: F₂, c.1 + c.2 ≠ b.1) :
    ReleaseOk (F₁ ++ r :: F₂) b := by
  obtain ⟨hsr1, hsr2, hsep', hrF₁, hrF₂⟩ := pairwise_sep_split F₁ F₂ r hsep
  have hrpos : 0 < r.2 := hpos r (by simp)
  have hrmem : r ∈ F₁ ++ r :: F₂ := by simp
  have hb_nm : b ∉ F₁ ++ r :: F₂ := by
    intro hx
    have := hdisj b hx
    omega
  have hremb : removeFirst? ((F₁ ++ r :: F₂) ++ [b]) b = some (F₁ ++ r :: F₂) := by
    have h := removeFirst?_split (F₁ ++ r :: F₂) [] b hb_nm
    simpa using h
  -- no other block starts at r.1, and no block ends at r.1 + r.2 from the left
  have hns' : ∀ c ∈ F₁ ++ F₂, c.1 ≠ r.1 := by
    intro c hc hcs
    have hsep_cr : Sep c r ∨ Sep r c := by
      rcases List.mem_append.1 hc with hc | hc
      · exact Or.inl (hsr1 c hc)
      · exact Or.inr (hsr2 c hc)
    unfold Sep at hsep_cr
    omega
  have hne' : ∀ c ∈ F₁ ++ F₂, c.1 ≠ r.1 + r.2 := by
    intro c hc hcs
    have hsep_cr : Sep c r ∨ Sep r c := by
      rcases List.mem_append.1 hc with hc | hc
      · exact Or.inl (hsr1 c hc)
      · exact Or.inr (hsr2 c hc)
    unfold Sep at hsep_cr
    omega
  have hremr : removeFirst? (F₁ ++ r :: F₂) r = some (F₁ ++ F₂) :=
    removeFirst?_split F₁ F₂ r hrF₁
  have hstepr : coalesceStep r ((F₁ ++ r :: F₂) ++ [b]) b false =
      some ((F₁ ++ F₂) ++ [(b.1, r.2 + b.2)], (b.1, r.2 + b.2), true) :=
    coalesceStep_merge2 false (by omega) (by omega) hremb hremr
  -- elements of F₁ and F₂ match neither b nor the merged block
  have hnoF : ∀ sp, sp ∈ F₁ ++ F₂ →
      (sp.1 + sp.2 ≠ b.1 ∧ sp.1 ≠ b.1 + (r.2 + b.2)) ∧
      (sp.1 + sp.2 ≠ b.1 ∧ sp.1 ≠ b.1 + b.2) := by
    intro sp hsp
    have hspmem : sp ∈ F₁ ++ r :: F₂ := by
      rcases List.mem_append.1 hsp with h | h
      · exact List.mem_append.2 (Or.inl h)
      · exact List.mem_append.2 (Or.inr (List.mem_cons_of_mem _ h))
    have h1 := hnl sp hspmem
    have h2 := hns' sp hsp
    have h3 := hne' sp hsp
    refine ⟨⟨h1, ?_⟩, ⟨h1, ?_⟩⟩
    · omega
    · omega
  have hscan : coalesceScan ((F₁ ++ r :: F₂) ++ [b]) ((F₁ ++ r :: F₂) ++ [b]) b false =
      some ((F₁ ++ F₂) ++ [(b.1, r.2 + b.2)], (b.1, r.2 + b.2), true) := by
    have he : (F₁ ++ r :: F₂) ++ [b] = F₁ ++ (r :: (F₂ ++ [b])) := by simp
    rw [he]
    rw [coalesceScan_nomatch_then b F₁ (r :: (F₂ ++ [b]))
      (F₁ ++ (r :: (F₂ ++ [b]))) false ?hpre]
    case hpre =>
      intro sp hsp
      exact (hnoF sp (List.mem_append.2 (Or.inl hsp))).2
    rw [coalesceScan_cons]
    rw [show F₁ ++ (r :: (F₂ ++ [b])) = (F₁ ++ r :: F₂) ++ [b] from he.symm, hstepr]
    show coalesceScan (F₂ ++ [b]) ((F₁ ++ F₂) ++ [(b.1, r.2 + b.2)])
      (b.1, r.2 + b.2) true = _
    rw [coalesceScan_nomatch_then (b.1, r.2 + b.2) F₂ [b]
      ((F₁ ++ F₂) ++ [(b.1, r.2 + b.2)]) true ?hmid]
    case hmid =>
      intro sp hsp
      exact (hnoF sp (List.mem_append.2 (Or.inr hsp))).1
    rw [coalesceScan_cons,
      coalesceStep_nomatch ((F₁ ++ F₂) ++ [(b.1, r.2 + b.2)]) true
        (by simp only []; omega) (by simp only []; omega)]
    rfl
  have hscan2 : coalesceScan ((F₁ ++ F₂) ++ [(b.1, r.2 + b.2)])
      ((F₁ ++ F₂) ++ [(b.1, r.2 + b.2)]) (b.1, r.2 + b.2) false =
      some ((F₁ ++ F₂) ++ [(b.1, r.2 + b.2)], (b.1, r.2 + b.2), false) := by
    rw [coalesceScan_nomatch_then (b.1, r.2 + b.2) (F₁ ++ F₂) [(b.1, r.2 + b.2)]
      ((F₁ ++ F₂) ++ [(b.1, r.2 + b.2)]) false ?hp2]
    case hp2 =>
      intro sp hsp
      exact (hnoF sp hsp).1
    rw [coalesceScan_cons,
      coalesceStep_nomatch ((F₁ ++ F₂) ++ [(b.1, r.2 + b.2)]) false
        (by simp only []; omega) (by simp only []; omega)]
    rfl
  refine ⟨(F₁ ++ F₂) ++ [(b.1, r.2 + b.2)], ?_, ?_, ?_, ?_⟩
  · show coalesceLoop (((F₁ ++ r :: F₂).length + 1) + 1) ((F₁ ++ r :: F₂) ++ [b]) b =
      some ((F₁ ++ F₂) ++ [(b.1, r.2 + b.2)])
    rw [coalesceLoop_succ, hscan]
    show coalesceLoop ((F₁ ++ r :: F₂).length + 1) ((F₁ ++ F₂) ++ [(b.1, r.2 + b.2)])
      (b.1, r.2 + b.2) = _
    rw [coalesceLoop_succ, hscan2]
    rfl
  · rw [List.pairwise_append]
    refine ⟨hsep', List.pairwise_singleton _ _, ?_⟩
    intro c hc d hd
    rw [List.mem_singleton] at hd
    subst hd
    have hcmem : c ∈ F₁ ++ r :: F₂ := by
      rcases List.mem_append.1 hc with h | h
      · exact List.mem_append.2 (Or.inl h)
      · exact List.mem_append.2 (Or.inr (List.mem_cons_of_mem _ h))
    have hsepr : Sep c r ∨ Sep r c := by
      rcases List.mem_append.1 hc with h | h
      · exact Or.inl (hsr1 c h)
      · exact Or.inr (hsr2 c h)
    have h1 := hdisj c hcmem
    have h2 := hnl c hcmem
    have h3 := hpos c hcmem
    unfold Sep at hsepr ⊢
    simp only [] at h2 ⊢
    omega
  · intro c hc
    rcases List.mem_append.1 hc with hc | hc
    · rcases List.mem_append.1 hc with hc | hc
      · exact hpos c (List.mem_append.2 (Or.inl hc))
      · exact hpos c (List.mem_append.2 (Or.inr (List.mem_cons_of_mem _ hc)))
    · rw [List.mem_singleton] at hc
      subst hc
      simp only []
      omega
  · intro c hc x hx
    rcases List.mem_append.1 hc with hc | hc
    · refine Or.inl ⟨c, ?_, hx⟩
      rcases List.mem_append.1 hc with hc | hc
      · exact List.mem_append.2 (Or.inl hc)
      · exact List.mem_append.2 (Or.inr (List.mem_cons_of_mem _ hc))
    · rw [List.mem_singleton] at hc
      subst hc
      unfold inRange at hx
      simp only [] at hx
      by_cases hxb : x < b.1 + b.2
      · exact Or.inr ⟨hx.1, hxb⟩
      · refine Or.inl ⟨r, hrmem, ⟨by omega, by omega⟩⟩

lemma releaseBlock_char_both_lr (F₁ F₂₁ F₂₂ : List Block) (l r b : Block)
    (hsep : (F₁ ++ l :: (F₂₁ ++ r :: F₂₂)).Pairwise Sep)
    (hpos : ∀ c ∈ F₁ ++ l :: (F₂₁ ++ r :: F₂₂), 0 < c.2)
    (hb : 0 < b.2)
    (hdisj : ∀ c ∈ F₁ ++ l :: (F₂₁ ++ r :: F₂₂), c.1 + c.2 ≤ b.1 ∨ b.1 + b.2 ≤ c.1)
    (hle : l.1 + l.2 = b.1) (hre : r.1 = b.1 + b.2) :
    ReleaseOk (F₁ ++ l :: (F₂₁ ++ r :: F₂₂)) b := by
  obtain ⟨hsl1, hsl2, hsep', hlF₁, hlF₂⟩ :=
    pairwise_sep_split F₁ (F₂₁ ++ r :: F₂₂) l hsep
  have hasc : F₁ ++ (F₂₁ ++ r :: F₂₂) = (F₁ ++ F₂₁) ++ r :: F₂₂ := by simp
  obtain ⟨hsr1, hsr2, hsep'', hrF₁, hrF₂⟩ :=
    pairwise_sep_split (F₁ ++ F₂₁) F₂₂ r (hasc ▸ hsep')
  have hlpos : 0 < l.2 := hpos l (by simp)
  have hrpos : 0 < r.2 := hpos r (by simp)
  have hlmem : l ∈ F₁ ++ l :: (F₂₁ ++ r :: F₂₂) := by simp
  have hrmem : r ∈ F₁ ++ l :: (F₂₁ ++ r :: F₂₂) := by simp
  have hb_nm : b ∉ F₁ ++ l :: (F₂₁ ++ r :: F₂₂) := by
    intro hx
    have := hdisj b hx
    omega
  have hremb : removeFirst? ((F₁ ++ l :: (F₂₁ ++ r :: F₂₂)) ++ [b]) b =
      some (F₁ ++ l :: (F₂₁ ++ r :: F₂₂)) := by
    have h := removeFirst?_split (F₁ ++ l :: (F₂₁ ++ r :: F₂₂)) [] b hb_nm
    simpa using h
  have hreml : removeFirst? (F₁ ++ l :: (F₂₁ ++ r :: F₂₂)) l =
      some (F₁ ++ (F₂₁ ++ r :: F₂₂)) :=
    removeFirst?_split F₁ (F₂₁ ++ r :: F₂₂) l hlF₁
  have hstepl : coalesceStep l ((F₁ ++ l :: (F₂₁ ++ r :: F₂₂)) ++ [b]) b false =
      some ((F₁ ++ (F₂₁ ++ r :: F₂₂)) ++ [(l.1, l.2 + b.2)], (l.1, l.2 + b.2), true) :=
    coalesceStep_merge1 false hle hremb hreml (by omega)
  -- membership transfer for "other" blocks
  have hmemo : ∀ sp, sp ∈ (F₁ ++ F₂₁) ++ F₂₂ → sp ∈ F₁ ++ l :: (F₂₁ ++ r :: F₂₂) := by
    intro sp hsp
    rcases List.mem_append.1 hsp with hsp | hsp
    · rcases List.mem_append.1 hsp with hsp | hsp
      · exact List.mem_append.2 (Or.inl hsp)
      · refine List.mem_append.2 (Or.inr (List.mem_cons_of_mem _ ?_))
        exact List.mem_append.2 (Or.inl hsp)
    · refine List.mem_append.2 (Or.inr (List.mem_cons_of_mem _ ?_))
      exact List.mem_append.2 (Or.inr (List.mem_cons_of_mem _ hsp))
  have hsep_ol : ∀ sp ∈ (F₁ ++ F₂₁) ++ F₂₂, Sep sp l ∨ Sep l sp := by
    intro sp hsp
    rcases List.mem_append.1 hsp with hsp | hsp
    · rcases List.mem_append.1 hsp with hsp | hsp
      · exact Or.inl (hsl1 sp hsp)
      · exact Or.inr (hsl2 sp (List.mem_append.2 (Or.inl hsp)))
    · exact Or.inr (hsl2 sp (List.mem_append.2 (Or.inr (List.mem_cons_of_mem _ hsp))))
  have hsep_or : ∀ sp ∈ (F₁ ++ F₂₁) ++ F₂₂, Sep sp r ∨ Sep r sp := by
    intro sp hsp
    rcases List.mem_append.1 hsp with hsp | hsp
    · exact Or.inl (hsr1 sp hsp)
    · exact Or.inr (hsr2 sp hsp)
  -- the six non-match facts for all other blocks
  have hnoF : ∀ sp, sp ∈ (F₁ ++ F₂₁) ++ F₂₂ →
      (sp.1 + sp.2 ≠ l.1 ∧ sp.1 ≠ l.1 + (l.2 + b.2)) ∧
      (sp.1 + sp.2 ≠ l.1 ∧ sp.1 ≠ l.1 + (r.2 + (l.2 + b.2))) ∧
      (sp.1 + sp.2 ≠ b.1 ∧ sp.1 ≠ b.1 + b.2) := by
    intro sp hsp
    have h1 := hsep_ol sp hsp
    have h2 := hsep_or sp hsp
    have h3 := hpos sp (hmemo sp hsp)
    have h4 := hdisj sp (hmemo sp hsp)
    unfold Sep at h1 h2
    refine ⟨⟨?_, ?_⟩, ⟨?_, ?_⟩, ⟨?_, ?_⟩⟩ <;> omega
  have hm₁_nm : ((l.1, l.2 + b.2) : Block) ∉ F₁ ++ (F₂₁ ++ r :: F₂₂) := by
    intro hx
    rw [hasc] at hx
    rcases List.mem_append.1 hx with hx | hx
    · have := hsep_ol _ (List.mem_append.2 (Or.inl hx))
      unfold Sep at this
      simp only [] at this
      omega
    · cases hx with
      | head =>
        have h5 : l.1 = b.1 + b.2 := hre
        omega
      | tail _ hx =>
        have := hsep_ol _ (List.mem_append.2 (Or.inr hx))
        unfold Sep at this
        simp only [] at this
        omega
  have hremm : removeFirst? ((F₁ ++ (F₂₁ ++ r :: F₂₂)) ++ [(l.1, l.2 + b.2)])
      (l.1, l.2 + b.2) = some (F₁ ++ (F₂₁ ++ r :: F₂₂)) := by
    have h := removeFirst?_split (F₁ ++ (F₂₁ ++ r :: F₂₂)) [] (l.1, l.2 + b.2) hm₁_nm
    simpa using h
  have hremr : removeFirst? (F₁ ++ (F₂₁ ++ r :: F₂₂)) r = some ((F₁ ++ F₂₁) ++ F₂₂) := by
    rw [hasc]
    exact removeFirst?_split (F₁ ++ F₂₁) F₂₂ r hrF₁
  have hstepr : coalesceStep r ((F₁ ++ (F₂₁ ++ r :: F₂₂)) ++ [(l.1, l.2 + b.2)])
      (l.1, l.2 + b.2) true =
      some (((F₁ ++ F₂₁) ++ F₂₂) ++ [(l.1, r.2 + (l.2 + b.2))],
        (l.1, r.2 + (l.2 + b.2)), true) :=
    coalesceStep_merge2 true (by simp only []; omega) (by simp only []; omega) hremm hremr
  have hstepb : coalesceStep b (((F₁ ++ F₂₁) ++ F₂₂) ++ [(l.1, r.2 + (l.2 + b.2))])
      (l.1, r.2 + (l.2 + b.2)) true =
      some ((((F₁ ++ F₂₁) ++ F₂₂) ++ [(l.1, r.2 + (l.2 + b.2))]),
        (l.1, r.2 + (l.2 + b.2)), true) :=
    coalesceStep_nomatch _ _ (by simp only []; omega) (by simp only []; omega)
  have hscan : coalesceScan ((F₁ ++ l :: (F₂₁ ++ r :: F₂₂)) ++ [b])
      ((F₁ ++ l :: (F₂₁ ++ r :: F₂₂)) ++ [b]) b false =
      some ((((F₁ ++ F₂₁) ++ F₂₂) ++ [(l.1, r.2 + (l.2 + b.2))]),
        (l.1, r.2 + (l.2 + b.2)), true) := by
    have he : (F₁ ++ l :: (F₂₁ ++ r :: F₂₂)) ++ [b] =
        F₁ ++ (l :: (F₂₁ ++ (r :: (F₂₂ ++ [b])))) := by simp
    rw [he]
    rw [coalesceScan_nomatch_then b F₁ (l :: (F₂₁ ++ (r :: (F₂₂ ++ [b]))))
      (F₁ ++ (l :: (F₂₁ ++ (r :: (F₂₂ ++ [b]))))) false ?hpre]
    case hpre =>
      intro sp hsp
      have h := (hnoF sp (List.mem_append.2 (Or.inl (List.mem_append.2 (Or.inl hsp))))).2.2
      exact ⟨by omega, by omega⟩
    rw [coalesceScan_cons]
    rw [show F₁ ++ (l :: (F₂₁ ++ (r :: (F₂₂ ++ [b])))) =
      (F₁ ++ l :: (F₂₁ ++ r :: F₂₂)) ++ [b] from he.symm, hstepl]
    show coalesceScan (F₂₁ ++ (r :: (F₂₂ ++ [b])))
      ((F₁ ++ (F₂₁ ++ r :: F₂₂)) ++ [(l.1, l.2 + b.2)]) (l.1, l.2 + b.2) true = _
    rw [coalesceScan_nomatch_then (l.1, l.2 + b.2) F₂₁ (r :: (F₂₂ ++ [b]))
      ((F₁ ++ (F₂₁ ++ r :: F₂₂)) ++ [(l.1, l.2 + b.2)]) true ?hmid]
    case hmid =>
      intro sp hsp
      have h := (hnoF sp (List.mem_append.2 (Or.inl (List.mem_append.2 (Or.inr hsp))))).1
      have h2 := (hnoF sp (List.mem_append.2 (Or.inl (List.mem_append.2 (Or.inr hsp))))).2.2
      refine ⟨by simp only []; omega, ?_⟩
      simp only []
      omega
    rw [coalesceScan_cons, hstepr]
    show coalesceScan (F₂₂ ++ [b])
      (((F₁ ++ F₂₁) ++ F₂₂) ++ [(l.1, r.2 + (l.2 + b.2))]) (l.1, r.2 + (l.2 + b.2)) true = _
    rw [coalesceScan_nomatch_then (l.1, r.2 + (l.2 + b.2)) F₂₂ [b]
      (((F₁ ++ F₂₁) ++ F₂₂) ++ [(l.1, r.2 + (l.2 + b.2))]) true ?hlast]
    case hlast =>
      intro sp hsp
      have h := (hnoF sp (List.mem_append.2 (Or.inr hsp))).2.1
      exact ⟨by simp only []; omega, by simp only []; omega⟩
    rw [coalesceScan_cons, hstepb]
    rfl
  have hscan2 : coalesceScan (((F₁ ++ F₂₁) ++ F₂₂) ++ [(l.1, r.2 + (l.2 + b.2))])
      (((F₁ ++ F₂₁) ++ F₂₂) ++ [(l.1, r.2 + (l.2 + b.2))]) (l.1, r.2 + (l.2 + b.2)) false =
      some ((((F₁ ++ F₂₁) ++ F₂₂) ++ [(l.1, r.2 + (l.2 + b.2))]),
        (l.1, r.2 + (l.2 + b.2)), false) := by
    rw [coalesceScan_nomatch_then (l.1, r.2 + (l.2 + b.2)) ((F₁ ++ F₂₁) ++ F₂₂)
      [(l.1, r.2 + (l.2 + b.2))]
      (((F₁ ++ F₂₁) ++ F₂₂) ++ [(l.1, r.2 + (l.2 + b.2))]) false ?hp2]
    case hp2 =>
      intro sp hsp
      have h := (hnoF sp hsp).2.1
      exact ⟨by simp only []; omega, by simp only []; omega⟩
    rw [coalesceScan_cons,
      coalesceStep_nomatch (((F₁ ++ F₂₁) ++ F₂₂) ++ [(l.1, r.2 + (l.2 + b.2))]) false
        (by simp only []; omega) (by simp only []; omega)]
    rfl
  refine ⟨((F₁ ++ F₂₁) ++ F₂₂) ++ [(l.1, r.2 + (l.2 + b.2))], ?_, ?_, ?_, ?_⟩
  · show coalesceLoop (((F₁ ++ l :: (F₂₁ ++ r :: F₂₂)).length + 1) + 1)
      ((F₁ ++ l :: (F₂₁ ++ r :: F₂₂)) ++ [b]) b = _
    rw [coalesceLoop_succ, hscan]
    show coalesceLoop ((F₁ ++ l :: (F₂₁ ++ r :: F₂₂)).length + 1)
      (((F₁ ++ F₂₁) ++ F₂₂) ++ [(l.1, r.2 + (l.2 + b.2))]) (l.1, r.2 + (l.2 + b.2)) = _
    rw [coalesceLoop_succ, hscan2]
    rfl
  · rw [List.pairwise_append]
    refine ⟨hsep'', List.pairwise_singleton _ _, ?_⟩
    intro c hc d hd
    rw [List.mem_singleton] at hd
    subst hd
    have h1 := hsep_ol c hc
    have h2 := hsep_or c hc
    have h3 := hpos c (hmemo c hc)
    have h4 := hdisj c (hmemo c hc)
    unfold Sep at h1 h2 ⊢
    simp only [] at h1 h2 ⊢
    omega
  · intro c hc
    rcases List.mem_append.1 hc with hc | hc
    · exact hpos c (hmemo c hc)
    · rw [List.mem_singleton] at hc
      subst hc
      simp only []
      omega
  · intro c hc x hx
    rcases List.mem_append.1 hc with hc | hc
    · exact Or.inl ⟨c, hmemo c hc, hx⟩
    · rw [List.mem_singleton] at hc
      subst hc
      unfold inRange at hx
      simp only [] at hx
      by_cases hxl : x < l.1 + l.2
      · exact Or.inl ⟨l, hlmem, ⟨hx.1, hxl⟩⟩
      · by_cases hxb : x < b.1 + b.2
        · exact Or.inr ⟨by omega, hxb⟩
        · refine Or.inl ⟨r, hrmem, ⟨by omega, by omega⟩⟩

lemma releaseBlock_char_both_rl (F₁ F₂₁ F₂₂ : List Block) (l r b : Block)
    (hsep : (F₁ ++ r :: (F₂₁ ++ l :: F₂₂)).Pairwise Sep)
    (hpos : ∀ c ∈ F₁ ++ r :: (F₂₁ ++ l :: F₂₂), 0 < c.2)
    (hb : 0 < b.2)
    (hdisj : ∀ c ∈ F₁ ++ r :: (F₂₁ ++ l :: F₂₂), c.1 + c.2 ≤ b.1 ∨ b.1 + b.2 ≤ c.1)
    (hle : l.1 + l.2 = b.1) (hre : r.1 = b.1 + b.2) :
    ReleaseOk (F₁ ++ r :: (F₂₁ ++ l :: F₂₂)) b := by
  obtain ⟨hsr1, hsr2, hsep', hrF₁, hrF₂⟩ :=
    pairwise_sep_split F₁ (F₂₁ ++ l :: F₂₂) r hsep
  have hasc : F₁ ++ (F₂₁ ++ l :: F₂₂) = (F₁ ++ F₂₁) ++ l :: F₂₂ := by simp
  obtain ⟨hsl1, hsl2, hsep'', hlF₁, hlF₂⟩ :=
    pairwise_sep_split (F₁ ++ F₂₁) F₂₂ l (hasc ▸ hsep')
  have hlpos : 0 < l.2 := hpos l (by simp)
  have hrpos : 0 < r.2 := hpos r (by simp)
  have hlmem : l ∈ F₁ ++ r :: (F₂₁ ++ l :: F₂₂) := by simp
  have hrmem : r ∈ F₁ ++ r :: (F₂₁ ++ l :: F₂₂) := by simp
  have hb_nm : b ∉ F₁ ++ r :: (F₂₁ ++ l :: F₂₂) := by
    intro hx
    have := hdisj b hx
    omega
  have hremb : removeFirst? ((F₁ ++ r :: (F₂₁ ++ l :: F₂₂)) ++ [b]) b =
      some (F₁ ++ r :: (F₂₁ ++ l :: F₂₂)) := by
    have h := removeFirst?_split (F₁ ++ r :: (F₂₁ ++ l :: F₂₂)) [] b hb_nm
    simpa using h
  have hremr : removeFirst? (F₁ ++ r :: (F₂₁ ++ l :: F₂₂)) r =
      some (F₁ ++ (F₂₁ ++ l :: F₂₂)) :=
    removeFirst?_split F₁ (F₂₁ ++ l :: F₂₂) r hrF₁
  have hstepr : coalesceStep r ((F₁ ++ r :: (F₂₁ ++ l :: F₂₂)) ++ [b]) b false =
      some ((F₁ ++ (F₂₁ ++ l :: F₂₂)) ++ [(b.1, r.2 + b.2)], (b.1, r.2 + b.2), true) :=
    coalesceStep_merge2 false (by omega) (by omega) hremb hremr
  have hmemo : ∀ sp, sp ∈ (F₁ ++ F₂₁) ++ F₂₂ → sp ∈ F₁ ++ r :: (F₂₁ ++ l :: F₂₂) := by
    intro sp hsp
    rcases List.mem_append.1 hsp with hsp | hsp
    · rcases List.mem_append.1 hsp with hsp | hsp
      · exact List.mem_append.2 (Or.inl hsp)
      · refine List.mem_append.2 (Or.inr (List.mem_cons_of_mem _ ?_))
        exact List.mem_append.2 (Or.inl hsp)
    · refine List.mem_append.2 (Or.inr (List.mem_cons_of_mem _ ?_))
      exact List.mem_append.2 (Or.inr (List.mem_cons_of_mem _ hsp))
  have hsep_ol : ∀ sp ∈ (F₁ ++ F₂₁) ++ F₂₂, Sep sp l ∨ Sep l sp := by
    intro sp hsp
    rcases List.mem_append.1 hsp with hsp | hsp
    · exact Or.inl (hsl1 sp hsp)
    · exact Or.inr (hsl2 sp hsp)
  have hsep_or : ∀ sp ∈ (F₁ ++ F₂₁) ++ F₂₂, Sep sp r ∨ Sep r sp := by
    intro sp hsp
    rcases List.mem_append.1 hsp with hsp | hsp
    · rcases List.mem_append.1 hsp with hsp | hsp
      · exact Or.inl (hsr1 sp hsp)
      · exact Or.inr (hsr2 sp (List.mem_append.2 (Or.inl hsp)))
    · exact Or.inr (hsr2 sp (List.mem_append.2 (Or.inr (List.mem_cons_of_mem _ hsp))))
  have hnoF : ∀ sp, sp ∈ (F₁ ++ F₂₁) ++ F₂₂ →
      (sp.1 + sp.2 ≠ b.1 ∧ sp.1 ≠ b.1 + b.2) ∧
      (sp.1 + sp.2 ≠ b.1 ∧ sp.1 ≠ b.1 + (r.2 + b.2)) ∧
      (sp.1 + sp.2 ≠ l.1 ∧ sp.1 ≠ l.1 + (l.2 + (r.2 + b.2))) := by
    intro sp hsp
    have h1 := hsep_ol sp hsp
    have h2 := hsep_or sp hsp
    have h3 := hpos sp (hmemo sp hsp)
    have h4 := hdisj sp (hmemo sp hsp)
    unfold Sep at h1 h2
    refine ⟨⟨?_, ?_⟩, ⟨?_, ?_⟩, ⟨?_, ?_⟩⟩ <;> omega
  have hm₁_nm : ((b.1, r.2 + b.2) : Block) ∉ F₁ ++ (F₂₁ ++ l :: F₂₂) := by
    intro hx
    rw [hasc] at hx
    rcases List.mem_append.1 hx with hx | hx
    · have := hdisj _ (hmemo _ (List.mem_append.2 (Or.inl hx)))
      have hp := hpos _ (hmemo _ (List.mem_append.2 (Or.inl hx)))
      simp only [] at this hp
      omega
    · cases hx with
      | head =>
        have h5 : b.1 + (r.2 + b.2) = b.1 := hle
        omega
      | tail _ hx =>
        have := hdisj _ (hmemo _ (List.mem_append.2 (Or.inr hx)))
        have hp := hpos _ (hmemo _ (List.mem_append.2 (Or.inr hx)))
        simp only [] at this hp
        omega
  have hremm : removeFirst? ((F₁ ++ (F₂₁ ++ l :: F₂₂)) ++ [(b.1, r.2 + b.2)])
      (b.1, r.2 + b.2) = some (F₁ ++ (F₂₁ ++ l :: F₂₂)) := by
    have h := removeFirst?_split (F₁ ++ (F₂₁ ++ l :: F₂₂)) [] (b.1, r.2 + b.2) hm₁_nm
    simpa using h
  have hreml : removeFirst? (F₁ ++ (F₂₁ ++ l :: F₂₂)) l = some ((F₁ ++ F₂₁) ++ F₂₂) := by
    rw [hasc]
    exact removeFirst?_split (F₁ ++ F₂₁) F₂₂ l hlF₁
  have hstepl : coalesceStep l ((F₁ ++ (F₂₁ ++ l :: F₂₂)) ++ [(b.1, r.2 + b.2)])
      (b.1, r.2 + b.2) true =
      some (((F₁ ++ F₂₁) ++ F₂₂) ++ [(l.1, l.2 + (r.2 + b.2))],
        (l.1, l.2 + (r.2 + b.2)), true) :=
    coalesceStep_merge1 true (by simp only []; omega) hremm hreml (by simp only []; omega)
  have hstepb : coalesceStep b (((F₁ ++ F₂₁) ++ F₂₂) ++ [(l.1, l.2 + (r.2 + b.2))])
      (l.1, l.2 + (r.2 + b.2)) true =
      some ((((F₁ ++ F₂₁) ++ F₂₂) ++ [(l.1, l.2 + (r.2 + b.2))]),
        (l.1, l.2 + (r.2 + b.2)), true) :=
    coalesceStep_nomatch _ _ (by simp only []; omega) (by simp only []; omega)
  have hscan : coalesceScan ((F₁ ++ r :: (F₂₁ ++ l :: F₂₂)) ++ [b])
      ((F₁ ++ r :: (F₂₁ ++ l :: F₂₂)) ++ [b]) b false =
      some ((((F₁ ++ F₂₁) ++ F₂₂) ++ [(l.1, l.2 + (r.2 + b.2))]),
        (l.1, l.2 + (r.2 + b.2)), true) := by
    have he : (F₁ ++ r :: (F₂₁ ++ l :: F₂₂)) ++ [b] =
        F₁ ++ (r :: (F₂₁ ++ (l :: (F₂₂ ++ [b])))) := by simp
    rw [he]
    rw [coalesceScan_nomatch_then b F₁ (r :: (F₂₁ ++ (l :: (F₂₂ ++ [b]))))
      (F₁ ++ (r :: (F₂₁ ++ (l :: (F₂₂ ++ [b]))))) false ?hpre]
    case hpre =>
      intro sp hsp
      exact (hnoF sp (List.mem_append.2 (Or.inl (List.mem_append.2 (Or.inl hsp))))).1
    rw [coalesceScan_cons]
    rw [show F₁ ++ (r :: (F₂₁ ++ (l :: (F₂₂ ++ [b])))) =
      (F₁ ++ r :: (F₂₁ ++ l :: F₂₂)) ++ [b] from he.symm, hstepr]
    show coalesceScan (F₂₁ ++ (l :: (F₂₂ ++ [b])))
      ((F₁ ++ (F₂₁ ++ l :: F₂₂)) ++ [(b.1, r.2 + b.2)]) (b.1, r.2 + b.2) true = _
    rw [coalesceScan_nomatch_then (b.1, r.2 + b.2) F₂₁ (l :: (F₂₂ ++ [b]))
      ((F₁ ++ (F₂₁ ++ l :: F₂₂)) ++ [(b.1, r.2 + b.2)]) true ?hmid]
    case hmid =>
      intro sp hsp
      have h := (hnoF sp (List.mem_append.2 (Or.inl (List.mem_append.2 (Or.inr hsp))))).2.1
      exact ⟨by simp only []; omega, by simp only []; omega⟩
    rw [coalesceScan_cons, hstepl]
    show coalesceScan (F₂₂ ++ [b])
      (((F₁ ++ F₂₁) ++ F₂₂) ++ [(l.1, l.2 + (r.2 + b.2))]) (l.1, l.2 + (r.2 + b.2)) true = _
    rw [coalesceScan_nomatch_then (l.1, l.2 + (r.2 + b.2)) F₂₂ [b]
      (((F₁ ++ F₂₁) ++ F₂₂) ++ [(l.1, l.2 + (r.2 + b.2))]) true ?hlast]
    case hlast =>
      intro sp hsp
      have h := (hnoF sp (List.mem_append.2 (Or.inr hsp))).2.2
      exact ⟨by simp only []; omega, by simp only []; omega⟩
    rw [coalesceScan_cons, hstepb]
    rfl
  have hscan2 : coalesceScan (((F₁ ++ F₂₁) ++ F₂₂) ++ [(l.1, l.2 + (r.2 + b.2))])
      (((F₁ ++ F₂₁) ++ F₂₂) ++ [(l.1, l.2 + (r.2 + b.2))]) (l.1, l.2 + (r.2 + b.2)) false =
      some ((((F₁ ++ F₂₁) ++ F₂₂) ++ [(l.1, l.2 + (r.2 + b.2))]),
        (l.1, l.2 + (r.2 + b.2)), false) := by
    rw [coalesceScan_nomatch_then (l.1, l.2 + (r.2 + b.2)) ((F₁ ++ F₂₁) ++ F₂₂)
      [(l.1, l.2 + (r.2 + b.2))]
      (((F₁ ++ F₂₁) ++ F₂₂) ++ [(l.1, l.2 + (r.2 + b.2))]) false ?hp2]
    case hp2 =>
      intro sp hsp
      exact (hnoF sp hsp).2.2
    rw [coalesceScan_cons,
      coalesceStep_nomatch (((F₁ ++ F₂₁) ++ F₂₂) ++ [(l.1, l.2 + (r.2 + b.2))]) false
        (by simp only []; omega) (by simp only []; omega)]
    rfl
  refine ⟨((F₁ ++ F₂₁) ++ F₂₂) ++ [(l.1, l.2 + (r.2 + b.2))], ?_, ?_, ?_, ?_⟩
  · show coalesceLoop (((F₁ ++ r :: (F₂₁ ++ l :: F₂₂)).length + 1) + 1)
      ((F₁ ++ r :: (F₂₁ ++ l :: F₂₂)) ++ [b]) b = _
    rw [coalesceLoop_succ, hscan]
    show coalesceLoop ((F₁ ++ r :: (F₂₁ ++ l :: F₂₂)).length + 1)
      (((F₁ ++ F₂₁) ++ F₂₂) ++ [(l.1, l.2 + (r.2 + b.2))]) (l.1, l.2 + (r.2 + b.2)) = _
    rw [coalesceLoop_succ, hscan2]
    rfl
  · rw [List.pairwise_append]
    refine ⟨hsep'', List.pairwise_singleton _ _, ?_⟩
    intro c hc d hd
    rw [List.mem_singleton] at hd
    subst hd
    have h1 := hsep_ol c hc
    have h2 := hsep_or c hc
    have h3 := hpos c (hmemo c hc)
    have h4 := hdisj c (hmemo c hc)
    unfold Sep at h1 h2 ⊢
    simp only [] at h1 h2 ⊢
    omega
  · intro c hc
    rcases List.mem_append.1 hc with hc | hc
    · exact hpos c (hmemo c hc)
    · rw [List.mem_singleton] at hc
      subst hc
      simp only []
      omega
  · intro c hc x hx
    rcases List.mem_append.1 hc with hc | hc
    · exact Or.inl ⟨c, hmemo c hc, hx⟩
    · rw [List.mem_singleton] at hc
      subst hc
      unfold inRange at hx
      simp only [] at hx
      by_cases hxl : x < l.1 + l.2
      · exact Or.inl ⟨l, hlmem, ⟨hx.1, hxl⟩⟩
      · by_cases hxb : x < b.1 + b.2
        · exact Or.inr ⟨by omega, hxb⟩
        · refine Or.inl ⟨r, hrmem, ⟨by omega, by omega⟩⟩

/-- Releasing a positive-size block disjoint from a separated, positive
free list always succeeds and returns a separated, positive free list that
covers only previously-free addresses and the released block. -/
lemma releaseBlock_char (F : List Block) (b : Block)
    (hsep : F.Pairwise Sep) (hpos : ∀ c ∈ F, 0 < c.2) (hb : 0 < b.2)
    (hdisj : ∀ c ∈ F, c.1 + c.2 ≤ b.1 ∨ b.1 + b.2 ≤ c.1) :
    ReleaseOk F b := by
  by_cases hl : ∃ l ∈ F, l.1 + l.2 = b.1
  · obtain ⟨l, hlF, hle⟩ := hl
    by_cases hr : ∃ r ∈ F, r.1 = b.1 + b.2
    · obtain ⟨r, hrF, hre⟩ := hr
      obtain ⟨F₁, F₂, rfl⟩ := List.append_of_mem hlF
      rcases List.mem_append.1 hrF with hrF | hrF
      · obtain ⟨F₁₁, F₁₂, rfl⟩ := List.append_of_mem hrF
        have hsh : ((F₁₁ ++ r :: F₁₂) ++ l :: F₂ : List Block) =
            F₁₁ ++ r :: (F₁₂ ++ l :: F₂) := by simp
        rw [hsh] at hsep hpos hdisj ⊢
        exact releaseBlock_char_both_rl F₁₁ F₁₂ F₂ l r b hsep hpos hb hdisj hle hre
      · cases hrF with
        | head =>
          exfalso
          have hlpos : 0 < l.2 := hpos l (by simp)
          omega
        | tail _ hrF =>
          obtain ⟨F₂₁, F₂₂, rfl⟩ := List.append_of_mem hrF
          exact releaseBlock_char_both_lr F₁ F₂₁ F₂₂ l r b hsep hpos hb hdisj hle hre
    · push_neg at hr
      obtain ⟨F₁, F₂, rfl⟩ := List.append_of_mem hlF
      exact releaseBlock_char_left F₁ F₂ l b hsep hpos hb hdisj hle hr
  · push_neg at hl
    by_cases hr : ∃ r ∈ F, r.1 = b.1 + b.2
    · obtain ⟨r, hrF, hre⟩ := hr
      obtain ⟨F₁, F₂, rfl⟩ := List.append_of_mem hrF
      exact releaseBlock_char_right F₁ F₂ r b hsep hpos hb hdisj hre hl
    · push_neg at hr
      exact releaseBlock_char_none F b hsep hpos hb hdisj hl hr

/-! ## Further layout helper lemmas for the allocator invariant -/

lemma adisj_symm {b c : Block} (h : ADisj b c) : ADisj c b :=
  fun x hx hbx => h x hbx hx

lemma layoutSize_append (L : Layout) (e : Entry) :
    layoutSize (L ++ [e]) = max (e.2 + e.1.size) (layoutSize L) := by
  show (L ++ [e]).foldl (fun acc a => max (a.2 + a.1.size) acc) 0 = _
  rw [List.foldl_append]
  rfl

lemma layoutSize_le_append (L : Layout) (e : Entry) :
    layoutSize L ≤ layoutSize (L ++ [e]) := by
  rw [layoutSize_append]
  omega

lemma layoutFind?_of_mem_nodup (L : Layout) (e : Entry) (hm : e ∈ L)
    (hn : (L.map (fun x => x.1.name)).Nodup) :
    layoutFind? L e.1.name = some e := by
  induction L with
  | nil => cases hm
  | cons a as ih =>
    rw [List.map_cons, List.nodup_cons] at hn
    cases hm with
    | head => simp [layoutFind?, List.find?]
    | tail _ hm =>
      have hne : ¬ (a.1.name = e.1.name) := by
        intro hx
        exact hn.1 (hx ▸ List.mem_map_of_mem (fun x => x.1.name) hm)
      simpa [layoutFind?, List.find?, hne] using ih hm hn.2

lemma eraseFirst_split (P Q : List Block) (b : Block) (h : b ∉ P) :
    eraseFirst (P ++ b :: Q) b = P ++ Q := by
  induction P with
  | nil => simp [eraseFirst]
  | cons c cs ih =>
    have hcb : ¬ (c = b) := fun hx => h (hx ▸ List.mem_cons_self _ _)
    simp [eraseFirst, hcb, ih (fun hx => h (List.mem_cons_of_mem _ hx))]

lemma mem_layoutInsert (L : Layout) (v : GVar) (off : Nat) (e : Entry)
    (h : e ∈ layoutInsert L v off) : e ∈ L ∨ e = (v, off) := by
  induction L with
  | nil =>
    rw [show layoutInsert [] v off = [(v, off)] from rfl] at h
    exact Or.inr (List.mem_singleton.1 h)
  | cons a as ih =>
    by_cases ha : a.1.name = v.name
    · rw [show layoutInsert (a :: as) v off = (v, off) :: as by
        simp [layoutInsert, ha]] at h
      cases h with
      | head => exact Or.inr rfl
      | tail _ h => exact Or.inl (List.mem_cons_of_mem _ h)
    · rw [show layoutInsert (a :: as) v off = a :: layoutInsert as v off by
        simp [layoutInsert, ha]] at h
      cases h with
      | head => exact Or.inl (List.mem_cons_self _ _)
      | tail _ h =>
        rcases ih h with h | h
        · exact Or.inl (List.mem_cons_of_mem _ h)
        · exact Or.inr h

/-! ## Seeding establishes the invariant -/

lemma seed_names : ∀ (vs : List GVar) (L : Layout),
    (∀ v ∈ vs, v.isConst = false → v.name ∉ L.map (fun e => e.1.name)) →
    ((vs.filter (fun v => !v.isConst)).map (fun v => v.name)).Nodup →
    (seedInputs L vs).map (fun e => e.1.name) =
      L.map (fun e => e.1.name) ++ (vs.filter (fun v => !v.isConst)).map (fun v => v.name) := by
  intro vs
  induction vs with
  | nil => intro L _ _; simp [seedInputs]
  | cons v vs ih =>
    intro L hfresh hnod
    by_cases hc : v.isConst
    · rw [show seedInputs L (v :: vs) = seedInputs L vs by simp [seedInputs, hc]]
      rw [show (v :: vs).filter (fun v => !v.isConst) = vs.filter (fun v => !v.isConst) by
        simp [List.filter_cons, hc]]
      rw [show ((v :: vs).filter (fun v => !v.isConst)) = vs.filter (fun v => !v.isConst) by
        simp [List.filter_cons, hc]] at hnod
      exact ih L (fun u hu huc => hfresh u (List.mem_cons_of_mem _ hu) huc) hnod
    · have hcf : v.isConst = false := by
        cases hcv : v.isConst
        · rfl
        · exact absurd hcv hc
      rw [show seedInputs L (v :: vs) = seedInputs (layoutAppend L v) vs by
        simp [seedInputs, hc]]
      have hvL : v.name ∉ L.map (fun e => e.1.name) :=
        hfresh v (List.mem_cons_self _ _) hcf
      have happ : layoutAppend L v = L ++ [(v, layoutSize L)] :=
        layoutInsert_fresh L v _ hvL
      rw [show ((v :: vs).filter (fun v => !v.isConst)) =
        v :: vs.filter (fun v => !v.isConst) by simp [List.filter_cons, hc]] at hnod ⊢
      rw [List.map_cons, List.nodup_cons] at hnod
      have ihres := ih (layoutAppend L v) ?hf hnod.2
      case hf =>
        intro u hu huc
        rw [happ]
        intro hx
        simp only [List.map_append, List.map_cons, List.map_nil, List.mem_append,
          List.mem_singleton] at hx
        rcases hx with hx | hx
        · exact hfresh u (List.mem_cons_of_mem _ hu) huc hx
        · refine hnod.1 ?_
          rw [← hx]
          refine List.mem_map_of_mem _ ?_
          rw [List.mem_filter]
          exact ⟨hu, by simp [huc]⟩
      rw [ihres, happ]
      simp

lemma seed_mem : ∀ (vs : List GVar) (L : Layout) (e : Entry),
    e ∈ seedInputs L vs → e ∈ L ∨ (e.1 ∈ vs ∧ e.1.isConst = false) := by
  intro vs
  induction vs with
  | nil => intro L e he; exact Or.inl he
  | cons v vs ih =>
    intro L e he
    by_cases hc : v.isConst
    · rw [show seedInputs L (v :: vs) = seedInputs L vs by simp [seedInputs, hc]] at he
      rcases ih L e he with h | h
      · exact Or.inl h
      · exact Or.inr ⟨List.mem_cons_of_mem _ h.1, h.2⟩
    · rw [show seedInputs L (v :: vs) = seedInputs (layoutAppend L v) vs by
        simp [seedInputs, hc]] at he
      rcases ih _ e he with h | h
      · rcases mem_layoutInsert L v (layoutSize L) e h with h | h
        · exact Or.inl h
        · refine Or.inr ⟨?_, ?_⟩
          · rw [h]; exact List.mem_cons_self _ _
          · rw [h]
            cases hcv : v.isConst
            · rfl
            · exact absurd hcv hc
      · exact Or.inr ⟨List.mem_cons_of_mem _ h.1, h.2⟩

lemma seed_present : ∀ (vs : List GVar) (L : Layout),
    (∀ v ∈ vs, v.isConst = false → v.name ∉ L.map (fun e => e.1.name)) →
    ((vs.filter (fun v => !v.isConst)).map (fun v => v.name)).Nodup →
    (∀ e ∈ L, e ∈ seedInputs L vs) ∧
    (∀ v ∈ vs, v.isConst = false → ∃ o, (v, o) ∈ seedInputs L vs) := by
  intro vs
  induction vs with
  | nil => intro L _ _; exact ⟨fun e he => he, fun v hv _ => absurd hv (by simp)⟩
  | cons v vs ih =>
    intro L hfresh hnod
    by_cases hc : v.isConst
    · rw [show ((v :: vs).filter (fun v => !v.isConst)) = vs.filter (fun v => !v.isConst) by
        simp [List.filter_cons, hc]] at hnod
      have ihres := ih L (fun u hu huc => hfresh u (List.mem_cons_of_mem _ hu) huc) hnod
      rw [show seedInputs L (v :: vs) = seedInputs L vs by simp [seedInputs, hc]]
      refine ⟨ihres.1, ?_⟩
      intro u hu huc
      cases hu with
      | head => exact absurd huc (by simp [hc])
      | tail _ hu => exact ihres.2 u hu huc
    · have hcf : v.isConst = false := by
        cases hcv : v.isConst
        · rfl
        · exact absurd hcv hc
      have hvL : v.name ∉ L.map (fun e => e.1.name) :=
        hfresh v (List.mem_cons_self _ _) hcf
      have happ : layoutAppend L v = L ++ [(v, layoutSize L)] :=
        layoutInsert_fresh L v _ hvL
      rw [show ((v :: vs).filter (fun v => !v.isConst)) =
        v :: vs.filter (fun v => !v.isConst) by simp [List.filter_cons, hc]] at hnod
      rw [List.map_cons, List.nodup_cons] at hnod
      have hf2 : ∀ u ∈ vs, u.isConst = false →
          u.name ∉ (layoutAppend L v).map (fun e => e.1.name) := by
        intro u hu huc
        rw [happ]
        intro hx
        simp only [List.map_append, List.map_cons, List.map_nil, List.mem_append,
          List.mem_singleton] at hx
        rcases hx with hx | hx
        · exact hfresh u (List.mem_cons_of_mem _ hu) huc hx
        · refine hnod.1 ?_
          rw [← hx]
          refine List.mem_map_of_mem _ ?_
          rw [List.mem_filter]
          exact ⟨hu, by simp [huc]⟩
      have ihres := ih (layoutAppend L v) hf2 hnod.2
      rw [show seedInputs L (v :: vs) = seedInputs (layoutAppend L v) vs by
        simp [seedInputs, hc]]
      constructor
      · intro e he
        refine ihres.1 e ?_
        rw [happ]
        exact List.mem_append.2 (Or.inl he)
      · intro u hu huc
        cases hu with
        | head =>
          refine ⟨layoutSize L, ihres.1 _ ?_⟩
          rw [happ]
          exact List.mem_append.2 (Or.inr (List.mem_singleton.2 rfl))
        | tail _ hu => exact ihres.2 u hu huc

lemma seed_pairwise : ∀ (vs : List GVar) (L : Layout),
    (∀ v ∈ vs, v.isConst = false → v.name ∉ L.map (fun e => e.1.name)) →
    ((vs.filter (fun v => !v.isConst)).map (fun v => v.name)).Nodup →
    L.Pairwise (fun e1 e2 => ADisj (entryBlock e1) (entryBlock e2)) →
    (seedInputs L vs).Pairwise (fun e1 e2 => ADisj (entryBlock e1) (entryBlock e2)) := by
  intro vs
  induction vs with
  | nil => intro L _ _ h; exact h
  | cons v vs ih =>
    intro L hfresh hnod h
    by_cases hc : v.isConst
    · rw [show seedInputs L (v :: vs) = seedInputs L vs by simp [seedInputs, hc]]
      rw [show ((v :: vs).filter (fun v => !v.isConst)) = vs.filter (fun v => !v.isConst) by
        simp [List.filter_cons, hc]] at hnod
      exact ih L (fun u hu huc => hfresh u (List.mem_cons_of_mem _ hu) huc) hnod h
    · have hcf : v.isConst = false := by
        cases hcv : v.isConst
        · rfl
        · exact absurd hcv hc
      have hvL : v.name ∉ L.map (fun e => e.1.name) :=
        hfresh v (List.mem_cons_self _ _) hcf
      have happ : layoutAppend L v = L ++ [(v, layoutSize L)] :=
        layoutInsert_fresh L v _ hvL
      rw [show ((v :: vs).filter (fun v => !v.isConst)) =
        v :: vs.filter (fun v => !v.isConst) by simp [List.filter_cons, hc]] at hnod
      rw [List.map_cons, List.nodup_cons] at hnod
      have hf2 : ∀ u ∈ vs, u.isConst = false →
          u.name ∉ (layoutAppend L v).map (fun e => e.1.name) := by
        intro u hu huc
        rw [happ]
        intro hx
        simp only [List.map_append, List.map_cons, List.map_nil, List.mem_append,
          List.mem_singleton] at hx
        rcases hx with hx | hx
        · exact hfresh u (List.mem_cons_of_mem _ hu) huc hx
        · refine hnod.1 ?_
          rw [← hx]
          refine List.mem_map_of_mem _ ?_
          rw [List.mem_filter]
          exact ⟨hu, by simp [huc]⟩
      rw [show seedInputs L (v :: vs) = seedInputs (layoutAppend L v) vs by
        simp [seedInputs, hc]]
      refine ih _ hf2 hnod.2 ?_
      rw [happ, List.pairwise_append]
      refine ⟨h, List.pairwise_singleton _ _, ?_⟩
      intro e he d hd
      rw [List.mem_singleton] at hd
      subst hd
      have hle := layoutSize_mem_le L e he
      intro x hx hx2
      unfold inRange entryBlock at hx hx2
      simp only [] at hx hx2
      omega

lemma live_congr_out {g : Graph} {st st' : AllocSt} {u : GVar}
    (h1 : live g st' u) (hr : st'.retain u = st.retain u) : live g st u := by
  unfold live at h1 ⊢
  rcases h1 with h | h | h
  · exact Or.inl h
  · exact Or.inr (Or.inl h)
  · exact Or.inr (Or.inr (hr ▸ h))

lemma pairwise_imp_mem {α : Type} {R S : α → α → Prop} :
    ∀ {l : List α}, (∀ a ∈ l, ∀ b ∈ l, R a b → S a b) → l.Pairwise R → l.Pairwise S := by
  intro l
  induction l with
  | nil => intro _ _; exact List.Pairwise.nil
  | cons a as ih =>
    intro h hp
    rw [List.pairwise_cons] at hp ⊢
    refine ⟨?_, ?_⟩
    · intro b hb
      exact h a (List.mem_cons_self _ _) b (List.mem_cons_of_mem _ hb) (hp.1 b hb)
    · exact ih (fun x hx y hy => h x (List.mem_cons_of_mem _ hx) y (List.mem_cons_of_mem _ hy))
        hp.2

lemma init_inv (g : Graph) (hwf : WF g) : StInv g [] [] (initSt g) := by
  obtain ⟨hnod, _, _, _⟩ := hwf
  have hnod' : ((g.inputs.filter (fun v => !v.isConst)).map (fun v => v.name)).Nodup := hnod
  have hfresh : ∀ v ∈ g.inputs, v.isConst = false →
      v.name ∉ ([] : Layout).map (fun e => e.1.name) := by simp
  have hpres := seed_present g.inputs [] hfresh hnod'
  refine ⟨?_, ?_, ?_, List.Pairwise.nil, ?_, ?_, ?_, ?_, rfl, ?_⟩
  · show ((seedInputs [] g.inputs).map (fun e => e.1.name)).Nodup
    rw [seed_names g.inputs [] hfresh hnod']
    simpa using hnod'
  · intro v hv
    rw [inputsNC, List.mem_filter] at hv
    exact hpres.2 v hv.1 (by simpa using hv.2)
  · intro e he
    rcases seed_mem g.inputs [] e he with h | h
    · cases h
    · refine ⟨Or.inl ?_, h.2⟩
      rw [inputsNC, List.mem_filter]
      exact ⟨h.1, by simp [h.2]⟩
  · intro b hb; cases hb
  · intro b hb; cases hb
  · refine pairwise_imp_mem (fun a _ b _ h => fun _ _ => h) ?_
    exact seed_pairwise g.inputs [] hfresh hnod' List.Pairwise.nil
  · intro b hb; cases hb
  · intro u huc
    refine ⟨?_, ?_, ?_⟩
    · intro _; simp [initSt]
    · intro _ hu; cases hu
    · intro _ _; simp [initSt]

/-! ## The general-case output step preserves the invariant -/

lemma out_step (g : Graph) (op : GOp) (st : AllocSt) (v : GVar)
    (prod cons : List GVar)
    (hinv : StInv g prod cons st)
    (hflat : op.flatten = false)
    (hvc : v.isConst = false)
    (hnin : ∀ u ∈ inputsNC g, u.name ≠ v.name)
    (hnprod : ∀ u ∈ prod, u.name ≠ v.name)
    (hcons0 : cons.count v = 0)
    (st' : AllocSt)
    (hstep : processOutput g op st v = some st') :
    StInv g (prod ++ [v]) cons st' := by
  have hcontains : layoutContains st.layout v = false := by
    cases h : layoutContains st.layout v with
    | false => rfl
    | true =>
      exfalso
      have hmemn := (layoutContains_iff st.layout v).1 h
      obtain ⟨e, he, hname⟩ := List.mem_map.1 hmemn
      rcases (hinv.layoutChar e he).1 with hin | hpr
      · exact hnin e.1 hin hname
      · exact hnprod e.1 hpr hname
  have hvL : v.name ∉ st.layout.map (fun e => e.1.name) := by
    intro hx
    have h := (layoutContains_iff st.layout v).2 hx
    rw [hcontains] at h
    cases h
  have hnotv : ∀ e ∈ st.layout, e.1 ≠ v := by
    intro e he hx
    exact hvL (by rw [← hx]; exact List.mem_map_of_mem _ he)
  have hretold : ∀ e ∈ st.layout,
      (fun u => if u = v then (fanout g v : Int) else st.retain u) e.1 = st.retain e.1 :=
    fun e he => if_neg (hnotv e he)
  rw [processOutput_eval g op st v hvc hcontains hflat] at hstep
  -- ledger for the updated retain map, common to both cases
  have hledger : ∀ (L' : Layout), (∃ o, (v, o) ∈ L') →
      (∀ u o, (u, o) ∈ st.layout → (u, o) ∈ L') →
      Ledger g (prod ++ [v]) cons
        { st with
          layout := L'
          retain := fun u => if u = v then (fanout g v : Int) else st.retain u } := by
    intro L' hvmem hold
    intro u huc
    have hled := hinv.ledger u huc
    by_cases huv : u = v
    · subst huv
      refine ⟨?_, ?_, ?_⟩
      · intro hu
        exact absurd rfl (hnin u hu)
      · intro _ _
        constructor
        · show (if u = u then (fanout g u : Int) else st.retain u) = _
          rw [if_pos rfl, hcons0]
          simp
        · exact hvmem
      · intro _ hnp
        exact absurd (List.mem_append.2 (Or.inr (List.mem_singleton.2 rfl))) hnp
    · have hre : (fun w => if w = v then (fanout g v : Int) else st.retain w) u =
          st.retain u := if_neg huv
      refine ⟨?_, ?_, ?_⟩
      · intro hu
        show (if u = v then (fanout g v : Int) else st.retain u) = _
        rw [if_neg huv]
        exact (hled.1 hu)
      · intro hu hup
        rcases List.mem_append.1 hup with hup | hup
        · obtain ⟨hr, o, ho⟩ := hled.2.1 hu hup
          refine ⟨?_, o, hold u o ho⟩
          show (if u = v then (fanout g v : Int) else st.retain u) = _
          rw [if_neg huv]
          exact hr
        · rw [List.mem_singleton] at hup
          exact absurd hup huv
      · intro hu hup
        have hnp : u ∉ prod := fun hx =>
          hup (List.mem_append.2 (Or.inl hx))
        obtain ⟨hr, hcz⟩ := hled.2.2 hu hnp
        refine ⟨?_, hcz⟩
        show (if u = v then (fanout g v : Int) else st.retain u) = _
        rw [if_neg huv]
        exact hr
  cases hbf : specBestFit st.freel v.size with
  | none =>
    rw [hbf] at hstep
    have hrec : ({ st with
        layout := layoutInsert st.layout v (layoutSize st.layout)
        retain := fun u => if u = v then (fanout g v : Int) else st.retain u } : AllocSt) =
        st' := Option.some.inj hstep
    subst hrec
    have happ : layoutInsert st.layout v (layoutSize st.layout) =
        st.layout ++ [(v, layoutSize st.layout)] := layoutInsert_fresh _ _ _ hvL
    rw [happ]
    have hnames : (st.layout ++ [(v, layoutSize st.layout)]).map (fun e => e.1.name) =
        st.layout.map (fun e => e.1.name) ++ [v.name] := by simp
    refine ⟨?_, ?_, ?_, hinv.sepFree, hinv.posFree, ?_, ?_, ?_, hinv.ipNil, ?_⟩
    · show ((st.layout ++ [(v, layoutSize st.layout)]).map (fun e => e.1.name)).Nodup
      rw [hnames]
      simp [List.nodup_append, hinv.nodup, hvL]
    · intro u hu
      obtain ⟨o, ho⟩ := hinv.inputsIn u hu
      exact ⟨o, List.mem_append.2 (Or.inl ho)⟩
    · intro e he
      rcases List.mem_append.1 he with he | he
      · obtain ⟨hor, hc⟩ := hinv.layoutChar e he
        refine ⟨?_, hc⟩
        rcases hor with h | h
        · exact Or.inl h
        · exact Or.inr (List.mem_append.2 (Or.inl h))
      · rw [List.mem_singleton] at he
        subst he
        exact ⟨Or.inr (List.mem_append.2 (Or.inr (List.mem_singleton.2 rfl))), hvc⟩
    · intro b hb e he hlv
      rcases List.mem_append.1 he with he | he
      · exact hinv.freeLive b hb e he (live_congr_out hlv (hretold e he))
      · rw [List.mem_singleton] at he
        subst he
        intro x hx hx2
        have := hinv.freeBound b hb x hx
        simp only [inRange, entryBlock] at hx2
        omega
    · rw [List.pairwise_append]
      refine ⟨?_, List.pairwise_singleton _ _, ?_⟩
      · refine pairwise_imp_mem ?_ hinv.liveDisj
        intro a ha c hc h h1 h2
        exact h (live_congr_out h1 (hretold a ha)) (live_congr_out h2 (hretold c hc))
      · intro e he d hd
        rw [List.mem_singleton] at hd
        subst hd
        intro _ _
        have hle := layoutSize_mem_le st.layout e he
        intro x hx hx2
        simp only [inRange, entryBlock] at hx hx2
        omega
    · intro b hb x hx
      show x < layoutSize (st.layout ++ [(v, layoutSize st.layout)])
      have h1 := hinv.freeBound b hb x hx
      have h2 := layoutSize_le_append st.layout (v, layoutSize st.layout)
      omega
    · refine hledger _ ⟨layoutSize st.layout, ?_⟩ ?_
      · exact List.mem_append.2 (Or.inr (List.mem_singleton.2 rfl))
      · intro u o ho
        exact List.mem_append.2 (Or.inl ho)
  | some b =>
    rw [hbf] at hstep
    obtain ⟨hbm, hbs, _⟩ := specBestFit_sound st.freel v.size b hbf
    have hrec : ({ st with
        layout := layoutInsert st.layout v b.1
        retain := fun u => if u = v then (fanout g v : Int) else st.retain u
        freel := eraseFirst st.freel b ++
          (if v.size < b.2 then [(b.1 + v.size, b.2 - v.size)] else []) } : AllocSt) =
        st' := Option.some.inj hstep
    subst hrec
    obtain ⟨P, Q, hPQ⟩ := List.append_of_mem hbm
    obtain ⟨hPb, hQb, hPQsep, hbP, hbQ⟩ := pairwise_sep_split P Q b (hPQ ▸ hinv.sepFree)
    have herase : eraseFirst st.freel b = P ++ Q := by
      rw [hPQ]
      exact eraseFirst_split P Q b hbP
    have hmemF : ∀ c ∈ P ++ Q, c ∈ st.freel := by
      intro c hc
      rw [hPQ]
      rcases List.mem_append.1 hc with hc | hc
      · exact List.mem_append.2 (Or.inl hc)
      · exact List.mem_append.2 (Or.inr (List.mem_cons_of_mem _ hc))
    have hsepcb : ∀ c ∈ P ++ Q, Sep c b ∨ Sep b c := by
      intro c hc
      rcases List.mem_append.1 hc with hc | hc
      · exact Or.inl (hPb c hc)
      · exact Or.inr (hQb c hc)
    have happ : layoutInsert st.layout v b.1 = st.layout ++ [(v, b.1)] :=
      layoutInsert_fresh _ _ _ hvL
    rw [happ, herase]
    have hbpos : 0 < b.2 := hinv.posFree b hbm
    refine ⟨?_, ?_, ?_, ?_, ?_, ?_, ?_, ?_, hinv.ipNil, ?_⟩
    · show ((st.layout ++ [(v, b.1)]).map (fun e => e.1.name)).Nodup
      simp [List.nodup_append, hinv.nodup, hvL]
    · intro u hu
      obtain ⟨o, ho⟩ := hinv.inputsIn u hu
      exact ⟨o, List.mem_append.2 (Or.inl ho)⟩
    · intro e he
      rcases List.mem_append.1 he with he | he
      · obtain ⟨hor, hc⟩ := hinv.layoutChar e he
        refine ⟨?_, hc⟩
        rcases hor with h | h
        · exact Or.inl h
        · exact Or.inr (List.mem_append.2 (Or.inl h))
      · rw [List.mem_singleton] at he
        subst he
        exact ⟨Or.inr (List.mem_append.2 (Or.inr (List.mem_singleton.2 rfl))), hvc⟩
    · -- separation of the new free list
      by_cases hlt : v.size < b.2
      · rw [if_pos hlt, List.pairwise_append]
        refine ⟨hPQsep, List.pairwise_singleton _ _, ?_⟩
        intro c hc d hd
        rw [List.mem_singleton] at hd
        subst hd
        have h1 := hsepcb c hc
        unfold Sep at h1 ⊢
        simp only [] at h1 ⊢
        omega
      · rw [if_neg hlt, List.append_nil]
        exact hPQsep
    · intro c hc
      rcases List.mem_append.1 hc with hc | hc
      · exact hinv.posFree c (hmemF c hc)
      · by_cases hlt : v.size < b.2
        · rw [if_pos hlt, List.mem_singleton] at hc
          subst hc
          show 0 < b.2 - v.size
          omega
        · rw [if_neg hlt] at hc
          cases hc
    · -- free blocks vs live entries
      intro c hc e he hlv
      rcases List.mem_append.1 he with he | he
      · -- old entry
        have hlv' : live g st e.1 := live_congr_out hlv (hretold e he)
        rcases List.mem_append.1 hc with hc | hc
        · exact hinv.freeLive c (hmemF c hc) e he hlv'
        · by_cases hlt : v.size < b.2
          · rw [if_pos hlt, List.mem_singleton] at hc
            subst hc
            have hb2 := hinv.freeLive b hbm e he hlv'
            intro x hx hx2
            refine hb2 x ?_ hx2
            unfold inRange at hx ⊢
            simp only [] at hx ⊢
            omega
          · rw [if_neg hlt] at hc
            cases hc
      · -- the new entry (v, b.1)
        rw [List.mem_singleton] at he
        subst he
        rcases List.mem_append.1 hc with hc | hc
        · have h1 := hsepcb c hc
          intro x hx hx2
          unfold Sep at h1
          unfold inRange at hx
          unfold inRange entryBlock at hx2
          simp only [] at hx hx2
          omega
        · by_cases hlt : v.size < b.2
          · rw [if_pos hlt, List.mem_singleton] at hc
            subst hc
            intro x hx hx2
            unfold inRange at hx
            unfold inRange entryBlock at hx2
            simp only [] at hx hx2
            omega
          · rw [if_neg hlt] at hc
            cases hc
    · -- live entries pairwise disjoint
      rw [List.pairwise_append]
      refine ⟨?_, List.pairwise_singleton _ _, ?_⟩
      · refine pairwise_imp_mem ?_ hinv.liveDisj
        intro a ha c hc h h1 h2
        exact h (live_congr_out h1 (hretold a ha)) (live_congr_out h2 (hretold c hc))
      · intro e he d hd
        rw [List.mem_singleton] at hd
        subst hd
        intro hlv _
        have hlv' : live g st e.1 := live_congr_out hlv (hretold e he)
        have hb2 := hinv.freeLive b hbm e he hlv'
        intro x hx hx2
        refine absurd hx (hb2 x ?_)
        unfold inRange entryBlock at hx2
        unfold inRange
        simp only [] at hx2 ⊢
        omega
    · -- free blocks stay inside the arena
      intro c hc x hx
      show x < layoutSize (st.layout ++ [(v, b.1)])
      have hmono := layoutSize_le_append st.layout (v, b.1)
      rcases List.mem_append.1 hc with hc | hc
      · have := hinv.freeBound c (hmemF c hc) x hx
        omega
      · by_cases hlt : v.size < b.2
        · rw [if_pos hlt, List.mem_singleton] at hc
          subst hc
          have hxb : inRange b x := by
            unfold inRange at hx ⊢
            simp only [] at hx ⊢
            omega
          have := hinv.freeBound b hbm x hxb
          omega
        · rw [if_neg hlt] at hc
          cases hc
    · refine hledger _ ⟨b.1, ?_⟩ ?_
      · exact List.mem_append.2 (Or.inr (List.mem_singleton.2 rfl))
      · intro u o ho
        exact List.mem_append.2 (Or.inl ho)

lemma count_app_self (l : List GVar) (v : GVar) : (l ++ [v]).count v = l.count v + 1 := by
  simp

lemma count_app_other (l : List GVar) (u v : GVar) (h : u ≠ v) :
    (l ++ [v]).count u = l.count u := by
  rw [List.count_append]
  have h0 : List.count u [v] = 0 := by
    rw [List.count_eq_zero]
    simp [h]
  rw [h0]
  omega

lemma adisj_to_sep_le {c b : Block} (h : ADisj c b) (hc : 0 < c.2) (hb : 0 < b.2) :
    c.1 + c.2 ≤ b.1 ∨ b.1 + b.2 ≤ c.1 := by
  by_contra hcon
  push_neg at hcon
  have h1 : ¬ inRange b (max c.1 b.1) :=
    h (max c.1 b.1) (by unfold inRange; constructor <;> omega)
  unfold inRange at h1
  omega

lemma liveDisj_pair {g : Graph} {st : AllocSt} {l : Layout}
    (hp : l.Pairwise (fun e1 e2 =>
      live g st e1.1 → live g st e2.1 → ADisj (entryBlock e1) (entryBlock e2)))
    {e1 e2 : Entry} (h1 : e1 ∈ l) (h2 : e2 ∈ l) (hne : e1 ≠ e2)
    (hl1 : live g st e1.1) (hl2 : live g st e2.1) :
    ADisj (entryBlock e1) (entryBlock e2) := by
  have hsym : Symmetric (fun a b : Entry =>
      (live g st a.1 → live g st b.1 → ADisj (entryBlock a) (entryBlock b)) ∧
      (live g st b.1 → live g st a.1 → ADisj (entryBlock b) (entryBlock a))) := by
    intro a b h
    exact ⟨h.2, h.1⟩
  have hp2 : l.Pairwise (fun a b : Entry =>
      (live g st a.1 → live g st b.1 → ADisj (entryBlock a) (entryBlock b)) ∧
      (live g st b.1 → live g st a.1 → ADisj (entryBlock b) (entryBlock a))) :=
    pairwise_imp_mem (fun a _ b _ h => ⟨h, fun x y => adisj_symm (h y x)⟩) hp
  exact (List.Pairwise.forall hsym hp2 h1 h2 hne).1 hl1 hl2

lemma live_dec_transport {g : Graph} {st : AllocSt} {v : GVar} {L : Layout}
    {F : List Block} {ip : List (GVar × GVar)} {u : GVar}
    (hlv : live g { layout := L
                    retain := fun w => if w = v then st.retain v - 1 else st.retain w
                    freel := F
                    inplace := ip } u)
    (hvlive : live g st v) : live g st u := by
  by_cases huv : u = v
  · subst huv; exact hvlive
  · rcases hlv with h | h | h
    · exact Or.inl h
    · exact Or.inr (Or.inl h)
    · refine Or.inr (Or.inr ?_)
      have hre : (if u = v then st.retain v - 1 else st.retain u) = st.retain u := if_neg huv
      rw [← hre]
      exact h

lemma not_live_update {g : Graph} {st : AllocSt} {v : GVar} {L : Layout}
    {F : List Block} {ip : List (GVar × GVar)}
    (hin : v ∉ inputsNC g) (hf : fanout g v ≠ 0) (hr : st.retain v - 1 = 0) :
    ¬ live g { layout := L
               retain := fun w => if w = v then st.retain v - 1 else st.retain w
               freel := F
               inplace := ip } v := by
  intro h
  rcases h with h | h | h
  · exact hin h
  · exact hf h
  · apply h
    show (if v = v then st.retain v - 1 else st.retain v) = 0
    rw [if_pos rfl]
    exact hr

/-- `processInput` on a state with an empty in-place dict, evaluated. -/
lemma processInput_eval (st : AllocSt) (v : GVar) (hvc : v.isConst = false)
    (hip : st.inplace = []) :
    processInput st v =
      if st.retain v - 1 = 0 then
        match layoutFind? st.layout v.name with
        | none => none
        | some e =>
          match releaseBlock st.freel (e.2, e.1.size) with
          | none => none
          | some f =>
            some { st with
              retain := fun u => if u = v then st.retain v - 1 else st.retain u
              freel := f }
      else
        some { st with
          retain := fun u => if u = v then st.retain v - 1 else st.retain u } := by
  unfold processInput
  rw [if_neg (by simp [hvc])]
  rw [show ipResolve st.inplace v = v from by rw [hip]; rfl]

/-! ## The general-case input step preserves the invariant -/

lemma in_step (g : Graph) (st : AllocSt) (v : GVar)
    (prod cons : List GVar)
    (hinv : StInv g prod cons st)
    (hvc : v.isConst = false)
    (hv : v ∈ inputsNC g ∨ v ∈ prod)
    (hcnt : v ∉ inputsNC g → cons.count v + 1 ≤ fanout g v)
    (st' : AllocSt)
    (hstep : processInput st v = some st') :
    StInv g prod (cons ++ [v]) st' := by
  rw [processInput_eval st v hvc hinv.ipNil] at hstep
  by_cases hin : v ∈ inputsNC g
  · -- a graph input: the count goes negative, never released
    have hled := (hinv.ledger v hvc).1 hin
    have hr : ¬ (st.retain v - 1 = 0) := by
      rw [hled]
      omega
    rw [if_neg hr] at hstep
    have hrec : ({ st with
        retain := fun u => if u = v then st.retain v - 1 else st.retain u } : AllocSt) =
        st' := Option.some.inj hstep
    subst hrec
    have hvlive : live g st v := Or.inl hin
    refine ⟨hinv.nodup, hinv.inputsIn, hinv.layoutChar, hinv.sepFree, hinv.posFree,
      ?_, ?_, hinv.freeBound, hinv.ipNil, ?_⟩
    · intro b hb e he hlv
      exact hinv.freeLive b hb e he (live_dec_transport hlv hvlive)
    · refine pairwise_imp_mem ?_ hinv.liveDisj
      intro a _ c _ h h1 h2
      exact h (live_dec_transport h1 hvlive) (live_dec_transport h2 hvlive)
    · intro u hu
      by_cases huv : u = v
      · subst huv
        refine ⟨?_, ?_, ?_⟩
        · intro _
          show (if u = u then st.retain u - 1 else st.retain u) = _
          rw [if_pos rfl, count_app_self, hled]
          push_cast
          omega
        · intro hni _
          exact absurd hin hni
        · intro hni _
          exact absurd hin hni
      · have hledu := hinv.ledger u hu
        refine ⟨?_, ?_, ?_⟩
        · intro h1
          show (if u = v then st.retain v - 1 else st.retain u) = _
          rw [if_neg huv, count_app_other cons u v huv]
          exact hledu.1 h1
        · intro h1 h2
          obtain ⟨hr1, o, ho⟩ := hledu.2.1 h1 h2
          refine ⟨?_, o, ho⟩
          show (if u = v then st.retain v - 1 else st.retain u) = _
          rw [if_neg huv, count_app_other cons u v huv]
          exact hr1
        · intro h1 h2
          obtain ⟨hr1, hc1⟩ := hledu.2.2 h1 h2
          refine ⟨?_, ?_⟩
          · show (if u = v then st.retain v - 1 else st.retain u) = _
            rw [if_neg huv]
            exact hr1
          · rw [count_app_other cons u v huv]
            exact hc1
  · -- a produced value
    have hprod : v ∈ prod := hv.resolve_left hin
    have hcnt' : cons.count v + 1 ≤ fanout g v := hcnt hin
    have hf : fanout g v ≠ 0 := by omega
    obtain ⟨hret, o, ho⟩ := (hinv.ledger v hvc).2.1 hin hprod
    by_cases hr0 : st.retain v - 1 = 0
    · -- the count hits zero: release the block
      rw [if_pos hr0] at hstep
      have hret1 : st.retain v = 1 := by omega
      have hfind : layoutFind? st.layout v.name = some (v, o) :=
        layoutFind?_of_mem_nodup st.layout (v, o) ho hinv.nodup
      rw [hfind] at hstep
      have hstep2 : (match releaseBlock st.freel (o, v.size) with
          | none => none
          | some f =>
            some { st with
              retain := fun u => if u = v then st.retain v - 1 else st.retain u
              freel := f }) = some st' := hstep
      have hvlive : live g st v := Or.inr (Or.inr (by rw [hret1]; omega))
      by_cases hsz : v.size = 0
      · exfalso
        rw [hsz, releaseBlock_zero st.freel o hinv.sepFree hinv.posFree] at hstep2
        have hno : (none : Option AllocSt) = some st' := hstep2
        cases hno
      · have hszpos : 0 < v.size := Nat.pos_of_ne_zero hsz
        have hdisj : ∀ c ∈ st.freel, c.1 + c.2 ≤ o ∨ o + v.size ≤ c.1 := fun c hc =>
          adisj_to_sep_le (hinv.freeLive c hc (v, o) ho hvlive) (hinv.posFree c hc) hszpos
        obtain ⟨F', hF', hsep', hpos', hcov⟩ :=
          releaseBlock_char st.freel (o, v.size) hinv.sepFree hinv.posFree hszpos hdisj
        rw [hF'] at hstep2
        have hrec : ({ st with
            retain := fun u => if u = v then st.retain v - 1 else st.retain u
            freel := F' } : AllocSt) = st' := Option.some.inj hstep2
        subst hrec
        refine ⟨hinv.nodup, hinv.inputsIn, hinv.layoutChar, hsep', hpos',
          ?_, ?_, ?_, hinv.ipNil, ?_⟩
        · -- free blocks vs still-live entries
          intro c hc e he hlv
          by_cases hev : e.1 = v
          · rw [hev] at hlv
            exact absurd hlv (not_live_update hin hf hr0)
          · have hlv' : live g st e.1 := live_dec_transport hlv hvlive
            intro x hx
            rcases hcov c hc x hx with ⟨d, hd, hdx⟩ | hbx
            · exact hinv.freeLive d hd e he hlv' x hdx
            · have hne : ((v, o) : Entry) ≠ e := fun hx0 => hev (by rw [← hx0])
              exact liveDisj_pair hinv.liveDisj ho he hne hvlive hlv' x hbx
        · -- live entries stay pairwise disjoint
          refine pairwise_imp_mem ?_ hinv.liveDisj
          intro a _ c _ h h1 h2
          by_cases hav : a.1 = v
          · rw [hav] at h1
            exact absurd h1 (not_live_update hin hf hr0)
          · by_cases hcv : c.1 = v
            · rw [hcv] at h2
              exact absurd h2 (not_live_update hin hf hr0)
            · exact h (live_dec_transport h1 hvlive) (live_dec_transport h2 hvlive)
        · -- the released range is still inside the arena
          intro c hc x hx
          show x < layoutSize st.layout
          rcases hcov c hc x hx with ⟨d, hd, hdx⟩ | hbx
          · exact hinv.freeBound d hd x hdx
          · have hle := layoutSize_mem_le st.layout (v, o) ho
            unfold inRange at hbx
            simp only [] at hbx hle
            omega
        · -- ledger after consuming the last occurrence
          intro u hu
          by_cases huv : u = v
          · subst huv
            refine ⟨?_, ?_, ?_⟩
            · intro h1
              exact absurd h1 hin
            · intro _ _
              refine ⟨?_, o, ho⟩
              show (if u = u then st.retain u - 1 else st.retain u) = _
              rw [if_pos rfl, count_app_self]
              rw [hret] at hret1 ⊢
              push_cast
              omega
            · intro _ h2
              exact absurd hprod h2
          · have hledu := hinv.ledger u hu
            refine ⟨?_, ?_, ?_⟩
            · intro h1
              show (if u = v then st.retain v - 1 else st.retain u) = _
              rw [if_neg huv, count_app_other cons u v huv]
              exact hledu.1 h1
            · intro h1 h2
              obtain ⟨hr1, o', ho'⟩ := hledu.2.1 h1 h2
              refine ⟨?_, o', ho'⟩
              show (if u = v then st.retain v - 1 else st.retain u) = _
              rw [if_neg huv, count_app_other cons u v huv]
              exact hr1
            · intro h1 h2
              obtain ⟨hr1, hc1⟩ := hledu.2.2 h1 h2
              refine ⟨?_, ?_⟩
              · show (if u = v then st.retain v - 1 else st.retain u) = _
                rw [if_neg huv]
                exact hr1
              · rw [count_app_other cons u v huv]
                exact hc1
    · -- the count stays positive: only the retain map changes
      rw [if_neg hr0] at hstep
      have hrec : ({ st with
          retain := fun u => if u = v then st.retain v - 1 else st.retain u } : AllocSt) =
          st' := Option.some.inj hstep
      subst hrec
      have hvlive : live g st v := Or.inr (Or.inr (by rw [hret]; omega))
      refine ⟨hinv.nodup, hinv.inputsIn, hinv.layoutChar, hinv.sepFree, hinv.posFree,
        ?_, ?_, hinv.freeBound, hinv.ipNil, ?_⟩
      · intro b hb e he hlv
        exact hinv.freeLive b hb e he (live_dec_transport hlv hvlive)
      · refine pairwise_imp_mem ?_ hinv.liveDisj
        intro a _ c _ h h1 h2
        exact h (live_dec_transport h1 hvlive) (live_dec_transport h2 hvlive)
      · intro u hu
        by_cases huv : u = v
        · subst huv
          refine ⟨?_, ?_, ?_⟩
          · intro h1
            exact absurd h1 hin
          · intro _ _
            refine ⟨?_, o, ho⟩
            show (if u = u then st.retain u - 1 else st.retain u) = _
            rw [if_pos rfl, count_app_self, hret]
            push_cast
            omega
          · intro _ h2
            exact absurd hprod h2
        · have hledu := hinv.ledger u hu
          refine ⟨?_, ?_, ?_⟩
          · intro h1
            show (if u = v then st.retain v - 1 else st.retain u) = _
            rw [if_neg huv, count_app_other cons u v huv]
            exact hledu.1 h1
          · intro h1 h2
            obtain ⟨hr1, o', ho'⟩ := hledu.2.1 h1 h2
            refine ⟨?_, o', ho'⟩
            show (if u = v then st.retain v - 1 else st.retain u) = _
            rw [if_neg huv, count_app_other cons u v huv]
            exact hr1
          · intro h1 h2
            obtain ⟨hr1, hc1⟩ := hledu.2.2 h1 h2
            refine ⟨?_, ?_⟩
            · show (if u = v then st.retain v - 1 else st.retain u) = _
              rw [if_neg huv]
              exact hr1
            · rw [count_app_other cons u v huv]
              exact hc1

/-! ## Folding the step lemmas over an operator and over the operator list -/

lemma outs_fold (g : Graph) (op : GOp) (hflat : op.flatten = false)
    (outs : List GVar) :
    ∀ (st : AllocSt) (prod cons : List GVar),
    StInv g prod cons st →
    (∀ v ∈ outs, v.isConst = false → ∀ u ∈ inputsNC g, u.name ≠ v.name) →
    (∀ v ∈ outs, v.isConst = false → ∀ u ∈ prod, u.name ≠ v.name) →
    ((outs.filter (fun v => !v.isConst)).map (fun v => v.name)).Nodup →
    (∀ v ∈ outs, v.isConst = false → cons.count v = 0) →
    ∀ st', processOutputs g op st outs = some st' →
    StInv g (prod ++ outs.filter (fun v => !v.isConst)) cons st' := by
  induction outs with
  | nil =>
    intro st prod cons hinv _ _ _ _ st' hstep
    have hx : st = st' := Option.some.inj hstep
    subst hx
    simpa using hinv
  | cons v vs ih =>
    intro st prod cons hinv h1 h2 hnd h4 st' hstep
    have hstep2 : (match processOutput g op st v with
        | none => none
        | some st1 => processOutputs g op st1 vs) = some st' := hstep
    cases hvb : v.isConst with
    | true =>
      have hso : processOutput g op st v = some st := by
        show (if v.isConst = true then some st else _) = some st
        rw [if_pos hvb]
      rw [hso] at hstep2
      have hstep3 : processOutputs g op st vs = some st' := hstep2
      have hfeq : List.filter (fun w => !w.isConst) (v :: vs) =
          List.filter (fun w => !w.isConst) vs := by
        simp [List.filter_cons, hvb]
      rw [hfeq]
      rw [hfeq] at hnd
      exact ih st prod cons hinv
        (fun w hw hwc => h1 w (List.mem_cons_of_mem _ hw) hwc)
        (fun w hw hwc => h2 w (List.mem_cons_of_mem _ hw) hwc)
        hnd
        (fun w hw hwc => h4 w (List.mem_cons_of_mem _ hw) hwc)
        st' hstep3
    | false =>
      cases hso : processOutput g op st v with
      | none =>
        rw [hso] at hstep2
        have hx : (none : Option AllocSt) = some st' := hstep2
        cases hx
      | some st1 =>
        rw [hso] at hstep2
        have hstep3 : processOutputs g op st1 vs = some st' := hstep2
        have hfeq : List.filter (fun w => !w.isConst) (v :: vs) =
            v :: List.filter (fun w => !w.isConst) vs := by
          simp [List.filter_cons, hvb]
        rw [hfeq] at hnd
        rw [List.map_cons, List.nodup_cons] at hnd
        have hinv1 := out_step g op st v prod cons hinv hflat hvb
          (h1 v (List.mem_cons_self _ _) hvb)
          (h2 v (List.mem_cons_self _ _) hvb)
          (h4 v (List.mem_cons_self _ _) hvb) st1 hso
        rw [hfeq, List.append_cons]
        exact ih st1 (prod ++ [v]) cons hinv1
          (fun w hw hwc => h1 w (List.mem_cons_of_mem _ hw) hwc)
          (by
            intro w hw hwc u hu
            rcases List.mem_append.1 hu with hu | hu
            · exact h2 w (List.mem_cons_of_mem _ hw) hwc u hu
            · rw [List.mem_singleton] at hu
              subst hu
              intro hx
              apply hnd.1
              rw [hx]
              exact List.mem_map_of_mem _ (List.mem_filter.2 ⟨hw, by simp [hwc]⟩))
          hnd.2
          (fun w hw hwc => h4 w (List.mem_cons_of_mem _ hw) hwc)
          st' hstep3

lemma ins_fold (g : Graph) (ins : List GVar) :
    ∀ (st : AllocSt) (prod cons : List GVar),
    StInv g prod cons st →
    (∀ v ∈ ins, v.isConst = false → (v ∈ inputsNC g ∨ v ∈ prod)) →
    (∀ u : GVar, u.isConst = false → (cons ++ ins).count u ≤ fanout g u) →
    ∀ st', processInputs st ins = some st' →
    StInv g prod (cons ++ ins) st' := by
  induction ins with
  | nil =>
    intro st prod cons hinv _ _ st' hstep
    have hx : st = st' := Option.some.inj hstep
    subst hx
    simpa using hinv
  | cons v vs ih =>
    intro st prod cons hinv hmem hcap st' hstep
    have hstep2 : (match processInput st v with
        | none => none
        | some st1 => processInputs st1 vs) = some st' := hstep
    cases hvb : v.isConst with
    | true =>
      have hsi : processInput st v = some st := by
        show (if v.isConst = true then some st else _) = some st
        rw [if_pos hvb]
      rw [hsi] at hstep2
      have hstep3 : processInputs st vs = some st' := hstep2
      have hledger1 : Ledger g prod (cons ++ [v]) st := by
        intro u hu
        have hne : u ≠ v := by
          intro hx
          rw [hx, hvb] at hu
          simp at hu
        have hl := hinv.ledger u hu
        refine ⟨?_, ?_, ?_⟩
        · intro hh
          rw [count_app_other cons u v hne]
          exact hl.1 hh
        · intro hh1 hh2
          obtain ⟨hr, o, ho⟩ := hl.2.1 hh1 hh2
          exact ⟨by rw [count_app_other cons u v hne]; exact hr, o, ho⟩
        · intro hh1 hh2
          obtain ⟨hr, hc⟩ := hl.2.2 hh1 hh2
          exact ⟨hr, by rw [count_app_other cons u v hne]; exact hc⟩
      have hinv1 : StInv g prod (cons ++ [v]) st :=
        ⟨hinv.nodup, hinv.inputsIn, hinv.layoutChar, hinv.sepFree, hinv.posFree,
         hinv.freeLive, hinv.liveDisj, hinv.freeBound, hinv.ipNil, hledger1⟩
      have hres := ih st prod (cons ++ [v]) hinv1
        (fun w hw hwc => hmem w (List.mem_cons_of_mem _ hw) hwc)
        (fun u hu => by rw [List.append_assoc]; exact hcap u hu)
        st' hstep3
      rw [List.append_cons]
      exact hres
    | false =>
      cases hsi : processInput st v with
      | none =>
        rw [hsi] at hstep2
        have hx : (none : Option AllocSt) = some st' := hstep2
        cases hx
      | some st1 =>
        rw [hsi] at hstep2
        have hstep3 : processInputs st1 vs = some st' := hstep2
        have hcnt : v ∉ inputsNC g → cons.count v + 1 ≤ fanout g v := by
          intro _
          have h := hcap v hvb
          rw [List.count_append] at h
          have h2 : (v :: vs).count v = vs.count v + 1 := List.count_cons_self v vs
          omega
        have hinv1 := in_step g st v prod cons hinv hvb
          (hmem v (List.mem_cons_self _ _) hvb) hcnt st1 hsi
        have hres := ih st1 prod (cons ++ [v]) hinv1
          (fun w hw hwc => hmem w (List.mem_cons_of_mem _ hw) hwc)
          (fun u hu => by rw [List.append_assoc]; exact hcap u hu)
          st' hstep3
        rw [List.append_cons]
        exact hres

lemma op_step (g : Graph) (op : GOp) (st : AllocSt) (prod cons : List GVar)
    (hinv : StInv g prod cons st)
    (hflat : op.flatten = false)
    (h1 : ∀ v ∈ op.outputs, v.isConst = false → ∀ u ∈ inputsNC g, u.name ≠ v.name)
    (h2 : ∀ v ∈ op.outputs, v.isConst = false → ∀ u ∈ prod, u.name ≠ v.name)
    (hnd : ((op.outputs.filter (fun v => !v.isConst)).map (fun v => v.name)).Nodup)
    (h4 : ∀ v ∈ op.outputs, v.isConst = false → cons.count v = 0)
    (hmem : ∀ v ∈ op.inputs, v.isConst = false →
      (v ∈ inputsNC g ∨ v ∈ prod ++ op.outputs.filter (fun w => !w.isConst)))
    (hcap : ∀ u : GVar, u.isConst = false → (cons ++ op.inputs).count u ≤ fanout g u)
    (st' : AllocSt) (hstep : processOp g st op = some st') :
    StInv g (prod ++ op.outputs.filter (fun v => !v.isConst)) (cons ++ op.inputs) st' := by
  have hstep2 : (match processOutputs g op st op.outputs with
      | none => none
      | some st1 => processInputs st1 op.inputs) = some st' := hstep
  cases hpo : processOutputs g op st op.outputs with
  | none =>
    rw [hpo] at hstep2
    have hx : (none : Option AllocSt) = some st' := hstep2
    cases hx
  | some st1 =>
    rw [hpo] at hstep2
    have hstep3 : processInputs st1 op.inputs = some st' := hstep2
    have hinv1 := outs_fold g op hflat op.outputs st prod cons hinv h1 h2 hnd h4 st1 hpo
    exact ins_fold g op.inputs st1 (prod ++ op.outputs.filter (fun v => !v.isConst))
      cons hinv1 hmem hcap st' hstep3

/-! ## Extracting per-operator facts from the topological-order check -/

lemma topo_extract :
    ∀ (done : List GOp) (avail : List GVar) (ops : List GOp) (op : GOp) (rest : List GOp),
    topoOkAux avail ops = true →
    ops = done ++ op :: rest →
    ∀ v ∈ op.inputs, v.isConst = false →
    v ∈ avail ++ done.flatMap GOp.outputs := by
  intro done
  induction done with
  | nil =>
    intro avail ops op rest htop heq v hv hvc
    subst heq
    have h2 : ((op.inputs.all (fun w => w.isConst || avail.any (fun u => u = w)))
        && topoOkAux (avail ++ op.outputs) rest) = true := htop
    rw [Bool.and_eq_true] at h2
    have h := h2.1
    have h3 := List.all_eq_true.1 h v hv
    rw [hvc, Bool.false_or] at h3
    obtain ⟨u, hu, huv⟩ := List.any_eq_true.1 h3
    have hx := of_decide_eq_true huv
    subst hx
    exact List.mem_append.2 (Or.inl hu)
  | cons d ds ih =>
    intro avail ops op rest htop heq v hv hvc
    subst heq
    have h2 : ((d.inputs.all (fun w => w.isConst || avail.any (fun u => u = w)))
        && topoOkAux (avail ++ d.outputs) (ds ++ op :: rest)) = true := htop
    rw [Bool.and_eq_true] at h2
    have h3 := h2.2
    have h4 := ih (avail ++ d.outputs) (ds ++ op :: rest) op rest h3 rfl v hv hvc
    rw [List.append_assoc] at h4
    rw [List.flatMap_cons]
    exact h4

/-! ## The invariant along the operator fold -/

lemma runOps_inv (g : Graph) (hwf : WF g) (hnf : NoFlatten g) :
    ∀ (ops done tail : List GOp) (st : AllocSt),
    g.ops = done ++ ops ++ tail →
    StInv g (prodOf done) (consOf done) st →
    ∀ st', runOps g st ops = some st' →
    StInv g (prodOf (done ++ ops)) (consOf (done ++ ops)) st' := by
  intro ops
  induction ops with
  | nil =>
    intro done tail st _ hinv st' hstep
    have hx : st = st' := Option.some.inj hstep
    subst hx
    simpa using hinv
  | cons op rest ih =>
    intro done tail st heq hinv st' hstep
    have hstep2 : (match processOp g st op with
        | none => none
        | some st1 => runOps g st1 rest) = some st' := hstep
    cases hop : processOp g st op with
    | none =>
      rw [hop] at hstep2
      have hx : (none : Option AllocSt) = some st' := hstep2
      cases hx
    | some st1 =>
      rw [hop] at hstep2
      have hstep3 : runOps g st1 rest = some st' := hstep2
      have heq' : g.ops = done ++ op :: (rest ++ tail) := by rw [heq]; simp
      have hopm : op ∈ g.ops := by
        rw [heq']
        exact List.mem_append.2 (Or.inr (List.mem_cons_self _ _))
      have hflat := hnf op hopm
      obtain ⟨hwf1, hwf2, hwf3, hwf4⟩ := hwf
      have hops2 : allOutputsNC g = prodOf done ++
          (op.outputs.filter (fun v => !v.isConst) ++ prodOf (rest ++ tail)) := by
        unfold allOutputsNC prodOf
        rw [heq']
        simp [List.flatMap_append, List.flatMap_cons, List.filter_append]
      have hnodup := hwf2
      rw [hops2, List.map_append, List.map_append, List.nodup_append] at hnodup
      have hnd23 := List.nodup_append.1 hnodup.2.1
      have hnd : ((op.outputs.filter (fun v => !v.isConst)).map (fun v => v.name)).Nodup :=
        hnd23.1
      have hmemout : ∀ v ∈ op.outputs, v.isConst = false → v ∈ allOutputsNC g := by
        intro v hv hvc
        refine List.mem_filter.2 ⟨?_, by simp [hvc]⟩
        exact List.mem_flatMap.2 ⟨op, hopm, hv⟩
      have h1 : ∀ v ∈ op.outputs, v.isConst = false →
          ∀ u ∈ inputsNC g, u.name ≠ v.name := by
        intro v hv hvc u hu
        exact (hwf3 v (hmemout v hv hvc) u hu).symm
      have hvn2 : ∀ v ∈ op.outputs, v.isConst = false →
          v.name ∈ (op.outputs.filter (fun w => !w.isConst)).map (fun w => w.name) := by
        intro v hv hvc
        exact List.mem_map_of_mem _ (List.mem_filter.2 ⟨hv, by simp [hvc]⟩)
      have h2 : ∀ v ∈ op.outputs, v.isConst = false →
          ∀ u ∈ prodOf done, u.name ≠ v.name := by
        intro v hv hvc u hu hx
        refine hnodup.2.2 (List.mem_map_of_mem _ hu) ?_
        rw [hx]
        exact List.mem_append.2 (Or.inl (hvn2 v hv hvc))
      have hnoin : ∀ v ∈ op.outputs, v.isConst = false → v ∉ inputsNC g := by
        intro v hv hvc hvin
        exact (hwf3 v (hmemout v hv hvc) v hvin) rfl
      have hnoprod : ∀ v ∈ op.outputs, v.isConst = false → v ∉ prodOf done := by
        intro v hv hvc hvp
        exact h2 v hv hvc v hvp rfl
      have h4 : ∀ v ∈ op.outputs, v.isConst = false → (consOf done).count v = 0 := by
        intro v hv hvc
        rw [List.count_eq_zero]
        intro hvm
        obtain ⟨o1, ho1, hvin'⟩ := List.mem_flatMap.1 hvm
        obtain ⟨A1, A2, hA⟩ := List.append_of_mem ho1
        have heq'' : g.ops = A1 ++ o1 :: (A2 ++ op :: (rest ++ tail)) := by
          rw [heq', hA]
          simp
        have hav := topo_extract A1 g.inputs g.ops o1 (A2 ++ op :: (rest ++ tail))
          hwf4 heq'' v hvin' hvc
        rcases List.mem_append.1 hav with hvg | hvA1
        · exact hnoin v hv hvc (List.mem_filter.2 ⟨hvg, by simp [hvc]⟩)
        · refine hnoprod v hv hvc (List.mem_filter.2 ⟨?_, by simp [hvc]⟩)
          rw [hA]
          obtain ⟨o2, ho2, hvo2⟩ := List.mem_flatMap.1 hvA1
          exact List.mem_flatMap.2 ⟨o2, List.mem_append.2 (Or.inl ho2), hvo2⟩
      have hmem : ∀ v ∈ op.inputs, v.isConst = false →
          (v ∈ inputsNC g ∨ v ∈ prodOf done ++ op.outputs.filter (fun w => !w.isConst)) := by
        intro v hv hvc
        have hav := topo_extract done g.inputs g.ops op (rest ++ tail) hwf4 heq' v hv hvc
        rcases List.mem_append.1 hav with hvg | hvd
        · exact Or.inl (List.mem_filter.2 ⟨hvg, by simp [hvc]⟩)
        · exact Or.inr (List.mem_append.2 (Or.inl (List.mem_filter.2 ⟨hvd, by simp [hvc]⟩)))
      have hcap : ∀ u : GVar, u.isConst = false →
          (consOf done ++ op.inputs).count u ≤ fanout g u := by
        intro u _
        unfold fanout
        rw [heq']
        have hfm : (done ++ op :: (rest ++ tail)).flatMap GOp.inputs =
            (consOf done ++ op.inputs) ++ (rest ++ tail).flatMap GOp.inputs := by
          unfold consOf
          simp [List.flatMap_append, List.flatMap_cons]
        rw [hfm]
        simp only [List.count_append]
        omega
      have hinv1 := op_step g op st (prodOf done) (consOf done) hinv hflat h1 h2 hnd h4
        hmem hcap st1 hop
      have hpe : prodOf (done ++ [op]) =
          prodOf done ++ op.outputs.filter (fun v => !v.isConst) := by
        unfold prodOf
        simp [List.flatMap_append, List.flatMap_cons, List.filter_append]
      have hce : consOf (done ++ [op]) = consOf done ++ op.inputs := by
        unfold consOf
        simp [List.flatMap_append, List.flatMap_cons]
      rw [← hpe, ← hce] at hinv1
      have hres := ih (done ++ [op]) tail st1 (by rw [heq]; simp)
        hinv1 st' hstep3
      have hre : (done ++ [op]) ++ rest = done ++ op :: rest := by simp
      rw [hre] at hres
      exact hres

/-- The allocator invariant holds at every prefix of the operator walk of a
well-formed Flatten-free graph. -/
lemma prefix_inv (g : Graph) (hwf : WF g) (hnf : NoFlatten g) (k : Nat) (st : AllocSt)
    (h : runOps g (initSt g) (g.ops.take k) = some st) :
    StInv g (prodOf (g.ops.take k)) (consOf (g.ops.take k)) st := by
  have h0 := init_inv g hwf
  have heq : g.ops = [] ++ g.ops.take k ++ g.ops.drop k := by
    simp [List.take_append_drop]
  have hres := runOps_inv g hwf hnf (g.ops.take k) [] (g.ops.drop k) (initSt g) heq h0 st h
  simpa using hres

/-- C2 counterexample: in the Flatten-free chain `I → Op1 → A → Op2 → B →
Op3 → C` the final in-place aliasing dict is empty, so no two values are in
an aliasing relationship; yet `A` (name 1) and `C` (name 3), both of size 4,
are laid out at the same offset 4 and their byte ranges coincide instead of
being disjoint: the claim fails because released (dead) entries stay in the
layout and their blocks are reused. -/
theorem c2_counterexample :
    varInplace gChain = some [] ∧
    varOffset gChain 1 = some 4 ∧
    varOffset gChain 3 = some 4 ∧
    aCh.size = 4 ∧ cCh.size = 4 ∧
    ¬ ADisj (4, 4) (4, 4) := by
  refine ⟨by decide, by decide, by decide, rfl, rfl, ?_⟩
  intro h
  exact h 4 (show 4 ≤ 4 ∧ 4 < 4 + 4 from by omega)
    (show 4 ≤ 4 ∧ 4 < 4 + 4 from by omega)

/-- C2 (amended): for a well-formed graph with no Flatten operators, at
every prefix of the operator walk of `allocate_variables`, any two layout
entries for distinct values that are both still live (graph inputs,
fan-out-0 values, or values with a nonzero retain count) have disjoint byte
ranges — overlap is confined to entries whose value is already dead. -/
theorem c2_live_disjoint_amended (g : Graph) (hwf : WF g) (hnf : NoFlatten g)
    (k : Nat) (st : AllocSt)
    (h : runOps g (initSt g) (g.ops.take k) = some st) :
    ∀ e1 ∈ st.layout, ∀ e2 ∈ st.layout, e1.1.name ≠ e2.1.name →
      live g st e1.1 → live g st e2.1 →
      ADisj (entryBlock e1) (entryBlock e2) := by
  have hinv := prefix_inv g hwf hnf k st h
  intro e1 h1 e2 h2 hne hl1 hl2
  have hne' : e1 ≠ e2 := fun hx => hne (congrArg (fun z => z.1.name) hx)
  exact liveDisj_pair hinv.liveDisj h1 h2 hne' hl1 hl2

/-- C2 witness: the amended disjointness instantiated on the concrete
two-operator graph `X → Op1 → Y → Op2 → Z` after both operators. -/
theorem c2_live_disjoint_amended_witness :
    WF gC1 ∧ NoFlatten gC1 ∧
    ∃ st, runOps gC1 (initSt gC1) (gC1.ops.take 2) = some st ∧
      ∀ e1 ∈ st.layout, ∀ e2 ∈ st.layout, e1.1.name ≠ e2.1.name →
        live gC1 st e1.1 → live gC1 st e2.1 →
        ADisj (entryBlock e1) (entryBlock e2) := by
  refine ⟨by unfold WF inputsNC allOutputsNC topoOk; decide,
    by unfold NoFlatten; decide, ?_⟩
  cases hrun : runOps gC1 (initSt gC1) (gC1.ops.take 2) with
  | none =>
    exfalso
    have hs : (runOps gC1 (initSt gC1) (gC1.ops.take 2)).isSome = true := by decide
    rw [hrun] at hs
    cases hs
  | some st =>
    exact ⟨st, rfl, c2_live_disjoint_amended gC1
      (by unfold WF inputsNC allOutputsNC topoOk; decide)
      (by unfold NoFlatten; decide) 2 st hrun⟩

/-- C7 counterexample: in `I → Op1 → X → Flatten → Y` the dead output `Y`
(fan-out 0, name 2) shares `X`'s block at offset 4 through the in-place
rule, and when `X`'s retain count reaches zero that block `(4,4)` is
released into the free set — so `Y`'s allocation does appear in the free
set, refuting the unconditional dead-output-retention claim. -/
theorem c7_counterexample :
    fanout gC7 yC7 = 0 ∧
    varOffset gC7 2 = some 4 ∧
    varFreel gC7 = some [(4, 4)] ∧
    yC7.size = 4 ∧
    ¬ ADisj (4, yC7.size) (4, 4) := by
  refine ⟨by decide, by decide, by decide, rfl, ?_⟩
  intro h
  exact h 4 (show 4 ≤ 4 ∧ 4 < 4 + 4 from by omega)
    (show 4 ≤ 4 ∧ 4 < 4 + 4 from by omega)

/-- C7 (amended): for a well-formed graph with no Flatten operators, at
every prefix of the operator walk, the block of every layout entry for a
fan-out-0 value is disjoint from every block of the free set (it is never
released) and from every other live entry's block (it is never reused). -/
theorem c7_dead_retention_amended (g : Graph) (hwf : WF g) (hnf : NoFlatten g)
    (k : Nat) (st : AllocSt)
    (h : runOps g (initSt g) (g.ops.take k) = some st) :
    ∀ e ∈ st.layout, fanout g e.1 = 0 →
      (∀ b ∈ st.freel, ADisj (entryBlock e) b) ∧
      (∀ e2 ∈ st.layout, e2.1.name ≠ e.1.name → live g st e2.1 →
        ADisj (entryBlock e) (entryBlock e2)) := by
  have hinv := prefix_inv g hwf hnf k st h
  intro e he hf
  have hlv : live g st e.1 := Or.inr (Or.inl hf)
  refine ⟨?_, ?_⟩
  · intro b hb
    exact adisj_symm (hinv.freeLive b hb e he hlv)
  · intro e2 h2 hne hl2
    exact liveDisj_pair hinv.liveDisj he h2
      (fun hx => hne (congrArg (fun z => z.1.name) hx.symm)) hlv hl2

/-- C7 witness: the amended dead-output retention instantiated on the
Flatten-free chain graph after all three operators (the final output `C`
has fan-out 0). -/
theorem c7_dead_retention_amended_witness :
    WF gChain ∧ NoFlatten gChain ∧
    ∃ st, runOps gChain (initSt gChain) (gChain.ops.take 3) = some st ∧
      ∀ e ∈ st.layout, fanout gChain e.1 = 0 →
        (∀ b ∈ st.freel, ADisj (entryBlock e) b) ∧
        (∀ e2 ∈ st.layout, e2.1.name ≠ e.1.name → live gChain st e2.1 →
          ADisj (entryBlock e) (entryBlock e2)) := by
  refine ⟨by unfold WF inputsNC allOutputsNC topoOk; decide,
    by unfold NoFlatten; decide, ?_⟩
  cases hrun : runOps gChain (initSt gChain) (gChain.ops.take 3) with
  | none =>
    exfalso
    have hs : (runOps gChain (initSt gChain) (gChain.ops.take 3)).isSome = true := by decide
    rw [hrun] at hs
    cases hs
  | some st =>
    exact ⟨st, rfl, c7_dead_retention_amended gChain
      (by unfold WF inputsNC allOutputsNC topoOk; decide)
      (by unfold NoFlatten; decide) 3 st hrun⟩

end WebdnnAlloc
